import Mathlib

/-!
# Mesh partitioner of Genius-TCAD-Open

Shallow embedding of `src/partition/partitioner.cc`, followed by the
recombination rates and the species lookup of
`src/material/Si/Si_band_default.cc`.

The mesh container, the element and node classes and the partitioning
strategy live outside the translated sources.  The mesh is embedded the way
the libMesh container behind `MeshBase` stores it: a vector of element slots
(a slot may be NULL), a vector of nodes, and the declared number of
partitions.  An element is referred to by the index of its slot; libMesh keeps
`_elements[i]->id() == i` (asserted by `Mesh::elem`), so the slot index is at
once the element pointer and the value of `elem->id()`.  The memory address
of an element object, which fixes the iteration order of pointer-keyed
containers, is a separate function `addr` from slot indices to addresses.
Cluster objects live on an explicit heap indexed by their address.
-/

namespace Genius

/-- Value of `DofObject::invalid_processor_id`.  The constant is defined outside
the translated sources; libMesh sets it to `static_cast<unsigned short>(-1)`,
the largest value of the processor-id type. -/
def invalid_processor_id : Nat := 65535

/-- A mesh node: the writable attributes used by the partitioner. -/
structure Node where
  processor_id : Nat := invalid_processor_id
  on_local : Bool := false
deriving DecidableEq, Repr

/-- A mesh element.  `nodes` holds the indices of the incident nodes in the
node vector, `neighbors` the face neighbour per side (`none` is a NULL
neighbour pointer), `children` the children of a refined element. -/
structure Elem where
  active : Bool := true
  nodes : List Nat := []
  neighbors : List (Option Nat) := []
  children : List Nat := []
  processor_id : Nat := 0
  on_local : Bool := false
deriving DecidableEq, Repr

/-- The mesh: element slots, nodes, declared partition count. -/
structure Mesh where
  elements : List (Option Elem) := []
  nodes : List Node := []
  n_partitions : Nat := 1
deriving DecidableEq, Repr

/-- Element stored in slot `i`, if the slot exists and is not NULL
(`mesh.elem(i)`, and the dereference of an element pointer). -/
def Mesh.elem (mesh : Mesh) (i : Nat) : Option Elem :=
  match mesh.elements[i]? with
  | some (some e) => some e
  | _ => none

/-- Total number of element slots, `mesh.n_elem()`. -/
def Mesh.n_elem (mesh : Mesh) : Nat := mesh.elements.length

/-! ## The partitioner object and `Partitioner::single_partition` -/

/-- A cluster: its id and the elements it refers to. -/
structure Cluster where
  id : Nat
  elems : List Nat
deriving DecidableEq, Repr

/-- The partitioner object: the heap of cluster objects (a freed cluster is
`none`), the vector `_clusters` of cluster pointers and the vector
`_elem_cluster_map` from element id to cluster pointer (`none` is NULL). -/
structure Partitioner where
  heap : List (Option Cluster) := []
  _clusters : List Nat := []
  _elem_cluster_map : List (Option Nat) := []
deriving DecidableEq, Repr

/-- The body of the element loop of `single_partition` (lines 114-118). -/
def single_elem (e : Elem) : Elem :=
  { e with processor_id := 0, on_local := true }

/-- The body of the node loop of `single_partition` (lines 124-128). -/
def single_node (nd : Node) : Node :=
  { nd with processor_id := 0, on_local := true }

/-- `Partitioner::single_partition` (lines 106-131): the cluster store and the
partition count are not touched. -/
def Partitioner.single_partition (p : Partitioner) (mesh : Mesh) : Partitioner × Mesh :=
  (p, { mesh with
          elements := mesh.elements.map (Option.map single_elem),
          nodes := mesh.nodes.map single_node })

/-! ## `Partitioner::_set_node_processor_ids` -/

/-- Write through a node pointer: apply `f` to the node with index `i`. -/
def modify_node (f : Node → Node) : Nat → List Node → List Node
  | _, [] => []
  | 0, nd :: rest => f nd :: rest
  | i + 1, nd :: rest => nd :: modify_node f i rest

/-- The reset of one node (lines 147-148). -/
def reset_node (nd : Node) : Node :=
  { nd with processor_id := invalid_processor_id, on_local := false }

/-- One step of the inner loop, lines 163-164:
`node->processor_id() = std::min(node->processor_id(), elem->processor_id())`. -/
def min_node (pid : Nat) (nd : Node) : Node :=
  { nd with processor_id := min nd.processor_id pid }

/-- The inner loop over the nodes of one element (lines 162-164). -/
def min_node_ids (pid : Nat) : List Nat → List Node → List Node
  | [], nodes => nodes
  | n :: ns, nodes => min_node_ids pid ns (modify_node (min_node pid) n nodes)

/-- The loop over all elements, lines 155-165: clears the element flag and
lowers the processor id of each of its nodes.  Returns the elements and the
nodes after the loop. -/
def assign_node_ids : List (Option Elem) → List Node → List (Option Elem) × List Node
  | [], nodes => ([], nodes)
  | none :: rest, nodes =>
      let r := assign_node_ids rest nodes
      (none :: r.1, r.2)
  | some e :: rest, nodes =>
      let r := assign_node_ids rest (min_node_ids e.processor_id e.nodes nodes)
      (some { e with on_local := false } :: r.1, r.2)

/-- The test of lines 178-180: some node of the element has the processor id
of this process. -/
def has_on_process_node (me : Nat) (nodes : List Node) (e : Elem) : Bool :=
  e.nodes.any (fun n =>
    match nodes[n]? with
    | some nd => nd.processor_id == me
    | none => false)

/-- The set `elem_has_on_process_node` built by lines 175-181, as the list of
the element pointers inserted; `h` is the slot index of the first element of
the list still to visit. -/
def build_on_process_set (me : Nat) (nodes : List Node) : Nat → List (Option Elem) → List Nat
  | _, [] => []
  | h, none :: rest => build_on_process_set me nodes (h + 1) rest
  | h, some e :: rest =>
      if has_on_process_node me nodes e then h :: build_on_process_set me nodes (h + 1) rest
      else build_on_process_set me nodes (h + 1) rest

/-- The loop over the sides, lines 203-215: some non-NULL neighbour belongs to
this process or is in the set. -/
def neighbor_on_local (me : Nat) (all : List (Option Elem)) (on_process : List Nat) :
    List (Option Nat) → Bool
  | [] => false
  | none :: rest => neighbor_on_local me all on_process rest
  | some nb :: rest =>
      (match all[nb]? with
       | some (some ne) => ne.processor_id == me
       | _ => false)
      || on_process.contains nb
      || neighbor_on_local me all on_process rest

/-- The decision of lines 191-215 for the element in slot `h`: does control
reach the label `on_local`? -/
def goto_on_local (me : Nat) (all : List (Option Elem)) (on_process : List Nat)
    (h : Nat) (e : Elem) : Bool :=
  e.processor_id == me || on_process.contains h || neighbor_on_local me all on_process e.neighbors

/-- One step of the inner loop of lines 223-224. -/
def local_node (nd : Node) : Node := { nd with on_local := true }

/-- The inner loop of lines 223-224: every node of the element becomes local. -/
def set_nodes_on_local : List Nat → List Node → List Node
  | [], nodes => nodes
  | n :: ns, nodes => set_nodes_on_local ns (modify_node local_node n nodes)

/-- The loop of lines 186-226.  `all` is the element vector on entry of the
loop, from which the processor ids of neighbours are read (the loop writes
locality flags only); `h` is the slot index of the first element still to
visit. -/
def mark_on_local (me : Nat) (all : List (Option Elem)) (on_process : List Nat) :
    Nat → List (Option Elem) → List Node → List (Option Elem) × List Node
  | _, [], nodes => ([], nodes)
  | h, none :: rest, nodes =>
      let r := mark_on_local me all on_process (h + 1) rest nodes
      (none :: r.1, r.2)
  | h, some e :: rest, nodes =>
      if goto_on_local me all on_process h e then
        let r := mark_on_local me all on_process (h + 1) rest (set_nodes_on_local e.nodes nodes)
        (some { e with on_local := true } :: r.1, r.2)
      else
        let r := mark_on_local me all on_process (h + 1) rest nodes
        (some e :: r.1, r.2)

/-- `Partitioner::_set_node_processor_ids` (lines 136-246); `me` is
`Genius::processor_id()`, the id of the running process. -/
def _set_node_processor_ids (me : Nat) (mesh : Mesh) : Mesh :=
  let nodes0 := mesh.nodes.map reset_node
  let r1 := assign_node_ids mesh.elements nodes0
  let on_process := build_on_process_set me r1.2 0 r1.1
  let r2 := mark_on_local me r1.1 on_process 0 r1.1 r1.2
  { mesh with elements := r2.1, nodes := r2.2 }

/-! ## The cluster store -/

/-- Dereference of a cluster pointer: the live cluster object at address `c`. -/
def deref (heap : List (Option Cluster)) (c : Nat) : Option Cluster :=
  match heap[c]? with
  | some (some cl) => some cl
  | _ => none

/-- The statement `delete c` on a cluster pointer. -/
def delete_cluster (heap : List (Option Cluster)) (c : Nat) : List (Option Cluster) :=
  heap.set c none

/-- `Partitioner::_clear_cluster` (lines 340-347). -/
def Partitioner._clear_cluster (p : Partitioner) : Partitioner :=
  { heap := p._clusters.foldl delete_cluster p.heap,
    _clusters := [],
    _elem_cluster_map := [] }

/-- `std::vector::resize(n, 0)` on the table of cluster pointers. -/
def resize_map (n : Nat) (t : List (Option Nat)) : List (Option Nat) :=
  t.take n ++ List.replicate (n - t.length) none

/-- The range `active_elements_begin() .. active_elements_end()`: the slot
indices of the non-NULL active elements, in slot order; `h` is the index of
the first slot of the list. -/
def active_elements : Nat → List (Option Elem) → List Nat
  | _, [] => []
  | h, none :: rest => active_elements (h + 1) rest
  | h, some e :: rest =>
      if e.active then h :: active_elements (h + 1) rest else active_elements (h + 1) rest

/-- The loop of `_build_flat_cluster`, lines 259-270, over the active
elements: a new cluster is allocated at the end of the heap. -/
def build_flat_loop : List Nat → Partitioner → Partitioner
  | [], p => p
  | h :: rest, p =>
      build_flat_loop rest
        { heap := p.heap ++ [some { id := h, elems := [h] }],
          _clusters := p._clusters ++ [p.heap.length],
          _elem_cluster_map := p._elem_cluster_map.set h (some p.heap.length) }

/-- `Partitioner::_build_flat_cluster` (lines 250-273). -/
def Partitioner._build_flat_cluster (p : Partitioner) (mesh : Mesh) : Partitioner :=
  build_flat_loop (active_elements 0 mesh.elements)
    { p with _elem_cluster_map := resize_map mesh.n_elem p._elem_cluster_map }

/-- `std::map::insert` on a map kept as a list of (key, value) pairs in
ascending key order: a key already present keeps its old value. -/
def map_insert {α : Type} (k : Nat) (v : α) : List (Nat × α) → List (Nat × α)
  | [] => [(k, v)]
  | (k1, v1) :: rest =>
      if k < k1 then (k, v) :: (k1, v1) :: rest
      else if k = k1 then (k1, v1) :: rest
      else (k1, v1) :: map_insert k v rest

/-- The loop of line 292-293: `mesh.elem(id)` for every id of the group.  It
fails when an id names no element of the mesh. -/
def group_elems (mesh : Mesh) : List Nat → Option (List Nat)
  | [] => some []
  | i :: rest =>
      match mesh.elem i, group_elems mesh rest with
      | some _, some es => some (i :: es)
      | _, _ => none

/-- The loop of lines 298-299: every element of the new cluster is inserted
into the pointer-keyed map `new_elem_cluster_map`; the key is the address of
the element, the value the element with its cluster. -/
def insert_elems (addr : Nat → Nat) (c : Nat) :
    List Nat → List (Nat × Nat × Nat) → List (Nat × Nat × Nat)
  | [], m => m
  | e :: rest, m => insert_elems addr c rest (map_insert (addr e) (e, c) m)

/-- The loop of lines 287-300 over the groups; `n` is the index of the first
group of the list, `size` the value of `_clusters.size()`.  Returns the heap
with the new clusters and `new_elem_cluster_map`. -/
def new_clusters_loop (addr : Nat → Nat) (mesh : Mesh) (size : Nat) :
    Nat → List (List Nat) → List (Option Cluster) → List (Nat × Nat × Nat) →
    Option (List (Option Cluster) × List (Nat × Nat × Nat))
  | _, [], heap, m => some (heap, m)
  | n, g :: rest, heap, m =>
      match group_elems mesh g with
      | none => none
      | some es =>
          new_clusters_loop addr mesh size (n + 1) rest
            (heap ++ [some { id := size + n, elems := es }])
            (insert_elems addr heap.length es m)

/-- The loop of lines 304-311 over `new_elem_cluster_map`: the old cluster of
the element is deleted and the table entry replaced. -/
def replace_loop : List (Nat × Nat × Nat) → List (Option Cluster) → List (Option Nat) →
    List (Option Cluster) × List (Option Nat)
  | [], heap, table => (heap, table)
  | (_, e, c) :: rest, heap, table =>
      let heap1 :=
        match table[e]? with
        | some (some old) => delete_cluster heap old
        | _ => heap
      replace_loop rest heap1 (table.set e (some c))

/-- The loop of lines 318-323 over the table: the clusters keyed by their id. -/
def cluster_map_loop (heap : List (Option Cluster)) :
    List (Option Nat) → List (Nat × Nat) → List (Nat × Nat)
  | [], m => m
  | none :: rest, m => cluster_map_loop heap rest m
  | some c :: rest, m =>
      match deref heap c with
      | some cl => cluster_map_loop heap rest (map_insert cl.id c m)
      | none => cluster_map_loop heap rest m

/-- The statement `_clusters[n]->id = n` on the heap. -/
def set_cluster_id (heap : List (Option Cluster)) (c : Nat) (n : Nat) : List (Option Cluster) :=
  match deref heap c with
  | some cl => heap.set c (some { cl with id := n })
  | none => heap

/-- The loop of lines 331-332: dense ids in the order of `_clusters`; `n` is
the position of the first cluster of the list. -/
def renumber_loop : Nat → List Nat → List (Option Cluster) → List (Option Cluster)
  | _, [], heap => heap
  | n, c :: rest, heap => renumber_loop (n + 1) rest (set_cluster_id heap c n)

/-- `Partitioner::_merge_elem_to_cluster` (lines 277-335).  `cluster_elems` is
`none` for a NULL pointer.  The result is `none` when `mesh.elem` is asked for
an element that does not exist. -/
def Partitioner._merge_elem_to_cluster (addr : Nat → Nat) (p : Partitioner) (mesh : Mesh)
    (cluster_elems : Option (List (List Nat))) : Option Partitioner :=
  match cluster_elems with
  | none => some p
  | some groups =>
      match new_clusters_loop addr mesh p._clusters.length 0 groups p.heap [] with
      | none => none
      | some (heap1, new_elem_cluster_map) =>
          let r := replace_loop new_elem_cluster_map heap1 p._elem_cluster_map
          let _cluster_map := cluster_map_loop r.1 r.2 []
          let clusters := _cluster_map.map Prod.snd
          some { heap := renumber_loop 0 clusters r.1,
                 _clusters := clusters,
                 _elem_cluster_map := r.2 }

/-! ## The partitioning strategy and `Partitioner::partition` -/

/-- Write through an element pointer: apply `f` to the element in slot `i`. -/
def modify_elem (f : Elem → Elem) : Nat → List (Option Elem) → List (Option Elem)
  | _, [] => []
  | 0, oe :: rest => oe.map f :: rest
  | i + 1, oe :: rest => oe :: modify_elem f i rest

/-- The processor id `pid` written to every element of a cluster. -/
def set_cluster_processor_id (pid : Nat) : List Nat → List (Option Elem) → List (Option Elem)
  | [], elements => elements
  | e :: rest, elements =>
      set_cluster_processor_id pid rest
        (modify_elem (fun el => { el with processor_id := pid }) e elements)

/-- The processor id of the cluster at position `k` of `_clusters` is
`pids k`; it is written to every element of that cluster, cluster after
cluster. -/
def propagate (heap : List (Option Cluster)) (pids : Nat → Nat) :
    Nat → List Nat → List (Option Elem) → List (Option Elem)
  | _, [], elements => elements
  | k, c :: rest, elements =>
      match deref heap c with
      | some cl => propagate heap pids (k + 1) rest (set_cluster_processor_id (pids k) cl.elems elements)
      | none => propagate heap pids (k + 1) rest elements

/-- Modelled from the spec: `_do_partition` is a pure virtual method whose
implementations (the pluggable strategies) are not among the translated
sources.  Following sections 2, 4.4 and 6 of the specification, the strategy
computes from the mesh, the cluster store and the target count `n` a
processor id per cluster (`strategy mesh p n k` for the cluster at position
`k` of the cluster list), and that id is propagated to every element of the
cluster. -/
def Partitioner._do_partition (strategy : Mesh → Partitioner → Nat → Nat → Nat)
    (p : Partitioner) (mesh : Mesh) (n : Nat) : Mesh :=
  { mesh with elements := propagate p.heap (strategy mesh p n) 0 p._clusters mesh.elements }

/-- `Partitioner::partition` (lines 54-74).  `addr` gives the addresses of the
element objects, `strategy` is the strategy behind `_do_partition`, `me` the
id of the running process. -/
def Partitioner.partition (addr : Nat → Nat) (strategy : Mesh → Partitioner → Nat → Nat → Nat)
    (me : Nat) (p : Partitioner) (mesh : Mesh) (cluster : Option (List (List Nat))) (n : Nat) :
    Option (Partitioner × Mesh) :=
  let mesh1 := { mesh with n_partitions := n }
  let p1 := p._clear_cluster
  let p2 := p1._build_flat_cluster mesh1
  match p2._merge_elem_to_cluster addr mesh1 cluster with
  | none => none
  | some p3 =>
      let mesh2 := p3._do_partition strategy mesh1 n
      let p4 := p3._clear_cluster
      some (p4, _set_node_processor_ids me mesh2)

/-- Modelled from the spec: `_do_repartition` is a pure virtual method whose
implementations are not among the translated sources.  Following sections
4.4 and 6 of the specification it is the incremental variant of the
strategy: it may read the processor ids the elements of the mesh already
have, computes a processor id per cluster (`restrategy mesh p n k` for the
cluster at position `k` of the cluster list), and that id is propagated to
every element of the cluster. -/
def Partitioner._do_repartition (restrategy : Mesh → Partitioner → Nat → Nat → Nat)
    (p : Partitioner) (mesh : Mesh) (n : Nat) : Mesh :=
  { mesh with elements := propagate p.heap (restrategy mesh p n) 0 p._clusters mesh.elements }

/-- `Partitioner::repartition` (lines 80-100). -/
def Partitioner.repartition (addr : Nat → Nat)
    (restrategy : Mesh → Partitioner → Nat → Nat → Nat)
    (me : Nat) (p : Partitioner) (mesh : Mesh) (cluster : Option (List (List Nat))) (n : Nat) :
    Option (Partitioner × Mesh) :=
  let mesh1 := { mesh with n_partitions := n }
  let p1 := p._clear_cluster
  let p2 := p1._build_flat_cluster mesh1
  match p2._merge_elem_to_cluster addr mesh1 cluster with
  | none => none
  | some p3 =>
      let mesh2 := p3._do_repartition restrategy mesh1 n
      let p4 := p3._clear_cluster
      some (p4, _set_node_processor_ids me mesh2)

/-! ## `Partitioner::cluster_neighbor_elem`

The version compiled is the one of lines 448-535.  The branch guarded by
`ENABLE_AMR` is part of the embedding: without that macro `Elem::active()` is
constantly true and the branch is never entered, which is the behaviour of the
embedding on a mesh all of whose elements are active. -/

/-- `std::set<const Elem *>::insert`: the set is kept as a list of
(address, element) pairs in ascending address order. -/
def set_insert (addr : Nat → Nat) (h : Nat) (s : List (Nat × Nat)) : List (Nat × Nat) :=
  map_insert (addr h) h s

/-- `s.find(h) != s.end()` on a pointer-ordered set: some member has the
address of `h`. -/
def set_contains (addr : Nat → Nat) (h : Nat) (s : List (Nat × Nat)) : Bool :=
  s.any (fun kv => kv.1 == addr h)

/-- The range insert of line 453, `cluster_elem.insert(elems.begin(), elems.end())`. -/
def set_insert_all (addr : Nat → Nat) : List Nat → List (Nat × Nat) → List (Nat × Nat)
  | [], s => s
  | h :: rest, s => set_insert_all addr rest (set_insert addr h s)

/-- The search of `which_neighbor_am_i`: the first side, counted from `s`,
whose neighbour pointer is `e`. -/
def find_side (e : Nat) : Nat → List (Option Nat) → Option Nat
  | _, [] => none
  | s, nb :: rest => if nb = some e then some s else find_side e (s + 1) rest

/-- Modelled from the spec: `Elem::which_neighbor_am_i` belongs to the element
class, which is not among the translated sources.  Following section 4.3 of
the specification ("the matching side index") it is the index of the side of
the element on which `e` is its neighbour; the call fails when `e` is not a
neighbour. -/
def which_neighbor_am_i (p : Elem) (e : Nat) : Option Nat :=
  find_side e 0 p.neighbors

/-- Modelled from the spec: `Elem::active_family_tree` belongs to the element
class, which is not among the translated sources.  Following section 4.3 of
the specification it collects the active descendants of an element: the
element itself when it is active, the active descendants of its children
otherwise.  `fuel` bounds the depth of the descent. -/
def active_family_tree (mesh : Mesh) : Nat → Nat → List Nat
  | 0, _ => []
  | fuel + 1, h =>
      match mesh.elem h with
      | none => []
      | some e =>
          if e.active then [h]
          else e.children.flatMap (fun ch => active_family_tree mesh fuel ch)

/-- The loop of lines 494-505 over the offspring of an inactive neighbour:
a child whose neighbour on side `ns` is the element `h` is inserted. -/
def insert_children (addr : Nat → Nat) (mesh : Mesh) (h ns : Nat) :
    List Nat → List (Nat × Nat) → List (Nat × Nat)
  | [], acc => acc
  | child :: rest, acc =>
      match mesh.elem child with
      | some ce =>
          if ce.neighbors[ns]? = some (some h) then
            insert_children addr mesh h ns rest (set_insert addr child acc)
          else insert_children addr mesh h ns rest acc
      | none => insert_children addr mesh h ns rest acc

/-- The loop of lines 462-511 over the sides of the cluster member `h`; the
result is `none` when `which_neighbor_am_i` fails. -/
def neighbor_loop (addr : Nat → Nat) (mesh : Mesh) (cluster_elem : List (Nat × Nat)) (h : Nat) :
    List (Option Nat) → List (Nat × Nat) → Option (List (Nat × Nat))
  | [], acc => some acc
  | none :: rest, acc => neighbor_loop addr mesh cluster_elem h rest acc
  | some nb :: rest, acc =>
      if set_contains addr nb cluster_elem then
        neighbor_loop addr mesh cluster_elem h rest acc
      else
        match mesh.elem nb with
        | none => neighbor_loop addr mesh cluster_elem h rest acc
        | some ne =>
            if ne.active then
              neighbor_loop addr mesh cluster_elem h rest (set_insert addr nb acc)
            else
              match which_neighbor_am_i ne h with
              | none => none
              | some ns =>
                  neighbor_loop addr mesh cluster_elem h rest
                    (insert_children addr mesh h ns
                      (active_family_tree mesh mesh.n_elem nb) acc)

/-- The loop of lines 459-512 over the members of the cluster: builds the set
`cluster_neighbor`. -/
def member_loop (addr : Nat → Nat) (mesh : Mesh) (cluster_elem : List (Nat × Nat)) :
    List Nat → List (Nat × Nat) → Option (List (Nat × Nat))
  | [], acc => some acc
  | h :: rest, acc =>
      match mesh.elem h with
      | none => member_loop addr mesh cluster_elem rest acc
      | some e =>
          match neighbor_loop addr mesh cluster_elem h e.neighbors acc with
          | none => none
          | some acc1 => member_loop addr mesh cluster_elem rest acc1

/-- The read `_elem_cluster_map[h]`: the cluster pointer of element `h`
(`none` is NULL). -/
def Partitioner.cluster_of (p : Partitioner) (h : Nat) : Option Nat :=
  match p._elem_cluster_map[h]? with
  | some o => o
  | none => none

/-- The loop of lines 519-527 over `cluster_neighbor` in address order: a
neighbour is kept when its cluster has not been met before.  `neighbor_set`
is the set of the clusters met, `elems` the neighbours kept so far. -/
def pick_loop (p : Partitioner) : List Nat → List (Option Nat) → List Nat → List Nat
  | [], _, elems => elems
  | nb :: rest, neighbor_set, elems =>
      if neighbor_set.contains (p.cluster_of nb) then pick_loop p rest neighbor_set elems
      else pick_loop p rest (p.cluster_of nb :: neighbor_set) (elems ++ [nb])

/-- Modelled from the spec: the comparison `DofObject::Less` is declared
outside the translated sources; following section 4.3 of the specification
("sorted by ascending element id") it orders elements by id, and `std::sort`
with it yields the elements in ascending id order. -/
def sort_by_id (elems : List Nat) : List Nat :=
  elems.insertionSort (fun a b => a ≤ b)

/-- `Partitioner::cluster_neighbor_elem` (lines 448-535) for the cluster
object `cluster`.  The result is `none` when `which_neighbor_am_i` fails. -/
def Partitioner.cluster_neighbor_elem (addr : Nat → Nat) (p : Partitioner) (mesh : Mesh)
    (cluster : Cluster) : Option (List Nat) :=
  let cluster_elem := set_insert_all addr cluster.elems []
  match member_loop addr mesh cluster_elem cluster.elems [] with
  | none => none
  | some cluster_neighbor =>
      some (sort_by_id (pick_loop p (cluster_neighbor.map Prod.snd) [] []))

/-! ## Example meshes -/

/-- The chain of six elements of the specification: element `i` joins node
`i` and node `i + 1`; even elements are on processor 0, odd ones on 1. -/
def chain6 : Mesh :=
  { elements :=
      [ some { nodes := [0, 1], neighbors := [none, some 1], processor_id := 0 },
        some { nodes := [1, 2], neighbors := [some 0, some 2], processor_id := 1 },
        some { nodes := [2, 3], neighbors := [some 1, some 3], processor_id := 0 },
        some { nodes := [3, 4], neighbors := [some 2, some 4], processor_id := 1 },
        some { nodes := [4, 5], neighbors := [some 3, some 5], processor_id := 0 },
        some { nodes := [5, 6], neighbors := [some 4, none], processor_id := 1 } ],
    nodes := List.replicate 7 { },
    n_partitions := 2 }

/-- A refined chain.  Slot 0 is a coarse element, slot 1 its refined (hence
inactive) right neighbour, slots 2 and 3 the two children of slot 1.  The
coarse element points to its neighbour of the same level, the inactive parent;
the left child points to the coarse element.  Nodes 0, 1, 2 are the coarse
nodes from left to right, node 3 is the midpoint created by the refinement.
The children are on processor 1, the coarse elements on processor 0. -/
def refined_chain : Mesh :=
  { elements :=
      [ some { nodes := [0, 1], neighbors := [none, some 1], processor_id := 0 },
        some { active := false, nodes := [1, 2], neighbors := [some 0, none],
               children := [2, 3], processor_id := 0 },
        some { nodes := [1, 3], neighbors := [some 0, some 3], processor_id := 1 },
        some { nodes := [3, 2], neighbors := [some 2, none], processor_id := 1 } ],
    nodes := List.replicate 4 { },
    n_partitions := 2 }

/-- A chain of four coarse elements, each refined once.  Slots 0-3 hold the
inactive coarse elements (coarse element `i` joins nodes `i` and `i + 1`),
slots `4 + 2 i` and `5 + 2 i` its two children, which meet in the midpoint
node `5 + i`.  Every child carries the processor id of its parent: 0 for the
children of the coarse elements 0 and 2, 1 for those of 1 and 3. -/
def refined_chain4 : Mesh :=
  { elements :=
      [ some { active := false, nodes := [0, 1], neighbors := [none, some 1],
               children := [4, 5], processor_id := 0 },
        some { active := false, nodes := [1, 2], neighbors := [some 0, some 2],
               children := [6, 7], processor_id := 1 },
        some { active := false, nodes := [2, 3], neighbors := [some 1, some 3],
               children := [8, 9], processor_id := 0 },
        some { active := false, nodes := [3, 4], neighbors := [some 2, none],
               children := [10, 11], processor_id := 1 },
        some { nodes := [0, 5], neighbors := [none, some 5], processor_id := 0 },
        some { nodes := [5, 1], neighbors := [some 4, some 6], processor_id := 0 },
        some { nodes := [1, 6], neighbors := [some 5, some 7], processor_id := 1 },
        some { nodes := [6, 2], neighbors := [some 6, some 8], processor_id := 1 },
        some { nodes := [2, 7], neighbors := [some 7, some 9], processor_id := 0 },
        some { nodes := [7, 3], neighbors := [some 8, some 10], processor_id := 0 },
        some { nodes := [3, 8], neighbors := [some 9, some 11], processor_id := 1 },
        some { nodes := [8, 4], neighbors := [some 10, none], processor_id := 1 } ],
    nodes := List.replicate 9 { },
    n_partitions := 2 }

/-- The store handed to the strategy on the refined chain with the single
group `[9, 10]`: the merged cluster (address 8) is missing from `_clusters`. -/
def refined_chain4_store : Partitioner :=
  { heap := [some { id := 0, elems := [4] }, some { id := 1, elems := [5] },
             some { id := 2, elems := [6] }, some { id := 3, elems := [7] },
             some { id := 4, elems := [8] }, none, none,
             some { id := 5, elems := [11] }, some { id := 8, elems := [9, 10] }],
    _clusters := [0, 1, 2, 3, 4, 7],
    _elem_cluster_map := [none, none, none, none, some 0, some 1, some 2, some 3, some 4,
                          some 8, some 8, some 7] }

/-- The clusters of the cluster list, dereferenced. -/
def Partitioner.cluster_list (p : Partitioner) : List (Option Cluster) :=
  p._clusters.map (deref p.heap)

/-- The strategy of the chain scenario: clusters at even positions go to
processor 0, those at odd positions to processor 1. -/
def parity_strategy (_mesh : Mesh) (_p : Partitioner) (_n : Nat) (k : Nat) : Nat := k % 2

/-! ## Vocabulary of the statements -/

/-- Element `e` belongs to process `me` or has a node whose processor id in
the mesh is `me`. -/
def owns_or_has_node (me : Nat) (mesh : Mesh) (e : Elem) : Prop :=
  e.processor_id = me ∨
    ∃ v nd, v ∈ e.nodes ∧ mesh.nodes[v]? = some nd ∧ nd.processor_id = me

/-- Some non-NULL face neighbour of `e` belongs to process `me` or has a node
whose processor id in the mesh is `me`. -/
def has_local_neighbor (me : Nat) (mesh : Mesh) (e : Elem) : Prop :=
  ∃ nb e1, some nb ∈ e.neighbors ∧ mesh.elem nb = some e1 ∧ owns_or_has_node me mesh e1

/-- Node `v` is a node of some element of the mesh. -/
def Mesh.has_incident_elem (mesh : Mesh) (v : Nat) : Prop :=
  ∃ h e, mesh.elem h = some e ∧ v ∈ e.nodes

/-- The processor id `pid` is the minimum of the processor ids of the
elements of the mesh incident to node `v`: it is the id of one of them and
none of them has a smaller one. -/
def Mesh.is_min_incident_id (mesh : Mesh) (v : Nat) (pid : Nat) : Prop :=
  (∃ h e, mesh.elem h = some e ∧ v ∈ e.nodes ∧ e.processor_id = pid) ∧
    ∀ h e, mesh.elem h = some e → v ∈ e.nodes → pid ≤ e.processor_id

/-- The nodes after the loop of lines 155-165 of `_set_node_processor_ids`. -/
def nodes_after_ids (mesh : Mesh) : List Node :=
  (assign_node_ids mesh.elements (mesh.nodes.map reset_node)).2

/-- The elements after the loop of lines 155-165 of `_set_node_processor_ids`. -/
def elems_after_ids (mesh : Mesh) : List (Option Elem) :=
  (assign_node_ids mesh.elements (mesh.nodes.map reset_node)).1

/-- The set `elem_has_on_process_node` of `_set_node_processor_ids`. -/
def on_process_set (me : Nat) (mesh : Mesh) : List Nat :=
  build_on_process_set me (nodes_after_ids mesh) 0 (elems_after_ids mesh)

/-- The store after `_clear_cluster` followed by `_build_flat_cluster`. -/
def flat_store (p : Partitioner) (mesh : Mesh) : Partitioner :=
  p._clear_cluster._build_flat_cluster mesh

/-- The flat cluster of the element in slot `h`: id `h`, the element its only
member. -/
def flat_cluster (h : Nat) : Cluster := { id := h, elems := [h] }

/-- The store after the rebuild of lines 316-332 from the heap and the table
left by the replacement loop. -/
def rebuild (heap : List (Option Cluster)) (table : List (Option Nat)) : Partitioner :=
  { heap := renumber_loop 0 ((cluster_map_loop heap table []).map Prod.snd) heap,
    _clusters := (cluster_map_loop heap table []).map Prod.snd,
    _elem_cluster_map := table }

/-- The store after `_clear_cluster`, `_build_flat_cluster` and
`_merge_elem_to_cluster` with the groups `[0, 1]` and `[2, 3]` on the
six-element chain, started from the empty store. -/
def chain6_merged_store : Partitioner :=
  { heap := [none, none, none, none, some { id := 0, elems := [4] },
             some { id := 1, elems := [5] }, some { id := 2, elems := [0, 1] },
             some { id := 3, elems := [2, 3] }],
    _clusters := [4, 5, 6, 7],
    _elem_cluster_map := [some 6, some 6, some 7, some 7, some 4, some 5] }

/-- Every id of every group names an element of the mesh. -/
def groups_valid (mesh : Mesh) (gs : List (List Nat)) : Bool :=
  gs.all (fun g => g.all (fun i => (mesh.elem i).isSome))

/-- The clusters allocated by the loop of lines 287-300 for the groups, in
the order of the groups; `n` is the index of the first group of the list and
`size` the value of `_clusters.size()`. -/
def merged_clusters (size : Nat) : Nat → List (List Nat) → List Cluster
  | _, [] => []
  | n, g :: rest => { id := size + n, elems := g } :: merged_clusters size (n + 1) rest

/-- The pairs (element, cluster) handed to `new_elem_cluster_map.insert` by
the loop of lines 287-300, in the order of the calls; `c` is the address of
the cluster of the first group of the list. -/
def group_pairs : Nat → List (List Nat) → List (Nat × Nat)
  | _, [] => []
  | c, g :: rest => g.map (fun e => (e, c)) ++ group_pairs (c + 1) rest

/-- A sequence of calls of `new_elem_cluster_map.insert`. -/
def insert_pairs (addr : Nat → Nat) :
    List (Nat × Nat) → List (Nat × Nat × Nat) → List (Nat × Nat × Nat)
  | [], m => m
  | ec :: rest, m => insert_pairs addr rest (map_insert (addr ec.1) ec m)

/-- The loop of lines 304-311 on the values of `new_elem_cluster_map`, the
keys left out. -/
def replace_pairs : List (Nat × Nat) → List (Option Cluster) → List (Option Nat) →
    List (Option Cluster) × List (Option Nat)
  | [], heap, table => (heap, table)
  | (e, c) :: rest, heap, table =>
      let heap1 :=
        match table[e]? with
        | some (some old) => delete_cluster heap old
        | _ => heap
      replace_pairs rest heap1 (table.set e (some c))

/-- Addresses in the reverse order of the ids for the elements 0-5 (the
six-element chain laid out backwards in memory); injective. -/
def reversed_addr (h : Nat) : Nat := if h ≤ 5 then 5 - h else h

/-- Element `h` is named in some group. -/
def named (gs : List (List Nat)) (h : Nat) : Bool := gs.any (fun g => g.contains h)

/-- The elements of the mesh named in no group, in ascending order. -/
def unnamed_elements (mesh : Mesh) (gs : List (List Nat)) : List Nat :=
  (List.range mesh.n_elem).filter (fun h => !named gs h)

/-- The heap and the table after the replacement loop (lines 302-311) of the
merge step run on the store `p` with the groups `gs`. -/
def replaced (addr : Nat → Nat) (p : Partitioner) (gs : List (List Nat)) :
    List (Option Cluster) × List (Option Nat) :=
  replace_pairs ((insert_pairs addr (group_pairs p.heap.length gs) []).map Prod.snd)
    (p.heap ++ (merged_clusters p._clusters.length 0 gs).map some) p._elem_cluster_map

/-- A pointer-ordered set is well formed: addresses in ascending order, each
the address of the element stored with it. -/
def set_ok (addr : Nat → Nat) (s : List (Nat × Nat)) : Prop :=
  s.Pairwise (fun a b => a.1 < b.1) ∧ ∀ x ∈ s, x.1 = addr x.2

/-- Every non-NULL neighbour pointer of every element of the mesh refers to
an active element. -/
def Mesh.neighbors_active (mesh : Mesh) : Bool :=
  mesh.elements.all (fun oe =>
    match oe with
    | none => true
    | some e =>
        e.neighbors.all (fun onb =>
          match onb with
          | none => true
          | some nb =>
              match mesh.elem nb with
              | some e1 => e1.active
              | none => false))

/-- The table and the member lists of the store agree: every member of a
cluster of the cluster list is mapped by the table to that cluster, and every
non-NULL table entry is a cluster of the list that holds the element. -/
def Partitioner.consistent (p : Partitioner) : Bool :=
  p._clusters.all (fun d =>
    match deref p.heap d with
    | some cld => cld.elems.all (fun x => p.cluster_of x == some d)
    | none => true) &&
  (List.range p._elem_cluster_map.length).all (fun x =>
    match p.cluster_of x with
    | none => true
    | some d =>
        p._clusters.contains d &&
          (match deref p.heap d with
           | some cld => cld.elems.contains x
           | none => false))

/-- Element `x` is a face neighbour of some member of the cluster `cl`. -/
def is_face_neighbor (mesh : Mesh) (cl : Cluster) (x : Nat) : Prop :=
  ∃ h ∈ cl.elems, ∃ e, mesh.elem h = some e ∧ some x ∈ e.neighbors

/-- The store after `_clear_cluster`, `_build_flat_cluster` and
`_merge_elem_to_cluster` with the single group `[0, 2]` on the six-element
chain, started from the empty store: the flat cluster of element 1 at address
1, the merged cluster at address 6. -/
def chain6_store_02 : Partitioner :=
  { heap := [none, some { id := 0, elems := [1] }, none, some { id := 1, elems := [3] },
             some { id := 2, elems := [4] }, some { id := 3, elems := [5] },
             some { id := 4, elems := [0, 2] }],
    _clusters := [1, 3, 4, 5, 6],
    _elem_cluster_map := [some 6, some 1, some 6, some 3, some 4, some 5] }

/-- The store after `_clear_cluster`, `_build_flat_cluster` and
`_merge_elem_to_cluster` with the groups `[0, 2]` and `[3]` on the refined
chain, started from the empty store. -/
def refined_chain_store : Partitioner :=
  { heap := [none, none, none, some { id := 0, elems := [0, 2] },
             some { id := 1, elems := [3] }],
    _clusters := [3, 4],
    _elem_cluster_map := [some 3, none, some 3, some 4] }

/-- The index of the first group that names the element `x`. -/
def first_group : List (List Nat) → Nat → Option Nat
  | [], _ => none
  | g :: rest, x => if g.contains x then some 0 else (first_group rest x).map (fun j => j + 1)

/-- The clusters the slots of the table refer to after the replacement loop,
as cluster values, written in terms of the active element ids, the element
count and the groups: the cluster of the first group naming the element, with
its provisional id, else the flat cluster of an active element, else
nothing. -/
def table_view (actives : List Nat) (n_elem : Nat) (gs : List (List Nat)) :
    List (Option Cluster) :=
  (List.range n_elem).map (fun x =>
    match first_group gs x with
    | some j => (gs[j]?).map (fun g => { id := actives.length + j, elems := g })
    | none => if actives.contains x then some (flat_cluster x) else none)

/-- The loop of lines 318-323 on cluster values instead of cluster pointers. -/
def value_loop : List (Option Cluster) → List (Nat × Cluster) → List (Nat × Cluster)
  | [], m => m
  | none :: rest, m => value_loop rest m
  | some cl :: rest, m => value_loop rest (map_insert cl.id cl m)

/-- The loop of lines 331-332 on cluster values. -/
def renumber_values : Nat → List Cluster → List Cluster
  | _, [] => []
  | n, cl :: rest => { cl with id := n } :: renumber_values (n + 1) rest

/-- The cluster list after `_build_flat_cluster` and `_merge_elem_to_cluster`
as a list of (dense id, member element ids), computed from the active element
ids, the element count and the groups alone. -/
def merge_view (actives : List Nat) (n_elem : Nat) (gs : List (List Nat)) : List Cluster :=
  renumber_values 0 ((value_loop (table_view actives n_elem gs) []).map Prod.snd)

/-- The clusters the slots of a table refer to, as cluster values. -/
def table_values (heap : List (Option Cluster)) (table : List (Option Nat)) :
    List (Option Cluster) :=
  table.map (fun o => o.bind (deref heap))

/-- The groups handed to the merge step name elements of the mesh only; absent
groups name none. -/
def groups_exist (mesh : Mesh) (cluster : Option (List (List Nat))) : Bool :=
  match cluster with
  | none => true
  | some gs => groups_valid mesh gs

/-- The element with its locality flag cleared: what is left of an element
when its prior `on_local` flag is disregarded. -/
def forget_local (e : Elem) : Elem := { e with on_local := false }

/-- The six-element chain after an earlier run: every node carries processor
id 3 and is flagged local, every element is flagged local. -/
def chain6_stale : Mesh :=
  { chain6 with
    elements := chain6.elements.map (Option.map (fun e => { e with on_local := true })),
    nodes := List.replicate 7 { processor_id := 3, on_local := true } }

/-- The processor id the loop of `propagate` writes last to the element `x`:
the id of the last cluster of the list that holds `x`, if there is one; `k`
is the position of the first cluster of the list. -/
def last_pid (pids : Nat → Nat) (x : Nat) : Nat → List (Option Cluster) → Option Nat
  | _, [] => none
  | k, ocl :: rest =>
      match last_pid pids x (k + 1) rest with
      | some q => some q
      | none =>
          match ocl with
          | some cl => if cl.elems.contains x then some (pids k) else none
          | none => none

/-- The write of `propagate` to one element: the processor id becomes `q`, or
the element is left alone. -/
def write_pid (q : Option Nat) (e : Elem) : Elem :=
  match q with
  | some v => { e with processor_id := v }
  | none => e

/-- What a strategy that does not look at the present assignment can read of
an element: everything but its processor id and its locality flag. -/
def Elem.topology (e : Elem) : Elem := { e with processor_id := 0, on_local := false }

/-- What a strategy that does not look at the present assignment can read of
the mesh: the element slots without processor ids and locality flags, and the
number of nodes. -/
def Mesh.topology (mesh : Mesh) : List (Option Elem) × Nat :=
  (mesh.elements.map (Option.map Elem.topology), mesh.nodes.length)

/-- The cluster list handed to the strategy after `_build_flat_cluster` and
`_merge_elem_to_cluster`, as cluster values. -/
def cluster_view (mesh : Mesh) (groups : Option (List (List Nat))) : List Cluster :=
  match groups with
  | none => (active_elements 0 mesh.elements).map flat_cluster
  | some gs => merge_view (active_elements 0 mesh.elements) mesh.n_elem gs

/-- The elements that are given a processor id by `partition` with the groups
`groups`: the members of the clusters of the cluster list. -/
def assigned (mesh : Mesh) (groups : Option (List (List Nat))) : List Nat :=
  (cluster_view mesh groups).flatMap Cluster.elems

/-- Every element of the mesh has processor id 0. -/
def Mesh.all_on_zero (mesh : Mesh) : Bool :=
  mesh.elements.all (fun oe =>
    match oe with
    | some e => e.processor_id == 0
    | none => true)

/-- Every node of the mesh is a node of at least one element. -/
def Mesh.nodes_covered (mesh : Mesh) : Bool :=
  (List.range mesh.nodes.length).all (fun v =>
    mesh.elements.any (fun oe =>
      match oe with
      | some e => e.nodes.contains v
      | none => false))

/-- The six-element chain with every element on processor 0. -/
def chain6_zero : Mesh :=
  { chain6 with
    elements := chain6.elements.map (Option.map (fun e => { e with processor_id := 0 })) }

/-- Face adjacency is symmetric: every neighbour of an element of the mesh is
an element of the mesh that has that element as a neighbour. -/
def Mesh.neighbors_symmetric (mesh : Mesh) : Bool :=
  (List.range mesh.n_elem).all (fun a =>
    match mesh.elem a with
    | none => true
    | some ea =>
        ea.neighbors.all (fun onb =>
          match onb with
          | none => true
          | some b =>
              match mesh.elem b with
              | some eb => eb.neighbors.contains (some a)
              | none => false))

/-- Element `y` is a candidate contributed by the neighbour `nb` of the
cluster member `h` (lines 468-506): `nb` itself when it is active; when it is
inactive, an element of its active family tree whose neighbour on the side
`ns` is `h`, where `ns` is the side of `nb` on which `h` is its neighbour. -/
def candidate_of (mesh : Mesh) (h nb y : Nat) : Prop :=
  ∃ ne, mesh.elem nb = some ne ∧
    ((ne.active = true ∧ y = nb) ∨
      (ne.active = false ∧ ∃ ns, which_neighbor_am_i ne h = some ns ∧
        y ∈ active_family_tree mesh mesh.n_elem nb ∧
        ∃ ce, mesh.elem y = some ce ∧ ce.neighbors[ns]? = some (some h)))

/-- The store after `_clear_cluster`, `_build_flat_cluster` and
`_merge_elem_to_cluster` with the groups `[1]` and `[1, 5]` on the six-element
chain, started from the empty store: element 1 is mapped to the cluster of the
first group (address 6) and is also a member of the cluster of the second
group (address 7). -/
def chain6_overlap_store : Partitioner :=
  { heap := [some { id := 0, elems := [0] }, none, some { id := 1, elems := [2] },
             some { id := 2, elems := [3] }, some { id := 3, elems := [4] }, none,
             some { id := 4, elems := [1] }, some { id := 5, elems := [1, 5] }],
    _clusters := [0, 2, 3, 4, 6, 7],
    _elem_cluster_map := [some 0, some 6, some 2, some 3, some 4, some 7] }

/-! ## Silicon band model: recombination (`src/material/Si/Si_band_default.cc`)

`PetscScalar` is embedded as an arbitrary field `K`, so that the arithmetic is
exact.  The functions `nie`, `TAUN` and `TAUP` of the class are built from
`sqrt`, `exp`, `pow` and the doping stored with the node; they enter the
recombination rates only through the values they return and are kept as
functions carried by the model. -/

/-- The members of `GSS_Si_BandStructure` read by the recombination rates:
the coefficients set by `Recomb_Init` and the functions `nie`, `TAUN`,
`TAUP`. -/
structure GSS_Si_BandStructure (K : Type) where
  C_DIRECT : K
  AUGN : K
  AUGP : K
  nie : K → K → K → K
  TAUN : K → K
  TAUP : K → K

/-- `R_Direct` (lines 720-724). -/
def GSS_Si_BandStructure.R_Direct {K : Type} [Field K] (b : GSS_Si_BandStructure K)
    (p n Tl : K) : K :=
  let ni := b.nie p n Tl
  b.C_DIRECT * (n * p - ni * ni)

/-- `R_Auger` (lines 733-737). -/
def GSS_Si_BandStructure.R_Auger {K : Type} [Field K] (b : GSS_Si_BandStructure K)
    (p n Tl : K) : K :=
  let ni := b.nie p n Tl
  b.AUGN * (p * n * n - n * ni * ni) + b.AUGP * (n * p * p - p * ni * ni)

/-- `R_SHR` (lines 774-780). -/
def GSS_Si_BandStructure.R_SHR {K : Type} [Field K] (b : GSS_Si_BandStructure K)
    (p n Tl : K) : K :=
  let ni := b.nie p n Tl
  let taun := b.TAUN Tl
  let taup := b.TAUP Tl
  (p * n - ni * ni) / (taup * (n + ni) + taun * (p + ni))

/-- `Recomb` (lines 814-824). -/
def GSS_Si_BandStructure.Recomb {K : Type} [Field K] (b : GSS_Si_BandStructure K)
    (p n Tl : K) : K :=
  let ni := b.nie p n Tl
  let taun := b.TAUN Tl
  let taup := b.TAUP Tl
  let dn := p * n - ni * ni
  let Rshr := dn / (taup * (n + ni) + taun * (p + ni))
  let Rdir := b.C_DIRECT * dn
  let Raug := (b.AUGN * n + b.AUGP * p) * dn
  Rshr + Rdir + Raug

/-! ## Silicon band model: species of incomplete ionization

A `std::string` is embedded as its list of characters; `std::map` with string
keys is a list of (key, value) pairs in ascending key order. -/

/-- The members of `Species` read by `IonType`: the name and the ion type, -1
for p type and +1 for n type.  The numeric members (`E0`, `GB`, `alpha`,
`beta`, `gamma`, `N_crit`) are not read by `IonType` and are left out. -/
structure Species where
  name : List Char
  ion : Int
deriving DecidableEq, Repr

/-- The assignment `species_map[key] = value` on a map kept in ascending key
order: the value of a key already present is overwritten. -/
def species_map_set (key : List Char) (value : Species) :
    List (List Char × Species) → List (List Char × Species)
  | [] => [(key, value)]
  | (k1, v1) :: rest =>
      if key < k1 then (key, value) :: (k1, v1) :: rest
      else if key = k1 then (key, value) :: rest
      else (k1, v1) :: species_map_set key value rest

/-- `IncompleteIonization_Init` (lines 448-487): the species map after the
sixteen assignments, started from the empty map. -/
def IncompleteIonization_Init : List (List Char × Species) :=
  let boron : Species := { name := "boron".toList, ion := -1 }
  let aluminum : Species := { name := "aluminum".toList, ion := -1 }
  let gallium : Species := { name := "gallium".toList, ion := -1 }
  let indium : Species := { name := "indium".toList, ion := -1 }
  let nitrogen : Species := { name := "nitrogen".toList, ion := 1 }
  let phosphorus : Species := { name := "phosphorus".toList, ion := 1 }
  let arsenic : Species := { name := "arsenic".toList, ion := 1 }
  let antimony : Species := { name := "antimony".toList, ion := 1 }
  [ ("boron", boron), ("aluminum", aluminum), ("gallium", gallium), ("indium", indium),
    ("nitrogen", nitrogen), ("phosphorus", phosphorus), ("arsenic", arsenic),
    ("antimony", antimony),
    ("BoronActive", boron), ("AluminumActive", aluminum), ("GalliumActive", gallium),
    ("IndiumActive", indium), ("NitrogenActive", nitrogen),
    ("PhosphorusActive", phosphorus), ("ArsenicActive", arsenic),
    ("AntimonyActive", antimony) ].foldl
    (fun m kv => species_map_set kv.1.toList kv.2 m) []

/-- The test `s.find(key) != std::string::npos`: `key` occurs in `s` as a
contiguous run of characters. -/
def has_substring (s key : List Char) : Bool :=
  s.tails.any (fun t => key.isPrefixOf t)

/-- The exact lookup `species_map.find(ion_string)` (lines 257-258). -/
def species_find (species_map : List (List Char × Species)) (ion_string : List Char) :
    Option Species :=
  (species_map.find? (fun kv => kv.1 == ion_string)).map Prod.snd

/-- The loop of lines 261-264 over the map in key order: the ion type of the
first species whose key occurs in the lower-case string, 0 when there is
none. -/
def partly_match (species_map : List (List Char × Species))
    (ion_string_lower_case : List Char) : Int :=
  match species_map.find? (fun kv => has_substring ion_string_lower_case kv.1) with
  | some kv => kv.2.ion
  | none => 0

/-- `IonType` (lines 250-267); `::tolower` is the conversion of the letters
`A`-`Z` of the "C" locale. -/
def IonType (species_map : List (List Char × Species)) (ion_string : List Char) : Int :=
  let ion_string_lower_case := ion_string.map Char.toLower
  match species_find species_map ion_string with
  | some sp => sp.ion
  | none => partly_match species_map ion_string_lower_case

/-- The names of the predefined p-type species. -/
def p_type_names : List (List Char) :=
  ["boron".toList, "aluminum".toList, "gallium".toList, "indium".toList]

/-- The names of the predefined n-type species. -/
def n_type_names : List (List Char) :=
  ["nitrogen".toList, "phosphorus".toList, "arsenic".toList, "antimony".toList]

/-! ## Writes through node pointers -/

theorem modify_node_length (f : Node → Node) (i : Nat) (l : List Node) :
    (modify_node f i l).length = l.length := by
  induction l generalizing i with
  | nil => cases i <;> rfl
  | cons nd rest ih =>
    cases i with
    | zero => rfl
    | succ i => simp [modify_node, ih]

theorem modify_node_get (f : Node → Node) (i j : Nat) (l : List Node) :
    (modify_node f i l)[j]? = if i = j then (l[j]?).map f else l[j]? := by
  induction l generalizing i j with
  | nil => cases i <;> simp [modify_node]
  | cons nd rest ih =>
    cases i with
    | zero =>
      cases j with
      | zero => simp [modify_node]
      | succ j => simp [modify_node]
    | succ i =>
      cases j with
      | zero => simp [modify_node]
      | succ j => simp [modify_node, ih]

theorem min_node_ids_get (pid : Nat) (ns : List Nat) (l : List Node) (v : Nat) :
    (min_node_ids pid ns l)[v]? =
      (l[v]?).map (fun nd => if v ∈ ns then min_node pid nd else nd) := by
  induction ns generalizing l with
  | nil => simp [min_node_ids]
  | cons n rest ih =>
    rw [min_node_ids, ih, modify_node_get]
    by_cases hn : n = v
    · subst hn
      cases hl : l[n]? with
      | none => simp
      | some nd =>
        by_cases hr : n ∈ rest
        · simp [hr, min_node]
        · simp [hr]
    · have hv : ¬ v = n := fun h => hn h.symm
      simp [hn, hv]

theorem set_nodes_on_local_get (ns : List Nat) (l : List Node) (v : Nat) :
    (set_nodes_on_local ns l)[v]? =
      (l[v]?).map (fun nd => if v ∈ ns then local_node nd else nd) := by
  induction ns generalizing l with
  | nil => simp [set_nodes_on_local]
  | cons n rest ih =>
    rw [set_nodes_on_local, ih, modify_node_get]
    by_cases hn : n = v
    · subst hn
      cases hl : l[n]? with
      | none => simp
      | some nd =>
        by_cases hr : n ∈ rest
        · simp [hr, local_node]
        · simp [hr]
    · have hv : ¬ v = n := fun h => hn h.symm
      simp [hn, hv]

/-! ## The loop that lowers the node processor ids -/

theorem assign_node_ids_fst (es : List (Option Elem)) (nodes : List Node) :
    (assign_node_ids es nodes).1 =
      es.map (Option.map (fun e => { e with on_local := false })) := by
  induction es generalizing nodes with
  | nil => rfl
  | cons oe rest ih =>
    cases oe with
    | none => simp [assign_node_ids, ih]
    | some e => simp [assign_node_ids, ih]

theorem assign_node_ids_none (es : List (Option Elem)) (nodes : List Node) (v : Nat)
    (hv : nodes[v]? = none) : (assign_node_ids es nodes).2[v]? = none := by
  induction es generalizing nodes with
  | nil => simpa [assign_node_ids] using hv
  | cons oe rest ih =>
    cases oe with
    | none => simpa [assign_node_ids] using ih nodes hv
    | some e =>
      simp only [assign_node_ids]
      apply ih
      rw [min_node_ids_get, hv]
      rfl

theorem assign_node_ids_some (es : List (Option Elem)) (nodes : List Node) (v : Nat) (nd : Node)
    (hv : nodes[v]? = some nd) :
    ∃ nd1, (assign_node_ids es nodes).2[v]? = some nd1 ∧
      nd1.on_local = nd.on_local ∧
      nd1.processor_id ≤ nd.processor_id ∧
      (∀ e, some e ∈ es → v ∈ e.nodes → nd1.processor_id ≤ e.processor_id) ∧
      (nd1.processor_id = nd.processor_id ∨
        ∃ e, some e ∈ es ∧ v ∈ e.nodes ∧ nd1.processor_id = e.processor_id) := by
  induction es generalizing nodes nd with
  | nil => exact ⟨nd, by simpa [assign_node_ids] using hv, rfl, le_refl _, by simp, Or.inl rfl⟩
  | cons oe rest ih =>
    cases oe with
    | none =>
      obtain ⟨nd1, h1, h2, h3, h4, h5⟩ := ih nodes nd hv
      refine ⟨nd1, by simpa [assign_node_ids] using h1, h2, h3, ?_, ?_⟩
      · intro e he
        simp at he
        exact h4 e he
      · rcases h5 with h5 | ⟨e, he, hve, hp⟩
        · exact Or.inl h5
        · exact Or.inr ⟨e, by simp [he], hve, hp⟩
    | some e0 =>
      have hstep : (min_node_ids e0.processor_id e0.nodes nodes)[v]? =
          some (if v ∈ e0.nodes then min_node e0.processor_id nd else nd) := by
        rw [min_node_ids_get, hv]; rfl
      obtain ⟨nd1, h1, h2, h3, h4, h5⟩ := ih _ _ hstep
      refine ⟨nd1, by simpa [assign_node_ids] using h1, ?_, ?_, ?_, ?_⟩
      · rw [h2]; split <;> rfl
      · refine le_trans h3 ?_
        split
        · exact Nat.min_le_left _ _
        · exact le_refl _
      · intro e he hve
        simp at he
        rcases he with he | he
        · subst he
          refine le_trans h3 ?_
          rw [if_pos hve]
          exact Nat.min_le_right _ _
        · exact h4 e he hve
      · rcases h5 with h5 | ⟨e, he, hve, hp⟩
        · by_cases hve : v ∈ e0.nodes
          · rw [if_pos hve] at h5
            rcases Nat.le_total nd.processor_id e0.processor_id with hle | hle
            · left
              rw [h5]
              simp [min_node, hle]
            · right
              refine ⟨e0, by simp, hve, ?_⟩
              rw [h5]
              simp [min_node, hle]
          · rw [if_neg hve] at h5
            exact Or.inl h5
        · exact Or.inr ⟨e, by simp [he], hve, hp⟩

/-! ## The set of elements with a node of this process, and the locality loop -/

theorem mem_build_on_process_set (me : Nat) (nodes : List Node) (h : Nat)
    (es : List (Option Elem)) (x : Nat) :
    x ∈ build_on_process_set me nodes h es ↔
      ∃ i e, es[i]? = some (some e) ∧ x = h + i ∧ has_on_process_node me nodes e = true := by
  induction es generalizing h with
  | nil => simp [build_on_process_set]
  | cons oe rest ih =>
    have shift : (∃ i e, rest[i]? = some (some e) ∧ x = h + 1 + i ∧
          has_on_process_node me nodes e = true) ↔
        ∃ i e, (oe :: rest)[i + 1]? = some (some e) ∧ x = h + (i + 1) ∧
          has_on_process_node me nodes e = true := by
      constructor
      · rintro ⟨i, e, h1, h2, h3⟩
        exact ⟨i, e, by simpa using h1, by omega, h3⟩
      · rintro ⟨i, e, h1, h2, h3⟩
        exact ⟨i, e, by simpa using h1, by omega, h3⟩
    cases oe with
    | none =>
      rw [build_on_process_set, ih, shift]
      constructor
      · rintro ⟨i, e, h1, h2, h3⟩
        exact ⟨i + 1, e, h1, h2, h3⟩
      · rintro ⟨i, e, h1, h2, h3⟩
        cases i with
        | zero => simp at h1
        | succ i => exact ⟨i, e, h1, h2, h3⟩
    | some e0 =>
      rw [build_on_process_set]
      by_cases hp : has_on_process_node me nodes e0 = true
      · rw [if_pos hp, List.mem_cons, ih, shift]
        constructor
        · rintro (hx | ⟨i, e, h1, h2, h3⟩)
          · exact ⟨0, e0, by simp, by omega, hp⟩
          · exact ⟨i + 1, e, h1, h2, h3⟩
        · rintro ⟨i, e, h1, h2, h3⟩
          cases i with
          | zero => left; omega
          | succ i => exact Or.inr ⟨i, e, h1, h2, h3⟩
      · rw [if_neg hp, ih, shift]
        constructor
        · rintro ⟨i, e, h1, h2, h3⟩
          exact ⟨i + 1, e, h1, h2, h3⟩
        · rintro ⟨i, e, h1, h2, h3⟩
          cases i with
          | zero =>
            simp at h1
            subst h1
            exact absurd h3 hp
          | succ i => exact ⟨i, e, h1, h2, h3⟩

theorem mark_on_local_fst (me : Nat) (all : List (Option Elem)) (S : List Nat) (h : Nat)
    (rest : List (Option Elem)) (nodes : List Node) (i : Nat) :
    (mark_on_local me all S h rest nodes).1[i]? =
      (rest[i]?).map (Option.map (fun e =>
        if goto_on_local me all S (h + i) e then { e with on_local := true } else e)) := by
  induction rest generalizing h nodes i with
  | nil => simp [mark_on_local]
  | cons oe rest ih =>
    cases oe with
    | none =>
      cases i with
      | zero => simp [mark_on_local]
      | succ i =>
        simp only [mark_on_local, List.getElem?_cons_succ]
        rw [ih]
        have : h + 1 + i = h + (i + 1) := by omega
        rw [this]
    | some e0 =>
      by_cases hg : goto_on_local me all S h e0 = true
      · cases i with
        | zero => simp [mark_on_local, hg]
        | succ i =>
          simp only [mark_on_local, hg, if_true, List.getElem?_cons_succ]
          rw [ih]
          have : h + 1 + i = h + (i + 1) := by omega
          rw [this]
      · cases i with
        | zero => simp [mark_on_local, hg]
        | succ i =>
          simp only [mark_on_local, hg, Bool.false_eq_true, if_false, List.getElem?_cons_succ]
          rw [ih]
          have : h + 1 + i = h + (i + 1) := by omega
          rw [this]

theorem mark_on_local_none (me : Nat) (all : List (Option Elem)) (S : List Nat) (h : Nat)
    (rest : List (Option Elem)) (nodes : List Node) (v : Nat) (hv : nodes[v]? = none) :
    (mark_on_local me all S h rest nodes).2[v]? = none := by
  induction rest generalizing h nodes with
  | nil => simpa [mark_on_local] using hv
  | cons oe rest ih =>
    cases oe with
    | none => simpa [mark_on_local] using ih (h + 1) nodes hv
    | some e0 =>
      by_cases hg : goto_on_local me all S h e0 = true
      · simp only [mark_on_local, hg, if_true]
        apply ih
        rw [set_nodes_on_local_get, hv]
        rfl
      · simp only [mark_on_local, hg, Bool.false_eq_true, if_false]
        exact ih (h + 1) nodes hv

theorem mark_on_local_some (me : Nat) (all : List (Option Elem)) (S : List Nat) (h : Nat)
    (rest : List (Option Elem)) (nodes : List Node) (v : Nat) (nd : Node)
    (hv : nodes[v]? = some nd) :
    ∃ nd1, (mark_on_local me all S h rest nodes).2[v]? = some nd1 ∧
      nd1.processor_id = nd.processor_id ∧
      (nd1.on_local = true ↔ nd.on_local = true ∨
        ∃ i e, rest[i]? = some (some e) ∧ goto_on_local me all S (h + i) e = true ∧
          v ∈ e.nodes) := by
  induction rest generalizing h nodes nd with
  | nil => exact ⟨nd, by simpa [mark_on_local] using hv, rfl, by simp⟩
  | cons oe rest ih =>
    have shift : ∀ i e, (h + 1 + i = h + (i + 1)) ∧
        ((oe :: rest)[i + 1]? = some (some e) ↔ rest[i]? = some (some e)) :=
      fun i e => ⟨by omega, by simp⟩
    cases oe with
    | none =>
      obtain ⟨nd1, h1, h2, h3⟩ := ih (h + 1) nodes nd hv
      refine ⟨nd1, by simpa [mark_on_local] using h1, h2, ?_⟩
      rw [h3]
      constructor
      · rintro (hl | ⟨i, e, a, b, c⟩)
        · exact Or.inl hl
        · exact Or.inr ⟨i + 1, e, by simpa using a, by rw [← (shift i e).1]; exact b, c⟩
      · rintro (hl | ⟨i, e, a, b, c⟩)
        · exact Or.inl hl
        · cases i with
          | zero => simp at a
          | succ i =>
            exact Or.inr ⟨i, e, by simpa using a, by rw [(shift i e).1]; exact b, c⟩
    | some e0 =>
      by_cases hg : goto_on_local me all S h e0 = true
      · have hstep : (set_nodes_on_local e0.nodes nodes)[v]? =
            some (if v ∈ e0.nodes then local_node nd else nd) := by
          rw [set_nodes_on_local_get, hv]; rfl
        obtain ⟨nd1, h1, h2, h3⟩ := ih (h + 1) _ _ hstep
        refine ⟨nd1, by simpa [mark_on_local, hg] using h1, ?_, ?_⟩
        · rw [h2]; split <;> rfl
        · rw [h3]
          constructor
          · rintro (hl | ⟨i, e, a, b, c⟩)
            · by_cases hve : v ∈ e0.nodes
              · exact Or.inr ⟨0, e0, by simp, by simpa using hg, hve⟩
              · rw [if_neg hve] at hl
                exact Or.inl hl
            · exact Or.inr ⟨i + 1, e, by simpa using a, by rw [← (shift i e).1]; exact b, c⟩
          · rintro (hl | ⟨i, e, a, b, c⟩)
            · left
              split
              · rfl
              · exact hl
            · cases i with
              | zero =>
                simp at a
                subst a
                left
                rw [if_pos c]
                rfl
              | succ i =>
                exact Or.inr ⟨i, e, by simpa using a, by rw [(shift i e).1]; exact b, c⟩
      · obtain ⟨nd1, h1, h2, h3⟩ := ih (h + 1) nodes nd hv
        refine ⟨nd1, by simpa [mark_on_local, hg] using h1, h2, ?_⟩
        rw [h3]
        constructor
        · rintro (hl | ⟨i, e, a, b, c⟩)
          · exact Or.inl hl
          · exact Or.inr ⟨i + 1, e, by simpa using a, by rw [← (shift i e).1]; exact b, c⟩
        · rintro (hl | ⟨i, e, a, b, c⟩)
          · exact Or.inl hl
          · cases i with
            | zero =>
              simp at a
              subst a
              simp at b
              exact absurd b hg
            | succ i =>
              exact Or.inr ⟨i, e, by simpa using a, by rw [(shift i e).1]; exact b, c⟩


/-! ## The state after `_set_node_processor_ids` -/

theorem has_on_process_node_iff (me : Nat) (nodes : List Node) (e : Elem) :
    has_on_process_node me nodes e = true ↔
      ∃ v nd, v ∈ e.nodes ∧ nodes[v]? = some nd ∧ nd.processor_id = me := by
  unfold has_on_process_node
  rw [List.any_eq_true]
  constructor
  · rintro ⟨v, hv, ht⟩
    cases hn : nodes[v]? with
    | none => simp [hn] at ht
    | some nd =>
      simp [hn] at ht
      exact ⟨v, nd, hv, hn, ht⟩
  · rintro ⟨v, nd, hv, hn, hp⟩
    exact ⟨v, hv, by simp [hn, hp]⟩

theorem neighbor_on_local_iff (me : Nat) (all : List (Option Elem)) (S : List Nat)
    (nbs : List (Option Nat)) :
    neighbor_on_local me all S nbs = true ↔
      ∃ nb, some nb ∈ nbs ∧
        ((∃ ne, all[nb]? = some (some ne) ∧ ne.processor_id = me) ∨ nb ∈ S) := by
  induction nbs with
  | nil => simp [neighbor_on_local]
  | cons o rest ih =>
    cases o with
    | none =>
      rw [neighbor_on_local, ih]
      constructor
      · rintro ⟨nb, h1, h2⟩
        exact ⟨nb, by simp [h1], h2⟩
      · rintro ⟨nb, h1, h2⟩
        simp at h1
        exact ⟨nb, h1, h2⟩
    | some x =>
      rw [neighbor_on_local, Bool.or_eq_true, Bool.or_eq_true, ih]
      constructor
      · rintro ((h1 | h1) | ⟨nb, h1, h2⟩)
        · refine ⟨x, by simp, Or.inl ?_⟩
          cases hx : all[x]? with
          | none => simp [hx] at h1
          | some o =>
            cases o with
            | none => simp [hx] at h1
            | some ne =>
              simp [hx] at h1
              exact ⟨ne, rfl, h1⟩
        · exact ⟨x, by simp, Or.inr (by simpa using h1)⟩
        · exact ⟨nb, by simp [h1], h2⟩
      · rintro ⟨nb, h1, h2⟩
        simp at h1
        rcases h1 with h1 | h1
        · subst h1
          rcases h2 with ⟨ne, hne, hp⟩ | h2
          · left; left
            simp [hne, hp]
          · left; right
            simpa using h2
        · exact Or.inr ⟨nb, h1, h2⟩

theorem elems_after_ids_get (mesh : Mesh) (h : Nat) (e1 : Elem) :
    (elems_after_ids mesh)[h]? = some (some e1) ↔
      ∃ e, mesh.elem h = some e ∧ e1 = { e with on_local := false } := by
  unfold elems_after_ids Mesh.elem
  rw [assign_node_ids_fst, List.getElem?_map]
  cases hm : mesh.elements[h]? with
  | none => simp
  | some o =>
    cases o with
    | none => simp
    | some e =>
      simp
      constructor
      · intro h1; exact h1.symm
      · intro h1; exact h1.symm

theorem mem_on_process_set (me : Nat) (mesh : Mesh) (h : Nat) :
    h ∈ on_process_set me mesh ↔
      ∃ e, mesh.elem h = some e ∧
        ∃ v nd, v ∈ e.nodes ∧ (nodes_after_ids mesh)[v]? = some nd ∧ nd.processor_id = me := by
  unfold on_process_set
  rw [mem_build_on_process_set]
  constructor
  · rintro ⟨i, e1, h1, h2, h3⟩
    have hi : h = i := by omega
    subst hi
    obtain ⟨e, he, rfl⟩ := (elems_after_ids_get mesh h e1).1 h1
    exact ⟨e, he, (has_on_process_node_iff me _ _).1 h3⟩
  · rintro ⟨e, he, h3⟩
    refine ⟨h, { e with on_local := false }, (elems_after_ids_get mesh h _).2 ⟨e, he, rfl⟩,
      by omega, (has_on_process_node_iff me _ _).2 h3⟩

theorem set_ids_unfold (me : Nat) (mesh : Mesh) :
    _set_node_processor_ids me mesh =
      { mesh with
        elements := (mark_on_local me (elems_after_ids mesh) (on_process_set me mesh) 0
          (elems_after_ids mesh) (nodes_after_ids mesh)).1,
        nodes := (mark_on_local me (elems_after_ids mesh) (on_process_set me mesh) 0
          (elems_after_ids mesh) (nodes_after_ids mesh)).2 } := rfl

/-- The element in slot `h` after the call is the element before the call with
its locality flag replaced by the decision of lines 191-215. -/
theorem set_ids_elem (me : Nat) (mesh : Mesh) (h : Nat) (e1 : Elem) :
    (_set_node_processor_ids me mesh).elem h = some e1 ↔
      ∃ e, mesh.elem h = some e ∧
        e1 = { e with on_local :=
          goto_on_local me (elems_after_ids mesh) (on_process_set me mesh) h e } := by
  rw [set_ids_unfold]
  unfold Mesh.elem
  simp only
  rw [mark_on_local_fst]
  unfold elems_after_ids
  rw [assign_node_ids_fst, List.getElem?_map]
  cases hm : mesh.elements[h]? with
  | none => simp
  | some o =>
    cases o with
    | none => simp
    | some e =>
      simp only [Option.map_some', Nat.zero_add, Option.some.injEq, exists_eq_left']
      have hg : goto_on_local me
          (List.map (Option.map fun e => { e with on_local := false }) mesh.elements)
          (on_process_set me mesh) h { e with on_local := false } =
          goto_on_local me
          (List.map (Option.map fun e => { e with on_local := false }) mesh.elements)
          (on_process_set me mesh) h e := rfl
      rw [hg]
      cases hb : goto_on_local me
          (List.map (Option.map fun e => { e with on_local := false }) mesh.elements)
          (on_process_set me mesh) h e
      · simp
        constructor <;> intro h1 <;> exact h1.symm
      · simp
        constructor <;> intro h1 <;> exact h1.symm

theorem mem_elements_iff (mesh : Mesh) (e : Elem) :
    some e ∈ mesh.elements ↔ ∃ h, mesh.elem h = some e := by
  rw [List.mem_iff_getElem?]
  unfold Mesh.elem
  constructor
  · rintro ⟨h, hh⟩
    exact ⟨h, by simp [hh]⟩
  · rintro ⟨h, hh⟩
    refine ⟨h, ?_⟩
    cases hm : mesh.elements[h]? with
    | none => simp [hm] at hh
    | some o =>
      cases o with
      | none => simp [hm] at hh
      | some e0 =>
        simp [hm] at hh
        rw [hh]

/-- The nodes after the loop of lines 155-165: flag cleared, processor id the
minimum of the invalid id and the ids of the incident elements. -/
theorem nodes_after_ids_spec (mesh : Mesh) (v : Nat) (nd : Node)
    (hv : (nodes_after_ids mesh)[v]? = some nd) :
    nd.on_local = false ∧ nd.processor_id ≤ invalid_processor_id ∧
      (∀ h e, mesh.elem h = some e → v ∈ e.nodes → nd.processor_id ≤ e.processor_id) ∧
      (nd.processor_id = invalid_processor_id ∨
        ∃ h e, mesh.elem h = some e ∧ v ∈ e.nodes ∧ nd.processor_id = e.processor_id) := by
  unfold nodes_after_ids at hv
  cases h0 : (mesh.nodes.map reset_node)[v]? with
  | none =>
    rw [assign_node_ids_none _ _ _ h0] at hv
    exact absurd hv (by simp)
  | some nd0 =>
    obtain ⟨nd1, h1, h2, h3, h4, h5⟩ := assign_node_ids_some mesh.elements _ v nd0 h0
    rw [h1] at hv
    have hnd : nd1 = nd := by simpa using hv
    subst hnd
    have hreset : nd0.on_local = false ∧ nd0.processor_id = invalid_processor_id := by
      rw [List.getElem?_map] at h0
      cases hm : mesh.nodes[v]? with
      | none => simp [hm] at h0
      | some x =>
        simp [hm] at h0
        subst h0
        exact ⟨rfl, rfl⟩
    refine ⟨by rw [h2]; exact hreset.1, by rw [← hreset.2]; exact h3, ?_, ?_⟩
    · intro h e he hve
      exact h4 e ((mem_elements_iff mesh e).2 ⟨h, he⟩) hve
    · rcases h5 with h5 | ⟨e, he, hve, hp⟩
      · left; rw [h5]; exact hreset.2
      · obtain ⟨h, hh⟩ := (mem_elements_iff mesh e).1 he
        exact Or.inr ⟨h, e, hh, hve, hp⟩

theorem nodes_after_ids_length (mesh : Mesh) (v : Nat) :
    (nodes_after_ids mesh)[v]? = none ↔ mesh.nodes[v]? = none := by
  unfold nodes_after_ids
  constructor
  · intro h
    cases hm : mesh.nodes[v]? with
    | none => rfl
    | some nd0 =>
      have h0 : (mesh.nodes.map reset_node)[v]? = some (reset_node nd0) := by
        rw [List.getElem?_map, hm]; rfl
      obtain ⟨nd1, h1, _⟩ := assign_node_ids_some mesh.elements _ v _ h0
      rw [h1] at h
      exact absurd h (by simp)
  · intro h
    apply assign_node_ids_none
    rw [List.getElem?_map, h]
    rfl

/-- A node after the call: its processor id is the one computed by the loop
of lines 155-165, and it is local exactly when one of its elements reached
the label `on_local`. -/
theorem set_ids_node (me : Nat) (mesh : Mesh) (v : Nat) (nd1 : Node)
    (hv : (_set_node_processor_ids me mesh).nodes[v]? = some nd1) :
    ∃ nd, (nodes_after_ids mesh)[v]? = some nd ∧ nd1.processor_id = nd.processor_id ∧
      (nd1.on_local = true ↔
        ∃ h e, mesh.elem h = some e ∧ v ∈ e.nodes ∧
          goto_on_local me (elems_after_ids mesh) (on_process_set me mesh) h e = true) := by
  rw [set_ids_unfold] at hv
  simp only at hv
  cases h0 : (nodes_after_ids mesh)[v]? with
  | none =>
    rw [mark_on_local_none _ _ _ _ _ _ _ h0] at hv
    exact absurd hv (by simp)
  | some nd =>
    obtain ⟨nd2, h1, h2, h3⟩ := mark_on_local_some me (elems_after_ids mesh)
      (on_process_set me mesh) 0 (elems_after_ids mesh) _ v nd h0
    rw [h1] at hv
    have hnd : nd2 = nd1 := by simpa using hv
    subst hnd
    refine ⟨nd, rfl, h2, ?_⟩
    rw [h3]
    have hfalse := (nodes_after_ids_spec mesh v nd h0).1
    constructor
    · rintro (hl | ⟨i, e1, a, b, c⟩)
      · rw [hfalse] at hl
        exact absurd hl (by simp)
      · obtain ⟨e, he, rfl⟩ := (elems_after_ids_get mesh i e1).1 a
        rw [Nat.zero_add] at b
        exact ⟨i, e, he, c, b⟩
    · rintro ⟨h, e, he, hve, hg⟩
      refine Or.inr ⟨h, { e with on_local := false },
        (elems_after_ids_get mesh h _).2 ⟨e, he, rfl⟩, ?_, hve⟩
      rw [Nat.zero_add]
      exact hg

theorem set_ids_node_exists (me : Nat) (mesh : Mesh) (v : Nat) (nd : Node)
    (hv : (nodes_after_ids mesh)[v]? = some nd) :
    ∃ nd1, (_set_node_processor_ids me mesh).nodes[v]? = some nd1 ∧
      nd1.processor_id = nd.processor_id := by
  rw [set_ids_unfold]
  obtain ⟨nd2, h1, h2, _⟩ := mark_on_local_some me (elems_after_ids mesh)
      (on_process_set me mesh) 0 (elems_after_ids mesh) _ v nd hv
  exact ⟨nd2, h1, h2⟩

/-- Incidence of nodes and elements is the same before and after the call. -/
theorem set_ids_has_incident_elem (me : Nat) (mesh : Mesh) (v : Nat) :
    (_set_node_processor_ids me mesh).has_incident_elem v ↔ mesh.has_incident_elem v := by
  unfold Mesh.has_incident_elem
  constructor
  · rintro ⟨h, e1, he1, hv⟩
    obtain ⟨e, he, rfl⟩ := (set_ids_elem me mesh h e1).1 he1
    exact ⟨h, e, he, hv⟩
  · rintro ⟨h, e, he, hv⟩
    exact ⟨h, _, (set_ids_elem me mesh h _).2 ⟨e, he, rfl⟩, hv⟩

theorem node_pid_after (me : Nat) (mesh : Mesh) (v : Nat) :
    (∃ nd, (nodes_after_ids mesh)[v]? = some nd ∧ nd.processor_id = me) ↔
      ∃ nd1, (_set_node_processor_ids me mesh).nodes[v]? = some nd1 ∧
        nd1.processor_id = me := by
  constructor
  · rintro ⟨nd, h1, h2⟩
    obtain ⟨nd1, a, b⟩ := set_ids_node_exists me mesh v nd h1
    exact ⟨nd1, a, by rw [b, h2]⟩
  · rintro ⟨nd1, h1, h2⟩
    obtain ⟨nd, a, b, _⟩ := set_ids_node me mesh v nd1 h1
    exact ⟨nd, a, by rw [← b, h2]⟩

theorem owns_or_in_set_iff (me : Nat) (mesh : Mesh) (x : Nat) (e0 : Elem)
    (hx : mesh.elem x = some e0) (e1 : Elem)
    (hp : e1.processor_id = e0.processor_id) (hn : e1.nodes = e0.nodes) :
    (e0.processor_id = me ∨ x ∈ on_process_set me mesh) ↔
      owns_or_has_node me (_set_node_processor_ids me mesh) e1 := by
  unfold owns_or_has_node
  rw [mem_on_process_set, hp, hn]
  constructor
  · rintro (h | ⟨e, he, v, nd, hv, h1, h2⟩)
    · exact Or.inl h
    · rw [hx] at he
      cases he
      obtain ⟨nd1, a, b⟩ := (node_pid_after me mesh v).1 ⟨nd, h1, h2⟩
      exact Or.inr ⟨v, nd1, hv, a, b⟩
  · rintro (h | ⟨v, nd1, hv, h1, h2⟩)
    · exact Or.inl h
    · obtain ⟨nd, a, b⟩ := (node_pid_after me mesh v).2 ⟨nd1, h1, h2⟩
      exact Or.inr ⟨e0, hx, v, nd, hv, a, b⟩

theorem neighbor_key_iff (me : Nat) (mesh : Mesh) (nb : Nat) :
    ((∃ ne, (elems_after_ids mesh)[nb]? = some (some ne) ∧ ne.processor_id = me) ∨
        nb ∈ on_process_set me mesh) ↔
      ∃ e1, (_set_node_processor_ids me mesh).elem nb = some e1 ∧
        owns_or_has_node me (_set_node_processor_ids me mesh) e1 := by
  constructor
  · rintro (⟨ne, h1, h2⟩ | h1)
    · obtain ⟨e0, he0, rfl⟩ := (elems_after_ids_get mesh nb ne).1 h1
      refine ⟨_, (set_ids_elem me mesh nb _).2 ⟨e0, he0, rfl⟩, ?_⟩
      exact (owns_or_in_set_iff me mesh nb e0 he0 _ rfl rfl).1 (Or.inl h2)
    · obtain ⟨e0, he0, _⟩ := (mem_on_process_set me mesh nb).1 h1
      refine ⟨_, (set_ids_elem me mesh nb _).2 ⟨e0, he0, rfl⟩, ?_⟩
      exact (owns_or_in_set_iff me mesh nb e0 he0 _ rfl rfl).1 (Or.inr h1)
  · rintro ⟨e1, he1, ho⟩
    obtain ⟨e0, he0, rfl⟩ := (set_ids_elem me mesh nb e1).1 he1
    rcases (owns_or_in_set_iff me mesh nb e0 he0 _ rfl rfl).2 ho with h | h
    · exact Or.inl ⟨_, (elems_after_ids_get mesh nb _).2 ⟨e0, he0, rfl⟩, h⟩
    · exact Or.inr h

/-- The locality flag of an element after the call, in terms of the final
state. -/
theorem set_ids_on_local_iff (me : Nat) (mesh : Mesh) (h : Nat) (e : Elem)
    (he : (_set_node_processor_ids me mesh).elem h = some e) :
    e.on_local = true ↔
      owns_or_has_node me (_set_node_processor_ids me mesh) e ∨
        has_local_neighbor me (_set_node_processor_ids me mesh) e := by
  obtain ⟨e0, he0, rfl⟩ := (set_ids_elem me mesh h e).1 he
  have hA := owns_or_in_set_iff me mesh h e0 he0
    { e0 with on_local :=
        goto_on_local me (elems_after_ids mesh) (on_process_set me mesh) h e0 } rfl rfl
  show goto_on_local me (elems_after_ids mesh) (on_process_set me mesh) h e0 = true ↔ _
  rw [← hA]
  unfold goto_on_local has_local_neighbor
  rw [Bool.or_eq_true, Bool.or_eq_true, neighbor_on_local_iff]
  have hB : (∃ nb, some nb ∈ e0.neighbors ∧
        ((∃ ne, (elems_after_ids mesh)[nb]? = some (some ne) ∧ ne.processor_id = me) ∨
          nb ∈ on_process_set me mesh)) ↔
      ∃ nb e1, some nb ∈ e0.neighbors ∧
        (_set_node_processor_ids me mesh).elem nb = some e1 ∧
        owns_or_has_node me (_set_node_processor_ids me mesh) e1 := by
    constructor
    · rintro ⟨nb, h1, h2⟩
      obtain ⟨e1, a, b⟩ := (neighbor_key_iff me mesh nb).1 h2
      exact ⟨nb, e1, h1, a, b⟩
    · rintro ⟨nb, e1, h1, a, b⟩
      exact ⟨nb, h1, (neighbor_key_iff me mesh nb).2 ⟨e1, a, b⟩⟩
  rw [hB]
  simp

/-! ## Claims about `_set_node_processor_ids` -/

/-- C1: after `_set_node_processor_ids`, a node that is incident to at least
one element carries the minimum of the processor ids of the elements incident
to it (active or not), and a node incident to no element carries the invalid
id.  The element processor ids are values of the processor-id type, that is,
they do not exceed its largest value `invalid_processor_id`. -/
theorem node_processor_id_is_min (me : Nat) (mesh : Mesh)
    (hrep : ∀ h e, mesh.elem h = some e → e.processor_id ≤ invalid_processor_id)
    (v : Nat) (nd : Node) (hv : (_set_node_processor_ids me mesh).nodes[v]? = some nd) :
    ((_set_node_processor_ids me mesh).has_incident_elem v →
        (_set_node_processor_ids me mesh).is_min_incident_id v nd.processor_id) ∧
      (¬ (_set_node_processor_ids me mesh).has_incident_elem v →
        nd.processor_id = invalid_processor_id) := by
  obtain ⟨nd0, h0, hpid, _⟩ := set_ids_node me mesh v nd hv
  obtain ⟨_, hle, hlow, hatt⟩ := nodes_after_ids_spec mesh v nd0 h0
  rw [hpid]
  constructor
  · intro hinc
    constructor
    · rcases hatt with hinv | ⟨h, e, he, hve, hp⟩
      · obtain ⟨h, e1, he1, hve⟩ := hinc
        obtain ⟨e, he, rfl⟩ := (set_ids_elem me mesh h e1).1 he1
        refine ⟨h, _, he1, hve, ?_⟩
        have h1 := hlow h e he hve
        have h2 := hrep h e he
        show e.processor_id = nd0.processor_id
        omega
      · exact ⟨h, _, (set_ids_elem me mesh h _).2 ⟨e, he, rfl⟩, hve, hp.symm⟩
    · intro h e1 he1 hve
      obtain ⟨e, he, rfl⟩ := (set_ids_elem me mesh h e1).1 he1
      exact hlow h e he hve
  · intro hninc
    rcases hatt with hinv | ⟨h, e, he, hve, hp⟩
    · exact hinv
    · exact absurd ((set_ids_has_incident_elem me mesh v).2 ⟨h, e, he, hve⟩) hninc

/-- C2: after `_set_node_processor_ids` run on process `me`, an element is
local if and only if (i) its processor id is `me`, or (ii) one of its nodes
has processor id `me`, or (iii) one of its non-NULL face neighbours satisfies
(i) or (ii). -/
theorem elem_on_local_iff (me : Nat) (mesh : Mesh) (h : Nat) (e : Elem)
    (he : (_set_node_processor_ids me mesh).elem h = some e) :
    e.on_local = true ↔
      owns_or_has_node me (_set_node_processor_ids me mesh) e ∨
        has_local_neighbor me (_set_node_processor_ids me mesh) e :=
  set_ids_on_local_iff me mesh h e he

/-- C3: after `_set_node_processor_ids`, every node of a local element is
local. -/
theorem on_local_closure (me : Nat) (mesh : Mesh) (h : Nat) (e : Elem)
    (he : (_set_node_processor_ids me mesh).elem h = some e) (hl : e.on_local = true)
    (v : Nat) (hv : v ∈ e.nodes) (nd : Node)
    (hn : (_set_node_processor_ids me mesh).nodes[v]? = some nd) :
    nd.on_local = true := by
  obtain ⟨e0, he0, rfl⟩ := (set_ids_elem me mesh h e).1 he
  obtain ⟨_, _, _, hiff⟩ := set_ids_node me mesh v nd hn
  exact hiff.2 ⟨h, e0, he0, hv, hl⟩

/-- C4, as amended: after `_set_node_processor_ids` run on process `me`, a
non-NULL face neighbour of an element owned by `me` is local, provided the
owned element is in turn one of the face neighbours of that neighbour. -/
theorem halo_ring_of_symmetric (me : Nat) (mesh : Mesh) (h : Nat) (e : Elem)
    (he : (_set_node_processor_ids me mesh).elem h = some e) (hp : e.processor_id = me)
    (nb : Nat) (_hnb : some nb ∈ e.neighbors) (e1 : Elem)
    (he1 : (_set_node_processor_ids me mesh).elem nb = some e1)
    (hsym : some h ∈ e1.neighbors) :
    e1.on_local = true :=
  (set_ids_on_local_iff me mesh nb e1 he1).2 (Or.inr ⟨h, e, hsym, he, Or.inl hp⟩)

theorem chain6_representable (h : Nat) (e : Elem) (he : chain6.elem h = some e) :
    e.processor_id ≤ invalid_processor_id := by
  have hlt : h < 6 := by
    by_contra hge
    have : chain6.elements[h]? = none := List.getElem?_eq_none (by simp [chain6]; omega)
    simp [Mesh.elem, this] at he
  interval_cases h <;> simp [Mesh.elem, chain6] at he <;> subst he <;> decide

/-- Witness of C1 on the six-element chain, process 1: node 3, between
elements 2 and 3, gets processor id `min 0 1 = 0`. -/
theorem node_processor_id_is_min_witness :
    (_set_node_processor_ids 1 chain6).nodes[3]? = some { processor_id := 0, on_local := true } ∧
      (_set_node_processor_ids 1 chain6).is_min_incident_id 3 0 :=
  ⟨by decide,
   (node_processor_id_is_min 1 chain6 chain6_representable 3
      { processor_id := 0, on_local := true } (by decide)).1 ⟨2, _, rfl, by decide⟩⟩

/-- Witness of C2 on the six-element chain, process 1, element 0. -/
theorem elem_on_local_iff_witness :
    (_set_node_processor_ids 1 chain6).elem 0 =
        some { nodes := [0, 1], neighbors := [none, some 1], processor_id := 0,
               on_local := true } ∧
      ((({ nodes := [0, 1], neighbors := [none, some 1], processor_id := 0,
           on_local := true } : Elem).on_local = true) ↔
        owns_or_has_node 1 (_set_node_processor_ids 1 chain6)
            { nodes := [0, 1], neighbors := [none, some 1], processor_id := 0,
              on_local := true } ∨
          has_local_neighbor 1 (_set_node_processor_ids 1 chain6)
            { nodes := [0, 1], neighbors := [none, some 1], processor_id := 0,
              on_local := true }) :=
  ⟨rfl, elem_on_local_iff 1 chain6 0 _ rfl⟩

/-- Witness of C3 on the six-element chain, process 1: element 0 is local and
so is its node 0. -/
theorem on_local_closure_witness :
    (_set_node_processor_ids 1 chain6).elem 0 =
        some { nodes := [0, 1], neighbors := [none, some 1], processor_id := 0,
               on_local := true } ∧
      (_set_node_processor_ids 1 chain6).nodes[0]? =
        some { processor_id := 0, on_local := true } ∧
      ({ processor_id := 0, on_local := true } : Node).on_local = true :=
  ⟨rfl, by decide,
   on_local_closure 1 chain6 0
     { nodes := [0, 1], neighbors := [none, some 1], processor_id := 0, on_local := true }
     rfl rfl 0 (by decide) { processor_id := 0, on_local := true } (by decide)⟩

/-- Counterexample to C4 as stated.  On the refined chain, run on process 1:
the left child (slot 2) is owned by process 1 and its side 0 has the coarse
element of slot 0 as non-NULL face neighbour, yet that element is not local. -/
theorem halo_ring_counterexample :
    ∃ e e1, (_set_node_processor_ids 1 refined_chain).elem 2 = some e ∧
      e.processor_id = 1 ∧ e.neighbors[0]? = some (some 0) ∧
      (_set_node_processor_ids 1 refined_chain).elem 0 = some e1 ∧
      e1.on_local = false :=
  ⟨_, _, rfl, rfl, rfl, rfl, rfl⟩

/-- Witness of the amended C4 on the six-element chain, process 1: element 1
is owned, element 0 is its neighbour and has element 1 as neighbour. -/
theorem halo_ring_of_symmetric_witness :
    (_set_node_processor_ids 1 chain6).elem 1 =
        some { nodes := [1, 2], neighbors := [some 0, some 2], processor_id := 1,
               on_local := true } ∧
      (_set_node_processor_ids 1 chain6).elem 0 =
        some { nodes := [0, 1], neighbors := [none, some 1], processor_id := 0,
               on_local := true } ∧
      ({ nodes := [0, 1], neighbors := [none, some 1], processor_id := 0,
         on_local := true } : Elem).on_local = true :=
  ⟨rfl, rfl,
   halo_ring_of_symmetric 1 chain6 1
     { nodes := [1, 2], neighbors := [some 0, some 2], processor_id := 1, on_local := true }
     rfl rfl 0 (by decide)
     { nodes := [0, 1], neighbors := [none, some 1], processor_id := 0, on_local := true }
     rfl (by decide)⟩

/-! ## Claims about `single_partition` -/

/-- C7: `single_partition` is total.  Whatever the prior state, afterwards
every element slot and every node of the mesh is still there, and every
element (active or not) and every node has processor id 0 and is local. -/
theorem single_partition_total (p : Partitioner) (mesh : Mesh) :
    (p.single_partition mesh).2.elements.length = mesh.elements.length ∧
      (∀ h, ((p.single_partition mesh).2.elem h).isSome = (mesh.elem h).isSome) ∧
      (p.single_partition mesh).2.nodes.length = mesh.nodes.length ∧
      (∀ h e, (p.single_partition mesh).2.elem h = some e →
        e.processor_id = 0 ∧ e.on_local = true) ∧
      (∀ (v : Nat) (nd : Node), (p.single_partition mesh).2.nodes[v]? = some nd →
        nd.processor_id = 0 ∧ nd.on_local = true) := by
  have helem : ∀ h, (p.single_partition mesh).2.elem h = (mesh.elem h).map single_elem := by
    intro h
    unfold Partitioner.single_partition Mesh.elem
    simp only [List.getElem?_map]
    cases hm : mesh.elements[h]? with
    | none => rfl
    | some o => cases o <;> rfl
  refine ⟨by simp [Partitioner.single_partition], ?_,
    by simp [Partitioner.single_partition], ?_, ?_⟩
  · intro h
    rw [helem]
    cases mesh.elem h <;> rfl
  · intro h e he
    rw [helem] at he
    cases hm : mesh.elem h with
    | none => simp [hm] at he
    | some e0 =>
      simp [hm] at he
      subst he
      exact ⟨rfl, rfl⟩
  · intro v nd hv
    have hv1 : (mesh.nodes[v]?).map single_node = some nd := by
      rw [← hv]
      unfold Partitioner.single_partition
      simp only [List.getElem?_map]
    cases hm : mesh.nodes[v]? with
    | none => simp [hm] at hv1
    | some nd0 =>
      simp [hm] at hv1
      subst hv1
      exact ⟨rfl, rfl⟩

/-- C8: `single_partition` is idempotent on the whole state: cluster store,
elements, nodes and declared partition count. -/
theorem single_partition_idempotent (p : Partitioner) (mesh : Mesh) :
    (p.single_partition mesh).1.single_partition (p.single_partition mesh).2 =
      p.single_partition mesh := by
  unfold Partitioner.single_partition
  simp only [List.map_map, Prod.mk.injEq, true_and]
  have h1 : (Option.map single_elem ∘ Option.map single_elem) = Option.map single_elem := by
    funext o
    cases o <;> rfl
  have h2 : (single_node ∘ single_node) = single_node := by
    funext nd
    rfl
  rw [h1, h2]

/-! ## The flat cluster store -/

theorem mem_active_elements (h : Nat) (es : List (Option Elem)) (x : Nat) :
    x ∈ active_elements h es ↔
      ∃ i e, es[i]? = some (some e) ∧ x = h + i ∧ e.active = true := by
  induction es generalizing h with
  | nil => simp [active_elements]
  | cons oe rest ih =>
    have shift : (∃ i e, rest[i]? = some (some e) ∧ x = h + 1 + i ∧ e.active = true) ↔
        ∃ i e, (oe :: rest)[i + 1]? = some (some e) ∧ x = h + (i + 1) ∧ e.active = true := by
      constructor
      · rintro ⟨i, e, h1, h2, h3⟩
        exact ⟨i, e, by simpa using h1, by omega, h3⟩
      · rintro ⟨i, e, h1, h2, h3⟩
        exact ⟨i, e, by simpa using h1, by omega, h3⟩
    cases oe with
    | none =>
      rw [active_elements, ih, shift]
      constructor
      · rintro ⟨i, e, h1, h2, h3⟩
        exact ⟨i + 1, e, h1, h2, h3⟩
      · rintro ⟨i, e, h1, h2, h3⟩
        cases i with
        | zero => simp at h1
        | succ i => exact ⟨i, e, h1, h2, h3⟩
    | some e0 =>
      rw [active_elements]
      by_cases hp : e0.active = true
      · rw [if_pos hp, List.mem_cons, ih, shift]
        constructor
        · rintro (hx | ⟨i, e, h1, h2, h3⟩)
          · exact ⟨0, e0, by simp, by omega, hp⟩
          · exact ⟨i + 1, e, h1, h2, h3⟩
        · rintro ⟨i, e, h1, h2, h3⟩
          cases i with
          | zero => left; omega
          | succ i => exact Or.inr ⟨i, e, h1, h2, h3⟩
      · rw [if_neg hp, ih, shift]
        constructor
        · rintro ⟨i, e, h1, h2, h3⟩
          exact ⟨i + 1, e, h1, h2, h3⟩
        · rintro ⟨i, e, h1, h2, h3⟩
          cases i with
          | zero =>
            simp at h1
            subst h1
            exact absurd h3 hp
          | succ i => exact ⟨i, e, h1, h2, h3⟩

/-- The active elements of a mesh are the slots holding an active element. -/
theorem mem_active_elements_mesh (mesh : Mesh) (x : Nat) :
    x ∈ active_elements 0 mesh.elements ↔ ∃ e, mesh.elem x = some e ∧ e.active = true := by
  rw [mem_active_elements]
  unfold Mesh.elem
  constructor
  · rintro ⟨i, e, h1, h2, h3⟩
    have hx : x = i := by omega
    subst hx
    exact ⟨e, by simp [h1], h3⟩
  · rintro ⟨e, h1, h3⟩
    refine ⟨x, e, ?_, by omega, h3⟩
    cases hm : mesh.elements[x]? with
    | none => simp [hm] at h1
    | some o =>
      cases o with
      | none => simp [hm] at h1
      | some e0 =>
        simp [hm] at h1
        rw [h1]

theorem active_elements_sorted (h : Nat) (es : List (Option Elem)) :
    (active_elements h es).Pairwise (fun a b => a < b) := by
  induction es generalizing h with
  | nil => simp [active_elements]
  | cons oe rest ih =>
    cases oe with
    | none => exact ih (h + 1)
    | some e0 =>
      rw [active_elements]
      split
      · rw [List.pairwise_cons]
        refine ⟨?_, ih (h + 1)⟩
        intro x hx
        obtain ⟨i, _, _, h2, _⟩ := (mem_active_elements (h + 1) rest x).1 hx
        omega
      · exact ih (h + 1)

theorem active_elements_nodup (h : Nat) (es : List (Option Elem)) :
    (active_elements h es).Nodup :=
  (active_elements_sorted h es).imp (fun hab => Nat.ne_of_lt hab)

theorem active_elements_lt (mesh : Mesh) (x : Nat) (hx : x ∈ active_elements 0 mesh.elements) :
    x < mesh.n_elem := by
  obtain ⟨i, e, h1, h2, _⟩ := (mem_active_elements 0 mesh.elements x).1 hx
  have hi : i < mesh.elements.length := by
    by_contra hge
    rw [List.getElem?_eq_none (by omega)] at h1
    exact absurd h1 (by simp)
  unfold Mesh.n_elem
  omega

theorem build_flat_loop_heap (hs : List Nat) (p : Partitioner) :
    (build_flat_loop hs p).heap =
      p.heap ++ hs.map (fun h => some { id := h, elems := [h] }) := by
  induction hs generalizing p with
  | nil => simp [build_flat_loop]
  | cons h rest ih => simp [build_flat_loop, ih]

theorem build_flat_loop_clusters (hs : List Nat) (p : Partitioner) :
    (build_flat_loop hs p)._clusters = p._clusters ++ List.range' p.heap.length hs.length := by
  induction hs generalizing p with
  | nil => simp [build_flat_loop]
  | cons h rest ih =>
    simp [build_flat_loop, ih, List.range'_succ]

theorem build_flat_loop_table_length (hs : List Nat) (p : Partitioner) :
    (build_flat_loop hs p)._elem_cluster_map.length = p._elem_cluster_map.length := by
  induction hs generalizing p with
  | nil => simp [build_flat_loop]
  | cons h rest ih => simp [build_flat_loop, ih]

theorem build_flat_loop_table_not_mem (hs : List Nat) (p : Partitioner) (x : Nat)
    (hx : x ∉ hs) :
    (build_flat_loop hs p)._elem_cluster_map[x]? = p._elem_cluster_map[x]? := by
  induction hs generalizing p with
  | nil => simp [build_flat_loop]
  | cons h rest ih =>
    simp only [List.mem_cons, not_or] at hx
    rw [build_flat_loop, ih _ hx.2]
    simp only
    rw [List.getElem?_set_ne (fun hh => hx.1 hh.symm)]

theorem build_flat_loop_table_mem (hs : List Nat) (p : Partitioner) (x : Nat)
    (hnd : hs.Nodup) (hlt : x < p._elem_cluster_map.length) (j : Nat)
    (hj : hs[j]? = some x) :
    (build_flat_loop hs p)._elem_cluster_map[x]? = some (some (p.heap.length + j)) := by
  induction hs generalizing p j with
  | nil => simp at hj
  | cons h rest ih =>
    rw [List.nodup_cons] at hnd
    cases j with
    | zero =>
      simp at hj
      subst hj
      rw [build_flat_loop, build_flat_loop_table_not_mem _ _ _ hnd.1]
      simp [List.getElem?_set_self, hlt]
    | succ j =>
      simp at hj
      rw [build_flat_loop, ih _ hnd.2 (by simpa using hlt) j hj]
      simp
      omega

theorem deref_append_right (heap0 : List (Option Cluster)) (cls : List Cluster) (j : Nat) :
    deref (heap0 ++ cls.map some) (heap0.length + j) = cls[j]? := by
  unfold deref
  rw [List.getElem?_append_right (by omega)]
  simp only [Nat.add_sub_cancel_left, List.getElem?_map]
  cases cls[j]? <;> rfl

theorem map_deref_range (heap0 : List (Option Cluster)) (cls : List Cluster) :
    (List.range' heap0.length cls.length).map (deref (heap0 ++ cls.map some)) =
      cls.map some := by
  apply List.ext_getElem?
  intro j
  rw [List.getElem?_map, List.getElem?_map]
  by_cases hj : j < cls.length
  · rw [List.getElem?_range' _ _ hj]
    simp only [Nat.one_mul, Option.map_some']
    rw [deref_append_right]
    simp [List.getElem?_eq_getElem hj]
  · rw [List.getElem?_eq_none (by simpa using hj), List.getElem?_eq_none (by simpa using hj)]
    rfl

theorem flat_store_heap (p : Partitioner) (mesh : Mesh) :
    (flat_store p mesh).heap =
      p._clear_cluster.heap ++ ((active_elements 0 mesh.elements).map flat_cluster).map some := by
  unfold flat_store Partitioner._build_flat_cluster
  rw [build_flat_loop_heap, List.map_map]
  rfl

theorem flat_store_clusters (p : Partitioner) (mesh : Mesh) :
    (flat_store p mesh)._clusters =
      List.range' p._clear_cluster.heap.length (active_elements 0 mesh.elements).length := by
  unfold flat_store Partitioner._build_flat_cluster
  rw [build_flat_loop_clusters]
  rfl

theorem flat_store_table_length (p : Partitioner) (mesh : Mesh) :
    (flat_store p mesh)._elem_cluster_map.length = mesh.n_elem := by
  unfold flat_store Partitioner._build_flat_cluster
  rw [build_flat_loop_table_length]
  simp [resize_map, Partitioner._clear_cluster]

theorem flat_store_table_active (p : Partitioner) (mesh : Mesh) (j h : Nat)
    (hj : (active_elements 0 mesh.elements)[j]? = some h) :
    (flat_store p mesh)._elem_cluster_map[h]? =
      some (some (p._clear_cluster.heap.length + j)) := by
  unfold flat_store Partitioner._build_flat_cluster
  have hmem : h ∈ active_elements 0 mesh.elements := List.mem_iff_getElem?.2 ⟨j, hj⟩
  have hlt := active_elements_lt mesh h hmem
  rw [build_flat_loop_table_mem _ _ h (active_elements_nodup 0 _)
    (by simpa [resize_map, Partitioner._clear_cluster] using hlt) j hj]

theorem flat_store_table_inactive (p : Partitioner) (mesh : Mesh) (h : Nat)
    (hlt : h < mesh.n_elem) (hn : h ∉ active_elements 0 mesh.elements) :
    (flat_store p mesh)._elem_cluster_map[h]? = some none := by
  unfold flat_store Partitioner._build_flat_cluster
  rw [build_flat_loop_table_not_mem _ _ _ hn]
  simp [resize_map, Partitioner._clear_cluster, List.getElem?_replicate, hlt]

/-- The table entry of an active element in the flat store. -/
theorem flat_store_active_entry (p : Partitioner) (mesh : Mesh) (h : Nat) (e : Elem)
    (he : mesh.elem h = some e) (ha : e.active = true) :
    ∃ c, (flat_store p mesh)._elem_cluster_map[h]? = some (some c) ∧
      c ∈ (flat_store p mesh)._clusters ∧
      deref (flat_store p mesh).heap c = some { id := h, elems := [h] } := by
  have hmem : h ∈ active_elements 0 mesh.elements :=
    (mem_active_elements_mesh mesh h).2 ⟨e, he, ha⟩
  obtain ⟨j, hj⟩ := List.mem_iff_getElem?.1 hmem
  have hjlt : j < (active_elements 0 mesh.elements).length := by
    by_contra hge
    rw [List.getElem?_eq_none (by omega)] at hj
    exact absurd hj (by simp)
  refine ⟨p._clear_cluster.heap.length + j, flat_store_table_active p mesh j h hj, ?_, ?_⟩
  · rw [flat_store_clusters, List.mem_range']
    exact ⟨j, hjlt, by omega⟩
  · rw [flat_store_heap, deref_append_right, List.getElem?_map, hj]
    rfl

/-- C9: after `_build_flat_cluster` on a cleared store, the cluster list
holds, in slot order, one cluster per active element and nothing else (the
pointers are pairwise different and the clusters they point to are the flat
clusters of the active elements); the table entry of an active element `h` is
a cluster of the list with id `h` and member list `[h]`; every other slot of
the table (inactive element or NULL element slot) is empty. -/
theorem build_flat_cluster_spec (p : Partitioner) (mesh : Mesh) :
    (flat_store p mesh)._clusters.map (deref (flat_store p mesh).heap) =
        (active_elements 0 mesh.elements).map (fun h => some (flat_cluster h)) ∧
      (flat_store p mesh)._clusters.Nodup ∧
      (flat_store p mesh)._elem_cluster_map.length = mesh.n_elem ∧
      (∀ h e, mesh.elem h = some e → e.active = true →
        ∃ c, (flat_store p mesh)._elem_cluster_map[h]? = some (some c) ∧
          c ∈ (flat_store p mesh)._clusters ∧
          deref (flat_store p mesh).heap c = some { id := h, elems := [h] }) ∧
      (∀ h, h < mesh.n_elem → (¬ ∃ e, mesh.elem h = some e ∧ e.active = true) →
        (flat_store p mesh)._elem_cluster_map[h]? = some none) := by
  refine ⟨?_, ?_, flat_store_table_length p mesh, ?_, ?_⟩
  · rw [flat_store_heap, flat_store_clusters]
    have hlen : (active_elements 0 mesh.elements).length =
        ((active_elements 0 mesh.elements).map flat_cluster).length := by simp
    rw [hlen, map_deref_range, List.map_map]
    rfl
  · rw [flat_store_clusters]
    exact List.nodup_range' _ _
  · intro h e he ha
    exact flat_store_active_entry p mesh h e he ha
  · intro h hlt hn
    apply flat_store_table_inactive p mesh h hlt
    intro hmem
    exact hn ((mem_active_elements_mesh mesh h).1 hmem)

/-! ## Propagation of the processor ids of the clusters -/

theorem modify_elem_get (f : Elem → Elem) (i j : Nat) (l : List (Option Elem)) :
    (modify_elem f i l)[j]? = if i = j then (l[j]?).map (Option.map f) else l[j]? := by
  induction l generalizing i j with
  | nil => cases i <;> simp [modify_elem]
  | cons oe rest ih =>
    cases i with
    | zero =>
      cases j with
      | zero => simp [modify_elem]
      | succ j => simp [modify_elem]
    | succ i =>
      cases j with
      | zero => simp [modify_elem]
      | succ j => simp [modify_elem, ih]

theorem set_cluster_processor_id_get (pid : Nat) (hs : List Nat) (l : List (Option Elem))
    (j : Nat) (e : Elem) (hj : l[j]? = some (some e)) :
    (set_cluster_processor_id pid hs l)[j]? =
      some (some (if j ∈ hs then { e with processor_id := pid } else e)) := by
  induction hs generalizing l e with
  | nil => simpa [set_cluster_processor_id] using hj
  | cons h rest ih =>
    rw [set_cluster_processor_id]
    by_cases hh : h = j
    · subst hh
      have hstep : (modify_elem (fun el => { el with processor_id := pid }) h l)[h]? =
          some (some { e with processor_id := pid }) := by
        rw [modify_elem_get, if_pos rfl, hj]
        rfl
      rw [ih _ _ hstep]
      simp
    · have hstep : (modify_elem (fun el => { el with processor_id := pid }) h l)[j]? =
          some (some e) := by
        rw [modify_elem_get, if_neg hh, hj]
      rw [ih _ _ hstep]
      have hj2 : ¬ j = h := fun hc => hh hc.symm
      simp [hj2]

/-- The element in slot `j` after the propagation: only its processor id may
have changed; it changed to the id of a cluster holding `j`, and it did change
to such an id when some cluster of the list holds `j`. -/
theorem propagate_some (heap : List (Option Cluster)) (pids : Nat → Nat) (k : Nat)
    (cs : List Nat) (l : List (Option Elem)) (j : Nat) (e : Elem)
    (hj : l[j]? = some (some e)) :
    ∃ q, (propagate heap pids k cs l)[j]? = some (some { e with processor_id := q }) ∧
      (q = e.processor_id ∨
        ∃ (i : Nat) (c : Nat) (cl : Cluster),
          cs[i]? = some c ∧ deref heap c = some cl ∧ j ∈ cl.elems ∧ q = pids (k + i)) ∧
      ((∃ (i : Nat) (c : Nat) (cl : Cluster),
          cs[i]? = some c ∧ deref heap c = some cl ∧ j ∈ cl.elems) →
        ∃ (i : Nat) (c : Nat) (cl : Cluster),
          cs[i]? = some c ∧ deref heap c = some cl ∧ j ∈ cl.elems ∧ q = pids (k + i)) := by
  induction cs generalizing k l e with
  | nil => exact ⟨e.processor_id, by simpa [propagate] using hj, Or.inl rfl, by simp⟩
  | cons c rest ih =>
    have up : ∀ q, (∃ (i : Nat) (c1 : Nat) (cl : Cluster),
          rest[i]? = some c1 ∧ deref heap c1 = some cl ∧ j ∈ cl.elems ∧
          q = pids (k + 1 + i)) →
        ∃ (i : Nat) (c1 : Nat) (cl : Cluster), (c :: rest)[i]? = some c1 ∧ deref heap c1 = some cl ∧ j ∈ cl.elems ∧
          q = pids (k + i) := by
      rintro q ⟨i, c1, cl, a, b, d, f⟩
      exact ⟨i + 1, c1, cl, by simpa using a, b, d, by rw [f]; congr 1; omega⟩
    cases hc : deref heap c with
    | none =>
      obtain ⟨q, h1, h2, h3⟩ := ih (k + 1) l e hj
      refine ⟨q, by simpa [propagate, hc] using h1, ?_, ?_⟩
      · rcases h2 with h2 | h2
        · exact Or.inl h2
        · exact Or.inr (up q h2)
      · rintro ⟨i, c1, cl, a, b, d⟩
        cases i with
        | zero =>
          simp at a
          subst a
          rw [hc] at b
          exact absurd b (by simp)
        | succ i => exact up q (h3 ⟨i, c1, cl, by simpa using a, b, d⟩)
    | some cl0 =>
      have hstep := set_cluster_processor_id_get (pids k) cl0.elems l j e hj
      obtain ⟨q, h1, h2, h3⟩ := ih (k + 1) _ _ hstep
      have hq : ({ (if j ∈ cl0.elems then { e with processor_id := pids k } else e) with
          processor_id := q } : Elem) = { e with processor_id := q } := by
        split <;> rfl
      rw [hq] at h1
      have h2a : q = e.processor_id ∨
          ∃ (i : Nat) (c1 : Nat) (cl : Cluster),
            (c :: rest)[i]? = some c1 ∧ deref heap c1 = some cl ∧ j ∈ cl.elems ∧
            q = pids (k + i) := by
        rcases h2 with h2 | h2
        · by_cases hmem : j ∈ cl0.elems
          · rw [if_pos hmem] at h2
            exact Or.inr ⟨0, c, cl0, by simp, hc, hmem, h2⟩
          · rw [if_neg hmem] at h2
            exact Or.inl h2
        · exact Or.inr (up q h2)
      refine ⟨q, by simpa [propagate, hc] using h1, h2a, ?_⟩
      rintro ⟨i, c1, cl, a, b, d⟩
      cases i with
      | zero =>
        simp at a
        subst a
        rw [hc] at b
        have hcl : cl0 = cl := by simpa using b
        subst hcl
        rcases h2 with h2 | h2
        · rw [if_pos d] at h2
          exact ⟨0, c, cl0, by simp, hc, d, h2⟩
        · exact up q h2
      | succ i => exact up q (h3 ⟨i, c1, cl, by simpa using a, b, d⟩)

theorem elem_eq_some_iff (mesh : Mesh) (h : Nat) (e : Elem) :
    mesh.elem h = some e ↔ mesh.elements[h]? = some (some e) := by
  unfold Mesh.elem
  cases hm : mesh.elements[h]? with
  | none => simp
  | some o => cases o <;> simp

theorem set_cluster_processor_id_other (pid : Nat) (hs : List Nat) (l : List (Option Elem))
    (j : Nat) (o : Option (Option Elem)) (hj : l[j]? = o) (ho : ∀ e, o ≠ some (some e)) :
    (set_cluster_processor_id pid hs l)[j]? = o := by
  induction hs generalizing l with
  | nil => simpa [set_cluster_processor_id] using hj
  | cons x xs ih =>
    rw [set_cluster_processor_id]
    apply ih
    rw [modify_elem_get, hj]
    split
    · cases o with
      | none => rfl
      | some o1 =>
        cases o1 with
        | none => rfl
        | some e => exact absurd rfl (ho e)
    · rfl

theorem propagate_other (heap : List (Option Cluster)) (pids : Nat → Nat) (k : Nat)
    (cs : List Nat) (l : List (Option Elem)) (j : Nat) (o : Option (Option Elem))
    (hj : l[j]? = o) (ho : ∀ e, o ≠ some (some e)) :
    (propagate heap pids k cs l)[j]? = o := by
  induction cs generalizing k l with
  | nil => simpa [propagate] using hj
  | cons c rest ih =>
    rw [propagate]
    cases deref heap c with
    | none => exact ih _ _ hj
    | some cl => exact ih _ _ (set_cluster_processor_id_other _ _ _ _ _ hj ho)

/-- An element after `_do_partition`: only its processor id may have changed,
and it is the id the strategy gave to a cluster of the list holding the
element whenever there is such a cluster. -/
theorem do_partition_elem_some (strategy : Mesh → Partitioner → Nat → Nat → Nat)
    (p : Partitioner) (mesh : Mesh) (n h : Nat) (e : Elem) (he : mesh.elem h = some e) :
    ∃ q, (p._do_partition strategy mesh n).elem h = some { e with processor_id := q } ∧
      (q = e.processor_id ∨
        ∃ (i : Nat) (c : Nat) (cl : Cluster), p._clusters[i]? = some c ∧
          deref p.heap c = some cl ∧ h ∈ cl.elems ∧ q = strategy mesh p n i) ∧
      ((∃ (i : Nat) (c : Nat) (cl : Cluster), p._clusters[i]? = some c ∧
          deref p.heap c = some cl ∧ h ∈ cl.elems) →
        ∃ (i : Nat) (c : Nat) (cl : Cluster), p._clusters[i]? = some c ∧
          deref p.heap c = some cl ∧ h ∈ cl.elems ∧ q = strategy mesh p n i) := by
  obtain ⟨q, h1, h2, h3⟩ := propagate_some p.heap (strategy mesh p n) 0 p._clusters
    mesh.elements h e ((elem_eq_some_iff mesh h e).1 he)
  simp only [Nat.zero_add] at h2 h3
  exact ⟨q, (elem_eq_some_iff _ h _).2 h1, h2, h3⟩

theorem do_partition_elem_none (strategy : Mesh → Partitioner → Nat → Nat → Nat)
    (p : Partitioner) (mesh : Mesh) (n h : Nat) (he : mesh.elem h = none) :
    (p._do_partition strategy mesh n).elem h = none := by
  have hno : ∀ e, mesh.elements[h]? ≠ some (some e) := by
    intro e hc
    rw [(elem_eq_some_iff mesh h e).2 hc] at he
    exact absurd he (by simp)
  have h1 := propagate_other p.heap (strategy mesh p n) 0 p._clusters mesh.elements h
    _ rfl hno
  cases hr : (p._do_partition strategy mesh n).elem h with
  | none => rfl
  | some e1 =>
    have h2 := (elem_eq_some_iff _ h e1).1 hr
    have h3 : (propagate p.heap (strategy mesh p n) 0 p._clusters mesh.elements)[h]? =
        some (some e1) := h2
    rw [h1] at h3
    exact absurd h3 (hno e1)

/-! ## Claims about `partition` -/

theorem partition_none (addr : Nat → Nat) (strategy : Mesh → Partitioner → Nat → Nat → Nat)
    (me : Nat) (p : Partitioner) (mesh : Mesh) (n : Nat) :
    p.partition addr strategy me mesh none n =
      some ((flat_store p { mesh with n_partitions := n })._clear_cluster,
        _set_node_processor_ids me
          ((flat_store p { mesh with n_partitions := n })._do_partition strategy
            { mesh with n_partitions := n } n)) := rfl

/-- C6: for a strategy that gives every cluster a processor id below `n`
(so `n ≥ 1`), `partition` with absent groups returns, every element slot
still holds its element with the same activity flag, and every active element
of the resulting mesh has a processor id below `n`. -/
theorem partition_flat_in_range (addr : Nat → Nat)
    (strategy : Mesh → Partitioner → Nat → Nat → Nat) (me : Nat) (p : Partitioner)
    (mesh : Mesh) (n : Nat) (hs : ∀ m q k, strategy m q n k < n) :
    ∃ r, p.partition addr strategy me mesh none n = some r ∧
      (∀ h e, mesh.elem h = some e → ∃ e1, r.2.elem h = some e1 ∧ e1.active = e.active) ∧
      (∀ h e1, r.2.elem h = some e1 → e1.active = true → e1.processor_id < n) := by
  refine ⟨_, partition_none addr strategy me p mesh n, ?_, ?_⟩
  · intro h e he
    have he1 : ({ mesh with n_partitions := n } : Mesh).elem h = some e := he
    obtain ⟨q, h1, _, _⟩ := do_partition_elem_some strategy
      (flat_store p { mesh with n_partitions := n }) _ n h e he1
    exact ⟨_, (set_ids_elem me _ h _).2 ⟨{ e with processor_id := q }, h1, rfl⟩, rfl⟩
  · intro h e1 he1 hact
    obtain ⟨e0, he0, rfl⟩ := (set_ids_elem me _ h e1).1 he1
    cases hm : ({ mesh with n_partitions := n } : Mesh).elem h with
    | none =>
      rw [do_partition_elem_none strategy _ _ n h hm] at he0
      exact absurd he0 (by simp)
    | some e =>
      obtain ⟨q, h1, _, h3⟩ := do_partition_elem_some strategy
        (flat_store p { mesh with n_partitions := n }) _ n h e hm
      rw [h1] at he0
      have heq : e0 = { e with processor_id := q } := by simpa using he0.symm
      subst heq
      have hact0 : e.active = true := hact
      obtain ⟨c, _, hc2, hc3⟩ :=
        flat_store_active_entry p { mesh with n_partitions := n } h e hm hact0
      obtain ⟨i, hi⟩ := List.mem_iff_getElem?.1 hc2
      obtain ⟨i1, c1, cl1, _, _, _, hq⟩ := h3 ⟨i, c, _, hi, hc3, by simp⟩
      show q < n
      rw [hq]
      exact hs _ _ _

/-- Witness of C6: the six-element chain, two partitions, clusters sent to
processors by the parity of their position. -/
theorem partition_flat_in_range_witness :
    (∀ (m : Mesh) (q : Partitioner) (k : Nat), parity_strategy m q 2 k < 2) ∧
      ∃ r, ({ } : Partitioner).partition id parity_strategy 1 chain6 none 2 = some r ∧
        (∀ h e, chain6.elem h = some e → ∃ e1, r.2.elem h = some e1 ∧ e1.active = e.active) ∧
        (∀ h e1, r.2.elem h = some e1 → e1.active = true → e1.processor_id < 2) :=
  ⟨fun _ _ k => Nat.mod_lt k (by decide),
   partition_flat_in_range id parity_strategy 1 { } chain6 2
     (fun _ _ k => Nat.mod_lt k (by decide))⟩

/-! ## The provisional ids of merged clusters on a mesh with inactive elements -/

theorem partition_of_merge (addr : Nat → Nat)
    (strategy : Mesh → Partitioner → Nat → Nat → Nat) (me : Nat) (p : Partitioner)
    (mesh : Mesh) (groups : Option (List (List Nat))) (n : Nat) (p3 : Partitioner)
    (hm : (flat_store p { mesh with n_partitions := n })._merge_elem_to_cluster addr
      { mesh with n_partitions := n } groups = some p3) :
    p.partition addr strategy me mesh groups n =
      some (p3._clear_cluster,
        _set_node_processor_ids me (p3._do_partition strategy { mesh with n_partitions := n } n)) := by
  unfold flat_store at hm
  unfold Partitioner.partition
  simp only [hm]

/-- An element that is a member of no cluster of the cluster list is not
touched by `_do_partition`. -/
theorem do_partition_untouched (strategy : Mesh → Partitioner → Nat → Nat → Nat)
    (p : Partitioner) (mesh : Mesh) (n h : Nat) (e : Elem) (he : mesh.elem h = some e)
    (hno : ∀ ocl ∈ p.cluster_list, ∀ cl ∈ ocl, h ∉ cl.elems) :
    (p._do_partition strategy mesh n).elem h = some e := by
  obtain ⟨q, h1, h2, _⟩ := do_partition_elem_some strategy p mesh n h e he
  rcases h2 with h2 | ⟨i, c, cl, a, b, d, _⟩
  · rw [h1, h2]
  · exfalso
    refine hno (some cl) ?_ cl rfl d
    unfold Partitioner.cluster_list
    rw [List.mem_map]
    exact ⟨c, List.mem_iff_getElem?.2 ⟨i, a⟩, b⟩

/-- The processor id of an element after `partition`, when the merge step
succeeds and leaves the element in no cluster of the list: it is the id the
element had before. -/
theorem partition_keeps_unclustered (addr : Nat → Nat)
    (strategy : Mesh → Partitioner → Nat → Nat → Nat) (me : Nat) (p : Partitioner)
    (mesh : Mesh) (groups : Option (List (List Nat))) (n : Nat) (p3 : Partitioner)
    (hm : (flat_store p { mesh with n_partitions := n })._merge_elem_to_cluster addr
      { mesh with n_partitions := n } groups = some p3)
    (h : Nat) (e : Elem) (he : mesh.elem h = some e)
    (hno : ∀ ocl ∈ p3.cluster_list, ∀ cl ∈ ocl, h ∉ cl.elems) :
    ∃ r, p.partition addr strategy me mesh groups n = some r ∧
      (r.2.elem h).map Elem.processor_id = some e.processor_id := by
  refine ⟨_, partition_of_merge addr strategy me p mesh groups n p3 hm, ?_⟩
  have he1 : ({ mesh with n_partitions := n } : Mesh).elem h = some e := he
  have h1 := do_partition_untouched strategy p3 _ n h e he1 hno
  have h2 := (set_ids_elem me (p3._do_partition strategy { mesh with n_partitions := n } n)
    h _).2 ⟨e, h1, rfl⟩
  rw [h2]
  rfl

theorem group_elems_congr (mesh1 mesh2 : Mesh) (hel : mesh1.elements = mesh2.elements)
    (g : List Nat) : group_elems mesh1 g = group_elems mesh2 g := by
  induction g with
  | nil => rfl
  | cons i rest ih =>
    have h1 : mesh1.elem i = mesh2.elem i := by
      unfold Mesh.elem
      rw [hel]
    rw [group_elems, group_elems, ih, h1]

theorem new_clusters_loop_congr (addr : Nat → Nat) (mesh1 mesh2 : Mesh)
    (hel : mesh1.elements = mesh2.elements) (size n : Nat) (groups : List (List Nat))
    (heap : List (Option Cluster)) (m : List (Nat × Nat × Nat)) :
    new_clusters_loop addr mesh1 size n groups heap m =
      new_clusters_loop addr mesh2 size n groups heap m := by
  induction groups generalizing n heap m with
  | nil => rfl
  | cons g rest ih =>
    rw [new_clusters_loop, new_clusters_loop, group_elems_congr mesh1 mesh2 hel g]
    cases group_elems mesh2 g with
    | none => rfl
    | some es => exact ih _ _ _

/-- The merge step reads the element vector of the mesh only. -/
theorem merge_congr (addr : Nat → Nat) (p : Partitioner) (mesh1 mesh2 : Mesh)
    (hel : mesh1.elements = mesh2.elements) (groups : Option (List (List Nat))) :
    p._merge_elem_to_cluster addr mesh1 groups = p._merge_elem_to_cluster addr mesh2 groups := by
  cases groups with
  | none => rfl
  | some gs =>
    unfold Partitioner._merge_elem_to_cluster
    simp only
    rw [new_clusters_loop_congr addr mesh1 mesh2 hel]

theorem refined_chain4_merge (n : Nat) :
    (flat_store { } { refined_chain4 with n_partitions := n })._merge_elem_to_cluster id
      { refined_chain4 with n_partitions := n } (some [[9, 10]]) = some refined_chain4_store := by
  have h1 : flat_store { } { refined_chain4 with n_partitions := n } =
      flat_store { } refined_chain4 := rfl
  rw [h1, merge_congr id _ { refined_chain4 with n_partitions := n } refined_chain4 rfl]
  decide

/-- C5, evaluation at the failing input.  On the refined chain (eight active
elements in slots 4-11, four inactive ones in slots 0-3) with the single group
`[9, 10]`, the merged cluster gets the provisional id `8 + 0`, the id of the
flat cluster of element 8, and is left out of the rebuilt cluster list.
Whatever the strategy, the process id and the target count, `partition`
returns and the elements 9 and 10 of the group keep their former processor
ids 0 and 1. -/
theorem partition_splits_group (strategy : Mesh → Partitioner → Nat → Nat → Nat)
    (me n : Nat) :
    ∃ r, ({ } : Partitioner).partition id strategy me refined_chain4 (some [[9, 10]]) n =
        some r ∧
      (r.2.elem 9).map Elem.processor_id = some 0 ∧
      (r.2.elem 10).map Elem.processor_id = some 1 := by
  obtain ⟨r9, hr9, h9⟩ := partition_keeps_unclustered id strategy me { } refined_chain4
    (some [[9, 10]]) n refined_chain4_store (refined_chain4_merge n) 9 _ rfl (by decide)
  obtain ⟨r10, hr10, h10⟩ := partition_keeps_unclustered id strategy me { } refined_chain4
    (some [[9, 10]]) n refined_chain4_store (refined_chain4_merge n) 10 _ rfl (by decide)
  rw [hr9] at hr10
  have hr : r9 = r10 := by simpa using hr10
  subst hr
  exact ⟨r9, hr9, h9, h10⟩

/-- C10, evaluation at the failing input.  On the refined chain with the
single group `[5, 7]`, after `_clear_cluster`, `_build_flat_cluster` and
`_merge_elem_to_cluster` the cluster list is `{4}, {6}, {5, 7}, {9}, {10},
{11}`: the active element 8, whose flat cluster has the id `8` also given to
the merged cluster, is a member of no cluster of the list. -/
theorem merge_drops_flat_cluster :
    (refined_chain4.elem 8).map Elem.active = some true ∧
      ((flat_store { } refined_chain4)._merge_elem_to_cluster id refined_chain4
          (some [[5, 7]])).map Partitioner.cluster_list =
        some [some { id := 0, elems := [4] }, some { id := 1, elems := [6] },
              some { id := 2, elems := [5, 7] }, some { id := 3, elems := [9] },
              some { id := 4, elems := [10] }, some { id := 5, elems := [11] }] := by
  constructor
  · rfl
  · decide

/-! ## The target count is not checked -/

theorem set_ids_n_partitions (me : Nat) (mesh : Mesh) :
    (_set_node_processor_ids me mesh).n_partitions = mesh.n_partitions := rfl

theorem repartition_of_merge (addr : Nat → Nat)
    (restrategy : Mesh → Partitioner → Nat → Nat → Nat) (me : Nat) (p : Partitioner)
    (mesh : Mesh) (groups : Option (List (List Nat))) (n : Nat) (p3 : Partitioner)
    (hm : (flat_store p { mesh with n_partitions := n })._merge_elem_to_cluster addr
      { mesh with n_partitions := n } groups = some p3) :
    p.repartition addr restrategy me mesh groups n =
      some (p3._clear_cluster,
        _set_node_processor_ids me
          (p3._do_repartition restrategy { mesh with n_partitions := n } n)) := by
  unfold flat_store at hm
  unfold Partitioner.repartition
  simp only [hm]

theorem partition_of_merge_none (addr : Nat → Nat)
    (strategy : Mesh → Partitioner → Nat → Nat → Nat) (me : Nat) (p : Partitioner)
    (mesh : Mesh) (groups : Option (List (List Nat))) (n : Nat)
    (hm : (flat_store p { mesh with n_partitions := n })._merge_elem_to_cluster addr
      { mesh with n_partitions := n } groups = none) :
    p.partition addr strategy me mesh groups n = none := by
  unfold flat_store at hm
  unfold Partitioner.partition
  simp only [hm]

theorem repartition_of_merge_none (addr : Nat → Nat)
    (restrategy : Mesh → Partitioner → Nat → Nat → Nat) (me : Nat) (p : Partitioner)
    (mesh : Mesh) (groups : Option (List (List Nat))) (n : Nat)
    (hm : (flat_store p { mesh with n_partitions := n })._merge_elem_to_cluster addr
      { mesh with n_partitions := n } groups = none) :
    p.repartition addr restrategy me mesh groups n = none := by
  unfold flat_store at hm
  unfold Partitioner.repartition
  simp only [hm]

/-- Counterexample to C20 as stated: on the six-element chain `partition` and
`repartition` called with the target count 0 do not fail; both return, with
the declared partition count set to 0. -/
theorem partition_zero_counterexample :
    (({ } : Partitioner).partition id parity_strategy 0 chain6 none 0).map
        (fun r => r.2.n_partitions) = some 0 ∧
      (({ } : Partitioner).repartition id parity_strategy 0 chain6 none 0).map
        (fun r => r.2.n_partitions) = some 0 := by
  constructor <;> rfl

/-- C20, as amended: `partition` and `repartition` do not check the target
count.  Called with `n = 0` they go through the same stages as for any other
count: they return exactly when the merge step on the flat store succeeds (in
particular whenever the groups are absent), and the mesh returned carries the
declared partition count 0. -/
theorem partition_zero_proceeds (addr : Nat → Nat)
    (strategy restrategy : Mesh → Partitioner → Nat → Nat → Nat) (me : Nat)
    (p : Partitioner) (mesh : Mesh) (groups : Option (List (List Nat))) :
    ((p.partition addr strategy me mesh groups 0).isSome =
        ((flat_store p mesh)._merge_elem_to_cluster addr mesh groups).isSome) ∧
      ((p.repartition addr restrategy me mesh groups 0).isSome =
        ((flat_store p mesh)._merge_elem_to_cluster addr mesh groups).isSome) ∧
      (∀ r, p.partition addr strategy me mesh groups 0 = some r → r.2.n_partitions = 0) ∧
      (∀ r, p.repartition addr restrategy me mesh groups 0 = some r → r.2.n_partitions = 0) ∧
      (p.partition addr strategy me mesh none 0).isSome = true ∧
      (p.repartition addr restrategy me mesh none 0).isSome = true := by
  have hflat : flat_store p { mesh with n_partitions := 0 } = flat_store p mesh := rfl
  have hcongr := merge_congr addr (flat_store p mesh) { mesh with n_partitions := 0 } mesh rfl
    groups
  cases hm : (flat_store p mesh)._merge_elem_to_cluster addr mesh groups with
  | none =>
    have hm0 : (flat_store p { mesh with n_partitions := 0 })._merge_elem_to_cluster addr
        { mesh with n_partitions := 0 } groups = none := by rw [hflat, hcongr, hm]
    rw [partition_of_merge_none addr strategy me p mesh groups 0 hm0,
      repartition_of_merge_none addr restrategy me p mesh groups 0 hm0]
    refine ⟨rfl, rfl, ?_, ?_, rfl, rfl⟩
    · intro r hr
      exact absurd hr (by simp)
    · intro r hr
      exact absurd hr (by simp)
  | some p3 =>
    have hm0 : (flat_store p { mesh with n_partitions := 0 })._merge_elem_to_cluster addr
        { mesh with n_partitions := 0 } groups = some p3 := by rw [hflat, hcongr, hm]
    rw [partition_of_merge addr strategy me p mesh groups 0 p3 hm0,
      repartition_of_merge addr restrategy me p mesh groups 0 p3 hm0]
    refine ⟨rfl, rfl, ?_, ?_, rfl, rfl⟩
    · intro r hr
      have : r = _ := (Option.some.inj hr).symm
      rw [this]
      rfl
    · intro r hr
      have : r = _ := (Option.some.inj hr).symm
      rw [this]
      rfl

/-! ## Maps ordered by key -/

theorem mem_map_insert {α : Type} (k : Nat) (v : α) (m : List (Nat × α)) (x : Nat × α)
    (hx : x ∈ map_insert k v m) : x ∈ m ∨ x = (k, v) := by
  induction m with
  | nil =>
    simp [map_insert] at hx
    exact Or.inr hx
  | cons kv rest ih =>
    obtain ⟨k1, v1⟩ := kv
    rw [map_insert] at hx
    split at hx
    · rw [List.mem_cons] at hx
      rcases hx with hx | hx
      · exact Or.inr hx
      · exact Or.inl hx
    · split at hx
      · exact Or.inl hx
      · rw [List.mem_cons] at hx
        rcases hx with hx | hx
        · exact Or.inl (by rw [hx]; exact List.mem_cons_self _ _)
        · rcases ih hx with h | h
          · exact Or.inl (List.mem_cons_of_mem _ h)
          · exact Or.inr h

theorem mem_map_insert_of_mem {α : Type} (k : Nat) (v : α) (m : List (Nat × α)) (x : Nat × α)
    (hx : x ∈ m) : x ∈ map_insert k v m := by
  induction m with
  | nil => exact absurd hx (List.not_mem_nil _)
  | cons kv rest ih =>
    obtain ⟨k1, v1⟩ := kv
    rw [map_insert]
    split
    · exact List.mem_cons_of_mem _ hx
    · split
      · exact hx
      · rw [List.mem_cons] at hx ⊢
        rcases hx with hx | hx
        · exact Or.inl hx
        · exact Or.inr (ih hx)

/-- After an insertion the key is present. -/
theorem map_insert_key_mem {α : Type} (k : Nat) (v : α) (m : List (Nat × α)) :
    ∃ v1, (k, v1) ∈ map_insert k v m := by
  induction m with
  | nil => exact ⟨v, by simp [map_insert]⟩
  | cons kv rest ih =>
    obtain ⟨k1, v1⟩ := kv
    rw [map_insert]
    split
    · exact ⟨v, List.mem_cons_self _ _⟩
    · split
      · rename_i _ heq
        exact ⟨v1, by rw [heq]; exact List.mem_cons_self _ _⟩
      · obtain ⟨v2, h2⟩ := ih
        exact ⟨v2, List.mem_cons_of_mem _ h2⟩

theorem map_insert_sorted {α : Type} (k : Nat) (v : α) (m : List (Nat × α))
    (hs : m.Pairwise (fun a b => a.1 < b.1)) :
    (map_insert k v m).Pairwise (fun a b => a.1 < b.1) := by
  induction m with
  | nil => simp [map_insert]
  | cons kv rest ih =>
    obtain ⟨k1, v1⟩ := kv
    rw [List.pairwise_cons] at hs
    rw [map_insert]
    split
    · rename_i hlt
      rw [List.pairwise_cons]
      refine ⟨?_, List.pairwise_cons.2 hs⟩
      intro x hx
      rw [List.mem_cons] at hx
      rcases hx with hx | hx
      · rw [hx]; exact hlt
      · exact Nat.lt_trans hlt (hs.1 x hx)
    · split
      · exact List.pairwise_cons.2 hs
      · rename_i hnlt hne
        rw [List.pairwise_cons]
        refine ⟨?_, ih hs.2⟩
        intro x hx
        rcases mem_map_insert k v rest x hx with h | h
        · exact hs.1 x h
        · rw [h]
          show k1 < k
          omega

/-- Inserting a key that is present leaves a sorted map as it is. -/
theorem map_insert_of_key_mem {α : Type} (k : Nat) (v v1 : α) (m : List (Nat × α))
    (hs : m.Pairwise (fun a b => a.1 < b.1)) (hk : (k, v1) ∈ m) :
    map_insert k v m = m := by
  induction m with
  | nil => exact absurd hk (List.not_mem_nil _)
  | cons kv rest ih =>
    obtain ⟨k2, v2⟩ := kv
    rw [List.pairwise_cons] at hs
    rw [List.mem_cons] at hk
    rw [map_insert]
    rcases hk with hk | hk
    · have hk2 : k = k2 := by
        have := congrArg Prod.fst hk
        exact this
      subst hk2
      simp
    · have hlt : k2 < k := hs.1 (k, v1) hk
      have h1 : ¬ k < k2 := by omega
      have h2 : ¬ k = k2 := by omega
      rw [if_neg h1, if_neg h2, ih hs.2 hk]

/-- Inserting a key that is absent adds the pair. -/
theorem map_insert_perm {α : Type} (k : Nat) (v : α) (m : List (Nat × α))
    (hk : ∀ v1, (k, v1) ∉ m) : (map_insert k v m).Perm ((k, v) :: m) := by
  induction m with
  | nil => simp [map_insert]
  | cons kv rest ih =>
    obtain ⟨k2, v2⟩ := kv
    rw [map_insert]
    split
    · exact List.Perm.refl _
    · split
      · rename_i _ heq
        exact absurd (by rw [heq]; exact List.mem_cons_self _ _) (hk v2)
      · have hrest : ∀ v1, (k, v1) ∉ rest := fun v1 h => hk v1 (List.mem_cons_of_mem _ h)
        exact ((ih hrest).cons (k2, v2)).trans (List.Perm.swap _ _ _)

/-! ## The rebuild of the cluster list -/

theorem merge_unfold (addr : Nat → Nat) (p : Partitioner) (mesh : Mesh)
    (gs : List (List Nat)) (s : Partitioner)
    (hm : p._merge_elem_to_cluster addr mesh (some gs) = some s) :
    ∃ heap1 m1, new_clusters_loop addr mesh p._clusters.length 0 gs p.heap [] =
        some (heap1, m1) ∧
      s = rebuild (replace_loop m1 heap1 p._elem_cluster_map).1
        (replace_loop m1 heap1 p._elem_cluster_map).2 := by
  unfold Partitioner._merge_elem_to_cluster at hm
  simp only at hm
  cases hn : new_clusters_loop addr mesh p._clusters.length 0 gs p.heap [] with
  | none =>
    rw [hn] at hm
    exact absurd hm (by simp)
  | some r =>
    obtain ⟨heap1, m1⟩ := r
    rw [hn] at hm
    exact ⟨heap1, m1, rfl, (Option.some.inj hm).symm⟩

theorem cluster_map_loop_mem (heap : List (Option Cluster)) (table : List (Option Nat))
    (m : List (Nat × Nat)) (x : Nat × Nat) (hx : x ∈ cluster_map_loop heap table m) :
    x ∈ m ∨ ∃ (i : Nat) (cl : Cluster),
      table[i]? = some (some x.2) ∧ deref heap x.2 = some cl ∧ cl.id = x.1 := by
  induction table generalizing m with
  | nil => exact Or.inl (by simpa [cluster_map_loop] using hx)
  | cons o rest ih =>
    have up : (∃ (i : Nat) (cl : Cluster),
        rest[i]? = some (some x.2) ∧ deref heap x.2 = some cl ∧ cl.id = x.1) →
        ∃ (i : Nat) (cl : Cluster),
          (o :: rest)[i]? = some (some x.2) ∧ deref heap x.2 = some cl ∧ cl.id = x.1 := by
      rintro ⟨i, cl, a, b, c⟩
      exact ⟨i + 1, cl, by simpa using a, b, c⟩
    cases o with
    | none =>
      rw [cluster_map_loop] at hx
      rcases ih m hx with h | h
      · exact Or.inl h
      · exact Or.inr (up h)
    | some c =>
      rw [cluster_map_loop] at hx
      cases hc : deref heap c with
      | none =>
        rw [hc] at hx
        rcases ih m hx with h | h
        · exact Or.inl h
        · exact Or.inr (up h)
      | some cl =>
        rw [hc] at hx
        rcases ih _ hx with h | h
        · rcases mem_map_insert _ _ _ _ h with h1 | h1
          · exact Or.inl h1
          · subst h1
            exact Or.inr ⟨0, cl, by simp, hc, rfl⟩
        · exact Or.inr (up h)

theorem cluster_map_loop_sorted (heap : List (Option Cluster)) (table : List (Option Nat))
    (m : List (Nat × Nat)) (hs : m.Pairwise (fun a b => a.1 < b.1)) :
    (cluster_map_loop heap table m).Pairwise (fun a b => a.1 < b.1) := by
  induction table generalizing m with
  | nil => simpa [cluster_map_loop] using hs
  | cons o rest ih =>
    cases o with
    | none => exact ih m hs
    | some c =>
      rw [cluster_map_loop]
      cases deref heap c with
      | none => exact ih m hs
      | some cl => exact ih _ (map_insert_sorted _ _ _ hs)

theorem cluster_map_loop_mono (heap : List (Option Cluster)) (table : List (Option Nat))
    (m : List (Nat × Nat)) (k : Nat) (hk : ∃ c, (k, c) ∈ m) :
    ∃ c, (k, c) ∈ cluster_map_loop heap table m := by
  induction table generalizing m with
  | nil => simpa [cluster_map_loop] using hk
  | cons o rest ih =>
    cases o with
    | none => exact ih m hk
    | some c =>
      rw [cluster_map_loop]
      cases deref heap c with
      | none => exact ih m hk
      | some cl =>
        obtain ⟨c1, h1⟩ := hk
        exact ih _ ⟨c1, mem_map_insert_of_mem _ _ _ _ h1⟩

/-- The id of every live cluster of the table is a key of the map. -/
theorem cluster_map_loop_key (heap : List (Option Cluster)) (table : List (Option Nat))
    (m : List (Nat × Nat)) (i c : Nat) (cl : Cluster) (hi : table[i]? = some (some c))
    (hc : deref heap c = some cl) :
    ∃ c1, (cl.id, c1) ∈ cluster_map_loop heap table m := by
  induction table generalizing m i with
  | nil => simp at hi
  | cons o rest ih =>
    cases i with
    | zero =>
      simp at hi
      subst hi
      rw [cluster_map_loop, hc]
      exact cluster_map_loop_mono heap rest _ cl.id (map_insert_key_mem _ _ _)
    | succ i =>
      have hi1 : rest[i]? = some (some c) := by simpa using hi
      cases o with
      | none => exact ih m i hi1
      | some c0 =>
        rw [cluster_map_loop]
        cases deref heap c0 with
        | none => exact ih m i hi1
        | some cl0 => exact ih _ i hi1

theorem cluster_map_values_nodup (heap : List (Option Cluster)) (m : List (Nat × Nat))
    (hs : m.Pairwise (fun a b => a.1 < b.1))
    (hid : ∀ x ∈ m, ∃ cl, deref heap x.2 = some cl ∧ cl.id = x.1) :
    (m.map Prod.snd).Nodup := by
  unfold List.Nodup
  rw [List.pairwise_map]
  refine List.Pairwise.imp_of_mem ?_ hs
  intro a b ha hb hlt heq
  obtain ⟨cla, ha1, ha2⟩ := hid a ha
  obtain ⟨clb, hb1, hb2⟩ := hid b hb
  rw [heq, hb1] at ha1
  have : clb = cla := Option.some.inj ha1
  subst this
  omega

theorem deref_set_cluster_id (heap : List (Option Cluster)) (c n x : Nat) :
    deref (set_cluster_id heap c n) x =
      if x = c then (deref heap c).map (fun cl => { cl with id := n }) else deref heap x := by
  unfold set_cluster_id
  cases hc : deref heap c with
  | none =>
    by_cases hx : x = c
    · rw [if_pos hx, hx, hc]; rfl
    · rw [if_neg hx]
  | some cl =>
    simp only
    by_cases hx : x = c
    · rw [if_pos hx, hx]
      have hlt : c < heap.length := by
        unfold deref at hc
        by_contra hge
        rw [List.getElem?_eq_none (by omega)] at hc
        exact absurd hc (by simp)
      unfold deref
      rw [List.getElem?_set_self hlt]
      rfl
    · rw [if_neg hx]
      unfold deref
      rw [List.getElem?_set_ne (fun h => hx h.symm)]

theorem renumber_loop_deref_not_mem (n : Nat) (cs : List Nat) (heap : List (Option Cluster))
    (x : Nat) (hx : x ∉ cs) : deref (renumber_loop n cs heap) x = deref heap x := by
  induction cs generalizing n heap with
  | nil => rfl
  | cons c rest ih =>
    simp only [List.mem_cons, not_or] at hx
    rw [renumber_loop, ih _ _ hx.2, deref_set_cluster_id, if_neg hx.1]

theorem renumber_loop_deref (n : Nat) (cs : List Nat) (heap : List (Option Cluster))
    (hnd : cs.Nodup) (k c : Nat) (hk : cs[k]? = some c) :
    deref (renumber_loop n cs heap) c =
      (deref heap c).map (fun cl => { cl with id := n + k }) := by
  induction cs generalizing n heap k with
  | nil => simp at hk
  | cons c0 rest ih =>
    rw [List.nodup_cons] at hnd
    cases k with
    | zero =>
      simp at hk
      subst hk
      rw [renumber_loop, renumber_loop_deref_not_mem _ _ _ _ hnd.1, deref_set_cluster_id,
        if_pos rfl]
      rfl
    | succ k =>
      have hk1 : rest[k]? = some c := by simpa using hk
      have hne : c ≠ c0 := by
        intro h
        rw [h] at hk1
        exact hnd.1 (List.mem_iff_getElem?.2 ⟨k, hk1⟩)
      rw [renumber_loop, ih _ _ hnd.2 k hk1, deref_set_cluster_id, if_neg hne]
      have : n + 1 + k = n + (k + 1) := by omega
      rw [this]

/-- Renumbering changes ids only: a cluster is live after the renumbering
exactly when it was live before, with the same members. -/
theorem renumber_loop_elems (n : Nat) (cs : List Nat) (heap : List (Option Cluster))
    (x : Nat) :
    (deref (renumber_loop n cs heap) x).map Cluster.elems = (deref heap x).map Cluster.elems := by
  induction cs generalizing n heap with
  | nil => rfl
  | cons c rest ih =>
    rw [renumber_loop, ih, deref_set_cluster_id]
    split
    · rename_i h
      rw [h]
      cases deref heap c <;> rfl
    · rfl

/-- The cluster list after the rebuild: pairwise different pointers to live
clusters, the cluster at position `k` carrying the id `k`. -/
theorem rebuild_dense (heap : List (Option Cluster)) (table : List (Option Nat)) :
    (rebuild heap table)._clusters.Nodup ∧
      ∀ k c, (rebuild heap table)._clusters[k]? = some c →
        ∃ cl, deref (rebuild heap table).heap c = some cl ∧ cl.id = k := by
  have hs := cluster_map_loop_sorted heap table [] List.Pairwise.nil
  have hid : ∀ x ∈ cluster_map_loop heap table [],
      ∃ cl, deref heap x.2 = some cl ∧ cl.id = x.1 := by
    intro x hx
    rcases cluster_map_loop_mem heap table [] x hx with h | ⟨_, cl, _, b, c⟩
    · exact absurd h (List.not_mem_nil _)
    · exact ⟨cl, b, c⟩
  have hnd := cluster_map_values_nodup heap _ hs hid
  refine ⟨hnd, ?_⟩
  intro k c hk
  have hmem : c ∈ (cluster_map_loop heap table []).map Prod.snd :=
    List.mem_iff_getElem?.2 ⟨k, hk⟩
  obtain ⟨x, hx, hxc⟩ := List.mem_map.1 hmem
  obtain ⟨cl, hcl, _⟩ := hid x hx
  rw [hxc] at hcl
  refine ⟨{ cl with id := 0 + k }, ?_, by simp⟩
  show deref (renumber_loop 0 _ heap) c = _
  rw [renumber_loop_deref 0 _ heap hnd k c hk, hcl]
  rfl

/-- C11: after `_merge_elem_to_cluster` with a present group list (the empty
list included) the rebuilt cluster list holds every cluster pointer at most
once, and the cluster at position `k` is live and has id `k`. -/
theorem merge_dense_ids (addr : Nat → Nat) (p : Partitioner) (mesh : Mesh)
    (gs : List (List Nat)) (s : Partitioner)
    (hm : p._merge_elem_to_cluster addr mesh (some gs) = some s) :
    s._clusters.Nodup ∧
      ∀ k c, s._clusters[k]? = some c → ∃ cl, deref s.heap c = some cl ∧ cl.id = k := by
  obtain ⟨heap1, m1, _, rfl⟩ := merge_unfold addr p mesh gs s hm
  exact rebuild_dense _ _

theorem chain6_merge :
    (flat_store { } chain6)._merge_elem_to_cluster id chain6 (some [[0, 1], [2, 3]]) =
      some chain6_merged_store := by
  decide

/-- Witness of C11: the six-element chain with the groups `[0, 1]` and
`[2, 3]`; the cluster list has the four pointers 4, 5, 6, 7 with ids 0-3. -/
theorem merge_dense_ids_witness :
    (flat_store { } chain6)._merge_elem_to_cluster id chain6 (some [[0, 1], [2, 3]]) =
        some chain6_merged_store ∧
      chain6_merged_store._clusters.Nodup ∧
      ∀ k c, chain6_merged_store._clusters[k]? = some c →
        ∃ cl, deref chain6_merged_store.heap c = some cl ∧ cl.id = k :=
  ⟨chain6_merge,
   merge_dense_ids id (flat_store { } chain6) chain6 [[0, 1], [2, 3]] chain6_merged_store
     chain6_merge⟩

/-! ## The loops of the merge step in closed form -/

theorem group_elems_eq (mesh : Mesh) (g : List Nat) :
    group_elems mesh g = if g.all (fun i => (mesh.elem i).isSome) then some g else none := by
  induction g with
  | nil => rfl
  | cons i rest ih =>
    rw [group_elems, ih]
    cases hi : mesh.elem i with
    | none => simp [hi]
    | some e =>
      by_cases hr : rest.all (fun i => (mesh.elem i).isSome) = true
      · simp [hi, hr]
      · simp [hi, hr]

theorem insert_elems_eq (addr : Nat → Nat) (c : Nat) (es : List Nat)
    (m : List (Nat × Nat × Nat)) :
    insert_elems addr c es m = insert_pairs addr (es.map (fun e => (e, c))) m := by
  induction es generalizing m with
  | nil => rfl
  | cons e rest ih => simp [insert_elems, insert_pairs, ih]

theorem insert_pairs_append (addr : Nat → Nat) (l1 l2 : List (Nat × Nat))
    (m : List (Nat × Nat × Nat)) :
    insert_pairs addr (l1 ++ l2) m = insert_pairs addr l2 (insert_pairs addr l1 m) := by
  induction l1 generalizing m with
  | nil => rfl
  | cons x rest ih => simp [insert_pairs, ih]

/-- The loop over the groups in closed form: it fails exactly when some id
names no element; otherwise it appends one cluster per group to the heap and
performs the insertions of `group_pairs`. -/
theorem new_clusters_loop_eq (addr : Nat → Nat) (mesh : Mesh) (size n : Nat)
    (gs : List (List Nat)) (heap : List (Option Cluster)) (m : List (Nat × Nat × Nat)) :
    new_clusters_loop addr mesh size n gs heap m =
      if groups_valid mesh gs then
        some (heap ++ (merged_clusters size n gs).map some,
          insert_pairs addr (group_pairs heap.length gs) m)
      else none := by
  induction gs generalizing n heap m with
  | nil => simp [new_clusters_loop, groups_valid, merged_clusters, group_pairs, insert_pairs]
  | cons g rest ih =>
    rw [new_clusters_loop, group_elems_eq]
    by_cases hg : g.all (fun i => (mesh.elem i).isSome) = true
    · rw [if_pos hg]
      simp only
      rw [ih, insert_elems_eq]
      have hv : groups_valid mesh (g :: rest) = groups_valid mesh rest := by
        simp only [groups_valid, List.all_cons, hg, Bool.true_and]
      rw [hv]
      by_cases hr : groups_valid mesh rest = true
      · rw [if_pos hr, if_pos hr]
        simp [merged_clusters, group_pairs, insert_pairs_append]
      · rw [if_neg hr, if_neg hr]
    · rw [if_neg hg]
      have hv : groups_valid mesh (g :: rest) = false := by
        simp only [groups_valid, List.all_cons]
        simp only [Bool.not_eq_true] at hg
        rw [hg]
        rfl
      rw [hv]
      rfl

theorem replace_loop_eq (m : List (Nat × Nat × Nat)) (heap : List (Option Cluster))
    (table : List (Option Nat)) :
    replace_loop m heap table = replace_pairs (m.map Prod.snd) heap table := by
  induction m generalizing heap table with
  | nil => rfl
  | cons x rest ih =>
    obtain ⟨k, e, c⟩ := x
    simp only [replace_loop, List.map_cons, replace_pairs]
    rw [ih]

/-- The merge step with a present group list in closed form. -/
theorem merge_eq (addr : Nat → Nat) (p : Partitioner) (mesh : Mesh) (gs : List (List Nat)) :
    p._merge_elem_to_cluster addr mesh (some gs) =
      if groups_valid mesh gs then
        some (rebuild
          (replace_pairs ((insert_pairs addr (group_pairs p.heap.length gs) []).map Prod.snd)
            (p.heap ++ (merged_clusters p._clusters.length 0 gs).map some)
            p._elem_cluster_map).1
          (replace_pairs ((insert_pairs addr (group_pairs p.heap.length gs) []).map Prod.snd)
            (p.heap ++ (merged_clusters p._clusters.length 0 gs).map some)
            p._elem_cluster_map).2)
      else none := by
  unfold Partitioner._merge_elem_to_cluster
  simp only
  rw [new_clusters_loop_eq]
  by_cases hv : groups_valid mesh gs = true
  · rw [if_pos hv, if_pos hv]
    simp only
    rw [replace_loop_eq]
    rfl
  · rw [if_neg hv, if_neg hv]

/-! ## The pointer-keyed map of the merge step -/

theorem insert_pairs_sorted (addr : Nat → Nat) (seq : List (Nat × Nat))
    (m : List (Nat × Nat × Nat)) (hs : m.Pairwise (fun a b => a.1 < b.1)) :
    (insert_pairs addr seq m).Pairwise (fun a b => a.1 < b.1) := by
  induction seq generalizing m with
  | nil => exact hs
  | cons ec rest ih => exact ih _ (map_insert_sorted _ _ _ hs)

theorem insert_pairs_mem (addr : Nat → Nat) (seq : List (Nat × Nat))
    (m : List (Nat × Nat × Nat)) (x : Nat × Nat × Nat) (hx : x ∈ insert_pairs addr seq m) :
    x ∈ m ∨ (x.2 ∈ seq ∧ x.1 = addr x.2.1) := by
  induction seq generalizing m with
  | nil => exact Or.inl hx
  | cons ec rest ih =>
    rcases ih _ hx with h | h
    · rcases mem_map_insert _ _ _ _ h with h1 | h1
      · exact Or.inl h1
      · subst h1
        exact Or.inr ⟨List.mem_cons_self _ _, rfl⟩
    · exact Or.inr ⟨List.mem_cons_of_mem _ h.1, h.2⟩

theorem insert_pairs_mono (addr : Nat → Nat) (seq : List (Nat × Nat))
    (m : List (Nat × Nat × Nat)) (k : Nat) (hk : ∃ v, (k, v) ∈ m) :
    ∃ v, (k, v) ∈ insert_pairs addr seq m := by
  induction seq generalizing m with
  | nil => exact hk
  | cons ec rest ih =>
    obtain ⟨v, hv⟩ := hk
    exact ih _ ⟨v, mem_map_insert_of_mem _ _ _ _ hv⟩

/-- The address of every element handed to `insert` is a key of the map. -/
theorem insert_pairs_key (addr : Nat → Nat) (seq : List (Nat × Nat))
    (m : List (Nat × Nat × Nat)) (ec : Nat × Nat) (h : ec ∈ seq) :
    ∃ v, (addr ec.1, v) ∈ insert_pairs addr seq m := by
  induction seq generalizing m with
  | nil => exact absurd h (List.not_mem_nil _)
  | cons x rest ih =>
    rw [List.mem_cons] at h
    rcases h with h | h
    · subst h
      exact insert_pairs_mono addr rest _ _ (map_insert_key_mem _ _ _)
    · exact ih _ h

/-- The entries of the map built from the empty map: keys in ascending order,
each the address of the element of its entry, each entry one of the pairs
handed to `insert`. -/
theorem insert_pairs_spec (addr : Nat → Nat) (seq : List (Nat × Nat)) :
    (insert_pairs addr seq []).Pairwise (fun a b => a.1 < b.1) ∧
      ∀ x ∈ insert_pairs addr seq [], x.2 ∈ seq ∧ x.1 = addr x.2.1 := by
  refine ⟨insert_pairs_sorted addr seq [] List.Pairwise.nil, ?_⟩
  intro x hx
  rcases insert_pairs_mem addr seq [] x hx with h | h
  · exact absurd h (List.not_mem_nil _)
  · exact h

/-- No element occurs in two entries of a pointer-keyed map. -/
theorem entries_nodup (addr : Nat → Nat) (m : List (Nat × Nat × Nat))
    (hs : m.Pairwise (fun a b => a.1 < b.1)) (hk : ∀ x ∈ m, x.1 = addr x.2.1) :
    ((m.map Prod.snd).map Prod.fst).Nodup := by
  unfold List.Nodup
  rw [List.pairwise_map, List.pairwise_map]
  refine List.Pairwise.imp_of_mem ?_ hs
  intro a b ha hb hlt heq
  rw [hk a ha, hk b hb, heq] at hlt
  exact Nat.lt_irrefl _ hlt

theorem mem_group_pairs (c : Nat) (gs : List (List Nat)) (e d : Nat) :
    (e, d) ∈ group_pairs c gs ↔
      ∃ (j : Nat) (g : List Nat), gs[j]? = some g ∧ e ∈ g ∧ d = c + j := by
  induction gs generalizing c with
  | nil => simp [group_pairs]
  | cons g0 rest ih =>
    rw [group_pairs, List.mem_append, ih]
    constructor
    · rintro (h | ⟨j, g, h1, h2, h3⟩)
      · rw [List.mem_map] at h
        obtain ⟨e1, he1, heq⟩ := h
        have h1 : e1 = e := congrArg Prod.fst heq
        have h2 : c = d := congrArg Prod.snd heq
        subst h1
        exact ⟨0, g0, by simp, he1, by omega⟩
      · exact ⟨j + 1, g, by simpa using h1, h2, by omega⟩
    · rintro ⟨j, g, h1, h2, h3⟩
      cases j with
      | zero =>
        simp at h1
        subst h1
        left
        rw [List.mem_map]
        exact ⟨e, h2, by rw [h3]; rfl⟩
      | succ j => exact Or.inr ⟨j, g, by simpa using h1, h2, by omega⟩

/-! ## The replacement loop -/

theorem replace_pairs_table_length (l : List (Nat × Nat)) (heap : List (Option Cluster))
    (table : List (Option Nat)) :
    (replace_pairs l heap table).2.length = table.length := by
  induction l generalizing heap table with
  | nil => rfl
  | cons x rest ih =>
    obtain ⟨e, c⟩ := x
    rw [replace_pairs, ih]
    simp

theorem replace_pairs_table_not_mem (l : List (Nat × Nat)) (heap : List (Option Cluster))
    (table : List (Option Nat)) (x : Nat) (hx : ∀ c, (x, c) ∉ l) :
    (replace_pairs l heap table).2[x]? = table[x]? := by
  induction l generalizing heap table with
  | nil => rfl
  | cons y rest ih =>
    obtain ⟨e, c⟩ := y
    have hne : e ≠ x := by
      intro h
      exact hx c (by rw [← h]; exact List.mem_cons_self _ _)
    rw [replace_pairs, ih _ _ (fun c1 h => hx c1 (List.mem_cons_of_mem _ h)),
      List.getElem?_set_ne hne]

theorem replace_pairs_table_mem (l : List (Nat × Nat)) (heap : List (Option Cluster))
    (table : List (Option Nat)) (x c : Nat) (hnd : (l.map Prod.fst).Nodup)
    (hx : (x, c) ∈ l) (hlt : x < table.length) :
    (replace_pairs l heap table).2[x]? = some (some c) := by
  induction l generalizing heap table with
  | nil => exact absurd hx (List.not_mem_nil _)
  | cons y rest ih =>
    obtain ⟨e, c0⟩ := y
    rw [List.map_cons, List.nodup_cons] at hnd
    rw [List.mem_cons] at hx
    rw [replace_pairs]
    rcases hx with hx | hx
    · have h1 : x = e := congrArg Prod.fst hx
      have h2 : c = c0 := congrArg Prod.snd hx
      subst h1 h2
      rw [replace_pairs_table_not_mem]
      · exact List.getElem?_set_self hlt
      · intro c1 hc1
        exact hnd.1 (List.mem_map.2 ⟨(x, c1), hc1, rfl⟩)
    · exact ih _ _ hnd.2 hx (by simpa using hlt)

/-- A cluster that is the old cluster of no entry survives the replacement
loop. -/
theorem replace_pairs_heap_keep (l : List (Nat × Nat)) (heap : List (Option Cluster))
    (table : List (Option Nat)) (a : Nat) (hnd : (l.map Prod.fst).Nodup)
    (h : ∀ e c, (e, c) ∈ l → table[e]? ≠ some (some a)) :
    (replace_pairs l heap table).1[a]? = heap[a]? := by
  induction l generalizing heap table with
  | nil => rfl
  | cons y rest ih =>
    obtain ⟨e, c0⟩ := y
    rw [List.map_cons, List.nodup_cons] at hnd
    rw [replace_pairs]
    have hrest : ∀ e1 c1, (e1, c1) ∈ rest → (table.set e (some c0))[e1]? ≠ some (some a) := by
      intro e1 c1 h1
      have hne : e ≠ e1 := by
        intro heq
        exact hnd.1 (List.mem_map.2 ⟨(e1, c1), h1, heq.symm⟩)
      rw [List.getElem?_set_ne hne]
      exact h e1 c1 (List.mem_cons_of_mem _ h1)
    rw [ih _ _ hnd.2 hrest]
    have he := h e c0 (List.mem_cons_self _ _)
    cases ht : table[e]? with
    | none => rfl
    | some o =>
      cases o with
      | none => rfl
      | some old =>
        have hne : old ≠ a := by
          intro heq
          rw [ht, heq] at he
          exact he rfl
        simp only [delete_cluster]
        rw [List.getElem?_set_ne hne]

theorem replace_pairs_swap (x y : Nat × Nat) (l : List (Nat × Nat))
    (heap : List (Option Cluster)) (table : List (Option Nat)) (hne : x.1 ≠ y.1) :
    replace_pairs (y :: x :: l) heap table = replace_pairs (x :: y :: l) heap table := by
  obtain ⟨e1, c1⟩ := x
  obtain ⟨e2, c2⟩ := y
  have hne1 : e1 ≠ e2 := hne
  have hne2 : e2 ≠ e1 := fun h => hne1 h.symm
  simp only [replace_pairs]
  rw [List.getElem?_set_ne hne2, List.getElem?_set_ne hne1, List.set_comm _ _ _ hne2]
  congr 1
  cases h1 : table[e1]? with
  | none => rfl
  | some o1 =>
    cases o1 with
    | none => rfl
    | some old1 =>
      cases h2 : table[e2]? with
      | none => rfl
      | some o2 =>
        cases o2 with
        | none => rfl
        | some old2 =>
          simp only [delete_cluster]
          by_cases hold : old2 = old1
          · rw [hold]
          · rw [List.set_comm _ _ _ hold]

/-- The replacement loop does not depend on the order in which the entries
of the map are visited. -/
theorem replace_pairs_perm (l1 l2 : List (Nat × Nat)) (hp : l1.Perm l2)
    (hnd : (l1.map Prod.fst).Nodup) (heap : List (Option Cluster))
    (table : List (Option Nat)) :
    replace_pairs l1 heap table = replace_pairs l2 heap table := by
  induction hp generalizing heap table with
  | nil => rfl
  | cons x _ ih =>
    obtain ⟨e, c⟩ := x
    rw [List.map_cons, List.nodup_cons] at hnd
    simp only [replace_pairs]
    exact ih hnd.2 _ _
  | swap x y l =>
    apply replace_pairs_swap
    intro heq
    simp only [List.map_cons, List.nodup_cons, List.mem_cons] at hnd
    exact hnd.1 (Or.inl heq.symm)
  | trans hp1 _ ih1 ih2 =>
    rw [ih1 hnd, ih2 (((hp1.map Prod.fst).nodup_iff).1 hnd)]

/-! ## Independence of the merge step from the addresses of the elements -/

theorem insert_pairs_values_perm (addr1 addr2 : Nat → Nat)
    (h1 : Function.Injective addr1) (h2 : Function.Injective addr2)
    (seq : List (Nat × Nat)) (m1 m2 : List (Nat × Nat × Nat))
    (hs1 : m1.Pairwise (fun a b => a.1 < b.1)) (hs2 : m2.Pairwise (fun a b => a.1 < b.1))
    (hk1 : ∀ x ∈ m1, x.1 = addr1 x.2.1) (hk2 : ∀ x ∈ m2, x.1 = addr2 x.2.1)
    (hp : (m1.map Prod.snd).Perm (m2.map Prod.snd)) :
    ((insert_pairs addr1 seq m1).map Prod.snd).Perm
      ((insert_pairs addr2 seq m2).map Prod.snd) := by
  induction seq generalizing m1 m2 with
  | nil => exact hp
  | cons ec rest ih =>
    rw [insert_pairs, insert_pairs]
    by_cases hmem : ∃ x ∈ m1, x.2.1 = ec.1
    · obtain ⟨x, hx, hxe⟩ := hmem
      have hx1 : (addr1 ec.1, x.2) ∈ m1 := by
        have := hk1 x hx
        rw [hxe] at this
        rw [← this]
        exact hx
      have hx2 : x.2 ∈ m2.map Prod.snd := hp.mem_iff.1 (List.mem_map.2 ⟨x, hx, rfl⟩)
      obtain ⟨y, hy, hyx⟩ := List.mem_map.1 hx2
      have hy1 : (addr2 ec.1, y.2) ∈ m2 := by
        have := hk2 y hy
        rw [hyx, hxe] at this
        rw [← this]
        exact hy
      rw [map_insert_of_key_mem _ _ _ _ hs1 hx1, map_insert_of_key_mem _ _ _ _ hs2 hy1]
      exact ih m1 m2 hs1 hs2 hk1 hk2 hp
    · have hno1 : ∀ v, (addr1 ec.1, v) ∉ m1 := by
        intro v hv
        have := hk1 _ hv
        exact hmem ⟨_, hv, (h1 this).symm⟩
      have hno2 : ∀ v, (addr2 ec.1, v) ∉ m2 := by
        intro v hv
        have hv1 : v.1 = ec.1 := (h2 (hk2 _ hv)).symm
        have hv2 : v ∈ m1.map Prod.snd := hp.mem_iff.2 (List.mem_map.2 ⟨_, hv, rfl⟩)
        obtain ⟨x, hx, hxv⟩ := List.mem_map.1 hv2
        exact hmem ⟨x, hx, by rw [hxv]; exact hv1⟩
      have hp1 := (map_insert_perm _ ec m1 hno1).map Prod.snd
      have hp2 := (map_insert_perm _ ec m2 hno2).map Prod.snd
      refine ih _ _ (map_insert_sorted _ _ _ hs1) (map_insert_sorted _ _ _ hs2) ?_ ?_ ?_
      · intro x hx
        rcases mem_map_insert _ _ _ _ hx with h | h
        · exact hk1 x h
        · rw [h]
      · intro x hx
        rcases mem_map_insert _ _ _ _ hx with h | h
        · exact hk2 x h
        · rw [h]
      · exact hp1.trans (((hp.cons ec)).trans hp2.symm)

/-- The merge step gives the same store whatever the (pairwise different)
addresses of the element objects. -/
theorem merge_addr_eq (addr1 addr2 : Nat → Nat)
    (h1 : Function.Injective addr1) (h2 : Function.Injective addr2)
    (p : Partitioner) (mesh : Mesh) (groups : Option (List (List Nat))) :
    p._merge_elem_to_cluster addr1 mesh groups = p._merge_elem_to_cluster addr2 mesh groups := by
  cases groups with
  | none => rfl
  | some gs =>
    rw [merge_eq, merge_eq]
    have hperm := insert_pairs_values_perm addr1 addr2 h1 h2
      (group_pairs p.heap.length gs) [] [] List.Pairwise.nil List.Pairwise.nil
      (by simp) (by simp) (List.Perm.refl _)
    have hspec := insert_pairs_spec addr1 (group_pairs p.heap.length gs)
    have hnd := entries_nodup addr1 _ hspec.1 (fun x hx => (hspec.2 x hx).2)
    rw [replace_pairs_perm _ _ hperm hnd]

theorem active_elements_congr (h : Nat) (es1 es2 : List (Option Elem))
    (hel : es1.map (Option.map Elem.active) = es2.map (Option.map Elem.active)) :
    active_elements h es1 = active_elements h es2 := by
  induction es1 generalizing es2 h with
  | nil =>
    cases es2 with
    | nil => rfl
    | cons o rest => simp at hel
  | cons o1 rest1 ih =>
    cases es2 with
    | nil => simp at hel
    | cons o2 rest2 =>
      simp only [List.map_cons, List.cons.injEq] at hel
      obtain ⟨ho, hrest⟩ := hel
      cases o1 with
      | none =>
        cases o2 with
        | none => exact ih _ _ hrest
        | some e2 => simp at ho
      | some e1 =>
        cases o2 with
        | none => simp at ho
        | some e2 =>
          simp only [Option.map_some', Option.some.injEq] at ho
          rw [active_elements, active_elements, ho, ih _ _ hrest]

theorem flat_store_congr (p : Partitioner) (mesh1 mesh2 : Mesh)
    (hact : active_elements 0 mesh1.elements = active_elements 0 mesh2.elements)
    (hn : mesh1.n_elem = mesh2.n_elem) : flat_store p mesh1 = flat_store p mesh2 := by
  unfold flat_store Partitioner._build_flat_cluster
  rw [hact, hn]

theorem reversed_addr_injective : Function.Injective reversed_addr := by
  intro a b hab
  unfold reversed_addr at hab
  split at hab <;> split at hab <;> omega

/-! ## Elements outside the groups keep their flat cluster -/

theorem flat_store_table_some (p : Partitioner) (mesh : Mesh) (x c : Nat)
    (hx : (flat_store p mesh)._elem_cluster_map[x]? = some (some c)) :
    ∃ j, (active_elements 0 mesh.elements)[j]? = some x ∧
      c = p._clear_cluster.heap.length + j := by
  by_cases hmem : x ∈ active_elements 0 mesh.elements
  · obtain ⟨j, hj⟩ := List.mem_iff_getElem?.1 hmem
    rw [flat_store_table_active p mesh j x hj] at hx
    have : p._clear_cluster.heap.length + j = c := by simpa using hx
    exact ⟨j, hj, this.symm⟩
  · exfalso
    by_cases hlt : x < mesh.n_elem
    · rw [flat_store_table_inactive p mesh x hlt hmem] at hx
      exact absurd hx (by simp)
    · rw [List.getElem?_eq_none (by rw [flat_store_table_length]; omega)] at hx
      exact absurd hx (by simp)

/-- Different elements have different flat clusters. -/
theorem flat_store_table_injective (p : Partitioner) (mesh : Mesh) (x y c : Nat)
    (hx : (flat_store p mesh)._elem_cluster_map[x]? = some (some c))
    (hy : (flat_store p mesh)._elem_cluster_map[y]? = some (some c)) : x = y := by
  obtain ⟨j1, h1, hc1⟩ := flat_store_table_some p mesh x c hx
  obtain ⟨j2, h2, hc2⟩ := flat_store_table_some p mesh y c hy
  have : j1 = j2 := by omega
  subst this
  rw [h1] at h2
  exact Option.some.inj h2

theorem deref_lt (heap : List (Option Cluster)) (c : Nat) (cl : Cluster)
    (hc : deref heap c = some cl) : c < heap.length := by
  unfold deref at hc
  by_contra hge
  rw [List.getElem?_eq_none (by omega)] at hc
  exact absurd hc (by simp)

theorem deref_append_left (heap ext : List (Option Cluster)) (c : Nat)
    (hc : c < heap.length) : deref (heap ++ ext) c = deref heap c := by
  unfold deref
  rw [List.getElem?_append_left hc]

theorem deref_congr (heap1 heap2 : List (Option Cluster)) (c : Nat)
    (h : heap1[c]? = heap2[c]?) : deref heap1 c = deref heap2 c := by
  unfold deref
  rw [h]

/-- The pairs in the pointer-keyed map of the merge step name elements of the
groups and clusters allocated for the groups. -/
theorem merge_pairs_mem (addr : Nat → Nat) (c0 : Nat) (gs : List (List Nat)) (e c : Nat)
    (h : (e, c) ∈ (insert_pairs addr (group_pairs c0 gs) []).map Prod.snd) :
    ∃ (j : Nat) (g : List Nat), gs[j]? = some g ∧ e ∈ g ∧ c = c0 + j := by
  obtain ⟨x, hx, hxe⟩ := List.mem_map.1 h
  have := ((insert_pairs_spec addr (group_pairs c0 gs)).2 x hx).1
  rw [hxe] at this
  exact (mem_group_pairs c0 gs e c).1 this

theorem merge_pairs_nodup (addr : Nat → Nat) (c0 : Nat) (gs : List (List Nat)) :
    (((insert_pairs addr (group_pairs c0 gs) []).map Prod.snd).map Prod.fst).Nodup := by
  have hspec := insert_pairs_spec addr (group_pairs c0 gs)
  exact entries_nodup addr _ hspec.1 (fun x hx => (hspec.2 x hx).2)

/-- The merge step on the flat store, for an active element named in no
group: its table entry is untouched and still points to its flat cluster,
which is live with the element as only member. -/
theorem merge_flat_entry (addr : Nat → Nat) (p : Partitioner) (mesh : Mesh)
    (gs : List (List Nat)) (s : Partitioner) (h : Nat) (e : Elem)
    (hm : (flat_store p mesh)._merge_elem_to_cluster addr mesh (some gs) = some s)
    (he : mesh.elem h = some e) (ha : e.active = true) (hno : ∀ g ∈ gs, h ∉ g) :
    s._elem_cluster_map[h]? = (flat_store p mesh)._elem_cluster_map[h]? ∧
      ∃ c cl, s._elem_cluster_map[h]? = some (some c) ∧
        deref (flat_store p mesh).heap c = some (flat_cluster h) ∧
        deref s.heap c = some cl ∧ cl.elems = [h] := by
  rw [merge_eq] at hm
  by_cases hv : groups_valid mesh gs = true
  · rw [if_pos hv] at hm
    have hs := (Option.some.inj hm).symm
    have hnot : ∀ c, (h, c) ∉
        (insert_pairs addr (group_pairs (flat_store p mesh).heap.length gs) []).map Prod.snd := by
      intro c hc
      obtain ⟨j, g, hj, hg, _⟩ := merge_pairs_mem addr _ gs h c hc
      exact hno g (List.mem_iff_getElem?.2 ⟨j, hj⟩) hg
    have htab : s._elem_cluster_map[h]? = (flat_store p mesh)._elem_cluster_map[h]? := by
      rw [hs]
      exact replace_pairs_table_not_mem _ _ _ h hnot
    obtain ⟨c0, hc0, _, hd0⟩ := flat_store_active_entry p mesh h e he ha
    have hkeep := replace_pairs_heap_keep
      ((insert_pairs addr (group_pairs (flat_store p mesh).heap.length gs) []).map Prod.snd)
      ((flat_store p mesh).heap ++
        (merged_clusters (flat_store p mesh)._clusters.length 0 gs).map some)
      (flat_store p mesh)._elem_cluster_map c0 (merge_pairs_nodup addr _ gs)
      (by
        intro e1 c1 h1 ht
        have := flat_store_table_injective p mesh e1 h c0 ht hc0
        subst this
        exact hnot c1 h1)
    have hd1 : deref (replace_pairs
        ((insert_pairs addr (group_pairs (flat_store p mesh).heap.length gs) []).map Prod.snd)
        ((flat_store p mesh).heap ++
          (merged_clusters (flat_store p mesh)._clusters.length 0 gs).map some)
        (flat_store p mesh)._elem_cluster_map).1 c0 = some (flat_cluster h) := by
      rw [deref_congr _ _ c0 hkeep, deref_append_left _ _ c0 (deref_lt _ _ _ hd0)]
      exact hd0
    have hd2 : (deref s.heap c0).map Cluster.elems = some [h] := by
      rw [hs]
      show (deref (renumber_loop 0 _ _) c0).map Cluster.elems = _
      rw [renumber_loop_elems, hd1]
      rfl
    refine ⟨htab, c0, ?_⟩
    cases hcl : deref s.heap c0 with
    | none =>
      rw [hcl] at hd2
      exact absurd hd2 (by simp)
    | some cl =>
      rw [hcl] at hd2
      exact ⟨cl, by rw [htab]; exact hc0, hd0, rfl, by simpa using hd2⟩
  · rw [if_neg hv] at hm
    exact absurd hm (by simp)

/-- C13: for every active element named in no group, after
`_merge_elem_to_cluster` on the flat store the table entry of the element is
the pointer `_build_flat_cluster` stored there, and the cluster it points to,
built as the flat cluster of the element, is live with the element as its
only member (its id may be another one). -/
theorem merge_keeps_flat_cluster (addr : Nat → Nat) (p : Partitioner) (mesh : Mesh)
    (gs : List (List Nat)) (s : Partitioner) (h : Nat) (e : Elem)
    (hm : (flat_store p mesh)._merge_elem_to_cluster addr mesh (some gs) = some s)
    (he : mesh.elem h = some e) (ha : e.active = true) (hno : ∀ g ∈ gs, h ∉ g) :
    s._elem_cluster_map[h]? = (flat_store p mesh)._elem_cluster_map[h]? ∧
      ∃ c cl, s._elem_cluster_map[h]? = some (some c) ∧
        deref (flat_store p mesh).heap c = some (flat_cluster h) ∧
        deref s.heap c = some cl ∧ cl.elems = [h] :=
  merge_flat_entry addr p mesh gs s h e hm he ha hno

/-- Witness of C13: element 4 of the six-element chain with the groups
`[0, 1]` and `[2, 3]`; its flat cluster (address 4) has been renumbered to
id 0 and still holds the element alone. -/
theorem merge_keeps_flat_cluster_witness :
    chain6_merged_store._elem_cluster_map[4]? =
        (flat_store { } chain6)._elem_cluster_map[4]? ∧
      ∃ c cl, chain6_merged_store._elem_cluster_map[4]? = some (some c) ∧
        deref (flat_store { } chain6).heap c = some (flat_cluster 4) ∧
        deref chain6_merged_store.heap c = some cl ∧ cl.elems = [4] :=
  merge_keeps_flat_cluster id { } chain6 [[0, 1], [2, 3]] chain6_merged_store 4
    { nodes := [4, 5], neighbors := [some 3, some 5], processor_id := 0 }
    chain6_merge rfl rfl (by decide)

/-! ## The table and the heap after the replacement loop on the flat store -/

theorem merge_eq_replaced (addr : Nat → Nat) (p : Partitioner) (mesh : Mesh)
    (gs : List (List Nat)) :
    p._merge_elem_to_cluster addr mesh (some gs) =
      if groups_valid mesh gs then
        some (rebuild (replaced addr p gs).1 (replaced addr p gs).2)
      else none :=
  merge_eq addr p mesh gs

theorem named_iff (gs : List (List Nat)) (h : Nat) :
    named gs h = true ↔ ∃ g ∈ gs, h ∈ g := by
  unfold named
  simp [List.any_eq_true]

theorem merged_clusters_get (size n : Nat) (gs : List (List Nat)) (j : Nat) :
    (merged_clusters size n gs)[j]? =
      (gs[j]?).map (fun g => { id := size + (n + j), elems := g }) := by
  induction gs generalizing n j with
  | nil => simp [merged_clusters]
  | cons g rest ih =>
    cases j with
    | zero => simp [merged_clusters]
    | succ j =>
      simp only [merged_clusters, List.getElem?_cons_succ]
      rw [ih]
      have : n + 1 + j = n + (j + 1) := by omega
      rw [this]

theorem flat_store_heap_length (p : Partitioner) (mesh : Mesh) :
    (flat_store p mesh).heap.length =
      p._clear_cluster.heap.length + (active_elements 0 mesh.elements).length := by
  rw [flat_store_heap]
  simp

/-- Every pointer of the flat table lies below the end of the flat heap. -/
theorem flat_store_table_lt (p : Partitioner) (mesh : Mesh) (x c : Nat)
    (hx : (flat_store p mesh)._elem_cluster_map[x]? = some (some c)) :
    c < (flat_store p mesh).heap.length := by
  obtain ⟨j, hj, hc⟩ := flat_store_table_some p mesh x c hx
  have hjlt : j < (active_elements 0 mesh.elements).length := by
    by_contra hge
    rw [List.getElem?_eq_none (by omega)] at hj
    exact absurd hj (by simp)
  rw [flat_store_heap_length]
  omega

/-- After the replacement loop on the flat store, an active element named in
no group still has its flat cluster. -/
theorem replaced_unnamed (addr : Nat → Nat) (p : Partitioner) (mesh : Mesh)
    (gs : List (List Nat)) (h : Nat) (e : Elem)
    (he : mesh.elem h = some e) (ha : e.active = true) (hno : ∀ g ∈ gs, h ∉ g) :
    ∃ c0, (replaced addr (flat_store p mesh) gs).2[h]? = some (some c0) ∧
      deref (replaced addr (flat_store p mesh) gs).1 c0 = some (flat_cluster h) := by
  have hnot : ∀ c, (h, c) ∉
      (insert_pairs addr (group_pairs (flat_store p mesh).heap.length gs) []).map Prod.snd := by
    intro c hc
    obtain ⟨j, g, hj, hg, _⟩ := merge_pairs_mem addr _ gs h c hc
    exact hno g (List.mem_iff_getElem?.2 ⟨j, hj⟩) hg
  obtain ⟨c0, hc0, _, hd0⟩ := flat_store_active_entry p mesh h e he ha
  refine ⟨c0, ?_, ?_⟩
  · unfold replaced
    rw [replace_pairs_table_not_mem _ _ _ h hnot]
    exact hc0
  · have hkeep := replace_pairs_heap_keep
      ((insert_pairs addr (group_pairs (flat_store p mesh).heap.length gs) []).map Prod.snd)
      ((flat_store p mesh).heap ++
        (merged_clusters (flat_store p mesh)._clusters.length 0 gs).map some)
      (flat_store p mesh)._elem_cluster_map c0 (merge_pairs_nodup addr _ gs)
      (by
        intro e1 c1 h1 ht
        have := flat_store_table_injective p mesh e1 h c0 ht hc0
        subst this
        exact hnot c1 h1)
    unfold replaced
    rw [deref_congr _ _ c0 hkeep, deref_append_left _ _ c0 (deref_lt _ _ _ hd0)]
    exact hd0

/-- After the replacement loop on the flat store, an element named in a group
points to the cluster allocated for a group that names it, and that cluster is
live with the provisional id and the members of the group. -/
theorem replaced_named (addr : Nat → Nat) (hinj : Function.Injective addr)
    (p : Partitioner) (mesh : Mesh) (gs : List (List Nat)) (h : Nat)
    (hlt : h < mesh.n_elem) (g : List Nat) (hg : g ∈ gs) (hh : h ∈ g) :
    ∃ (j : Nat) (g1 : List Nat), gs[j]? = some g1 ∧ h ∈ g1 ∧
      (replaced addr (flat_store p mesh) gs).2[h]? =
        some (some ((flat_store p mesh).heap.length + j)) ∧
      deref (replaced addr (flat_store p mesh) gs).1 ((flat_store p mesh).heap.length + j) =
        some { id := (flat_store p mesh)._clusters.length + j, elems := g1 } := by
  obtain ⟨j0, hj0⟩ := List.mem_iff_getElem?.1 hg
  have hpair : (h, (flat_store p mesh).heap.length + j0) ∈
      group_pairs (flat_store p mesh).heap.length gs :=
    (mem_group_pairs _ gs h _).2 ⟨j0, g, hj0, hh, rfl⟩
  obtain ⟨v, hv⟩ := insert_pairs_key addr _ [] _ hpair
  have hspec := (insert_pairs_spec addr (group_pairs (flat_store p mesh).heap.length gs)).2 _ hv
  have hv1 : v.1 = h := (hinj hspec.2).symm
  obtain ⟨e1, c1⟩ := v
  simp only at hv1
  subst hv1
  have hmem : (e1, c1) ∈
      (insert_pairs addr (group_pairs (flat_store p mesh).heap.length gs) []).map Prod.snd :=
    List.mem_map.2 ⟨_, hv, rfl⟩
  obtain ⟨j, g1, hj, hg1, hc1⟩ := merge_pairs_mem addr _ gs e1 c1 hmem
  subst hc1
  refine ⟨j, g1, hj, hg1, ?_, ?_⟩
  · unfold replaced
    exact replace_pairs_table_mem _ _ _ e1 _ (merge_pairs_nodup addr _ gs) hmem
      (by rw [flat_store_table_length]; exact hlt)
  · have hkeep := replace_pairs_heap_keep
      ((insert_pairs addr (group_pairs (flat_store p mesh).heap.length gs) []).map Prod.snd)
      ((flat_store p mesh).heap ++
        (merged_clusters (flat_store p mesh)._clusters.length 0 gs).map some)
      (flat_store p mesh)._elem_cluster_map ((flat_store p mesh).heap.length + j)
      (merge_pairs_nodup addr _ gs)
      (by
        intro e2 c2 _ ht
        have := flat_store_table_lt p mesh e2 _ ht
        omega)
    unfold replaced
    rw [deref_congr _ _ _ hkeep, deref_append_right, merged_clusters_get, hj]
    simp

/-! ## The number of clusters after the merge step on a mesh of active elements -/

/-- Two groups of a pairwise disjoint list that share an element are the same
group of the list. -/
theorem disjoint_groups_index (gs : List (List Nat))
    (hdisj : gs.Pairwise (fun a b => ∀ x ∈ a, x ∉ b)) (i j : Nat) (gi gj : List Nat)
    (hi : gs[i]? = some gi) (hj : gs[j]? = some gj) (x : Nat) (hxi : x ∈ gi) (hxj : x ∈ gj) :
    i = j := by
  rw [List.pairwise_iff_getElem] at hdisj
  have hilt : i < gs.length := by
    by_contra hge
    rw [List.getElem?_eq_none (by omega)] at hi
    exact absurd hi (by simp)
  have hjlt : j < gs.length := by
    by_contra hge
    rw [List.getElem?_eq_none (by omega)] at hj
    exact absurd hj (by simp)
  rw [List.getElem?_eq_getElem hilt] at hi
  rw [List.getElem?_eq_getElem hjlt] at hj
  have hi1 : gs[i] = gi := Option.some.inj hi
  have hj1 : gs[j] = gj := Option.some.inj hj
  rcases Nat.lt_trichotomy i j with h | h | h
  · exact absurd (by rw [hj1]; exact hxj) (hdisj i j hilt hjlt h x (by rw [hi1]; exact hxi))
  · exact h
  · exact absurd (by rw [hi1]; exact hxi) (hdisj j i hjlt hilt h x (by rw [hj1]; exact hxj))

theorem dense_active_length (mesh : Mesh)
    (hall : ∀ h, h < mesh.n_elem → ∃ e, mesh.elem h = some e ∧ e.active = true) :
    (active_elements 0 mesh.elements).length = mesh.n_elem := by
  have hperm : (active_elements 0 mesh.elements).Perm (List.range mesh.n_elem) := by
    rw [List.perm_ext_iff_of_nodup (active_elements_nodup 0 _) (List.nodup_range _)]
    intro a
    rw [List.mem_range]
    constructor
    · exact active_elements_lt mesh a
    · intro ha
      exact (mem_active_elements_mesh mesh a).2 (hall a ha)
  rw [hperm.length_eq, List.length_range]

theorem dense_groups_valid (mesh : Mesh) (gs : List (List Nat))
    (hall : ∀ h, h < mesh.n_elem → ∃ e, mesh.elem h = some e ∧ e.active = true)
    (hvalid : ∀ g ∈ gs, ∀ x ∈ g, x < mesh.n_elem) : groups_valid mesh gs = true := by
  unfold groups_valid
  rw [List.all_eq_true]
  intro g hg
  rw [List.all_eq_true]
  intro x hx
  obtain ⟨e, he, _⟩ := hall x (hvalid g hg x hx)
  rw [he]
  rfl

/-- The ids under which the clusters are entered into `_cluster_map` on a
mesh of active elements: the ids of the elements named in no group and one
provisional id per group. -/
theorem dense_cluster_map_keys (addr : Nat → Nat) (hinj : Function.Injective addr)
    (p : Partitioner) (mesh : Mesh) (gs : List (List Nat))
    (hall : ∀ h, h < mesh.n_elem → ∃ e, mesh.elem h = some e ∧ e.active = true)
    (hvalid : ∀ g ∈ gs, ∀ x ∈ g, x < mesh.n_elem)
    (hne : ∀ g ∈ gs, g ≠ [])
    (hdisj : gs.Pairwise (fun a b => ∀ x ∈ a, x ∉ b)) (k : Nat) :
    k ∈ (cluster_map_loop (replaced addr (flat_store p mesh) gs).1
          (replaced addr (flat_store p mesh) gs).2 []).map Prod.fst ↔
      k ∈ unnamed_elements mesh gs ++ List.range' mesh.n_elem gs.length := by
  have hsize : (flat_store p mesh)._clusters.length = mesh.n_elem := by
    rw [flat_store_clusters, List.length_range', dense_active_length mesh hall]
  have htlen : (replaced addr (flat_store p mesh) gs).2.length = mesh.n_elem := by
    unfold replaced
    rw [replace_pairs_table_length, flat_store_table_length]
  rw [List.mem_append, List.mem_range'_1]
  unfold unnamed_elements
  rw [List.mem_filter, List.mem_range]
  constructor
  · intro hk
    obtain ⟨x, hx, hxk⟩ := List.mem_map.1 hk
    rcases cluster_map_loop_mem _ _ _ x hx with h | ⟨i, cl, hi, hcl, hid⟩
    · exact absurd h (List.not_mem_nil _)
    · have hilt : i < mesh.n_elem := by
        by_contra hge
        rw [List.getElem?_eq_none (by omega)] at hi
        exact absurd hi (by simp)
      by_cases hnamed : named gs i = true
      · obtain ⟨g, hg, hig⟩ := (named_iff gs i).1 hnamed
        obtain ⟨j, g1, hj, _, htab, hder⟩ := replaced_named addr hinj p mesh gs i hilt g hg hig
        rw [htab] at hi
        have hc : (flat_store p mesh).heap.length + j = x.2 := by simpa using hi
        rw [← hc, hder] at hcl
        have hcl1 := Option.some.inj hcl
        have hjlt : j < gs.length := by
          by_contra hge
          rw [List.getElem?_eq_none (by omega)] at hj
          exact absurd hj (by simp)
        right
        rw [← hxk, ← hid, ← hcl1]
        simp only
        omega
      · obtain ⟨e, he, ha⟩ := hall i hilt
        have hno : ∀ g ∈ gs, i ∉ g := by
          intro g hg hig
          exact hnamed ((named_iff gs i).2 ⟨g, hg, hig⟩)
        obtain ⟨c0, htab, hder⟩ := replaced_unnamed addr p mesh gs i e he ha hno
        rw [htab] at hi
        have hc : c0 = x.2 := by simpa using hi
        rw [← hc, hder] at hcl
        have hcl1 := Option.some.inj hcl
        left
        rw [← hxk, ← hid, ← hcl1]
        exact ⟨hilt, by simpa using hnamed⟩
  · rintro (⟨hklt, hun⟩ | ⟨hge, hlt⟩)
    · obtain ⟨e, he, ha⟩ := hall k hklt
      have hno : ∀ g ∈ gs, k ∉ g := by
        intro g hg hkg
        have := (named_iff gs k).2 ⟨g, hg, hkg⟩
        rw [this] at hun
        exact absurd hun (by simp)
      obtain ⟨c0, htab, hder⟩ := replaced_unnamed addr p mesh gs k e he ha hno
      obtain ⟨c1, hc1⟩ := cluster_map_loop_key _ _ [] k c0 _ htab hder
      exact List.mem_map.2 ⟨_, hc1, rfl⟩
    · have hjlt : k - mesh.n_elem < gs.length := by omega
      have hg : gs[k - mesh.n_elem]? = some gs[k - mesh.n_elem] := List.getElem?_eq_getElem hjlt
      have hgmem : gs[k - mesh.n_elem] ∈ gs := List.getElem_mem _
      obtain ⟨x, hx⟩ := List.exists_mem_of_ne_nil _ (hne _ hgmem)
      obtain ⟨j, g1, hj, hxg1, htab, hder⟩ := replaced_named addr hinj p mesh gs x
        (hvalid _ hgmem x hx) _ hgmem hx
      have hjeq := disjoint_groups_index gs hdisj j (k - mesh.n_elem) g1 _ hj hg x hxg1 hx
      obtain ⟨c1, hc1⟩ := cluster_map_loop_key _ _ [] x _ _ htab hder
      refine List.mem_map.2 ⟨_, hc1, ?_⟩
      simp only
      rw [hsize, hjeq]
      omega

/-- C12: on a mesh whose elements are all active (ids `0..N-1`), with
pairwise disjoint non-empty groups of valid element ids, the merge step on the
flat store returns and the number of clusters of the rebuilt list is the
number of groups plus the number of elements named in no group. -/
theorem merge_cluster_count (addr : Nat → Nat) (hinj : Function.Injective addr)
    (p : Partitioner) (mesh : Mesh) (gs : List (List Nat))
    (hall : ∀ h, h < mesh.n_elem → ∃ e, mesh.elem h = some e ∧ e.active = true)
    (hvalid : ∀ g ∈ gs, ∀ x ∈ g, x < mesh.n_elem)
    (hne : ∀ g ∈ gs, g ≠ [])
    (hdisj : gs.Pairwise (fun a b => ∀ x ∈ a, x ∉ b)) :
    ∃ s, (flat_store p mesh)._merge_elem_to_cluster addr mesh (some gs) = some s ∧
      s._clusters.length = gs.length + (unnamed_elements mesh gs).length := by
  refine ⟨_, by rw [merge_eq_replaced, if_pos (dense_groups_valid mesh gs hall hvalid)], ?_⟩
  show ((cluster_map_loop (replaced addr (flat_store p mesh) gs).1
    (replaced addr (flat_store p mesh) gs).2 []).map Prod.snd).length = _
  have hs := cluster_map_loop_sorted (replaced addr (flat_store p mesh) gs).1
    (replaced addr (flat_store p mesh) gs).2 [] List.Pairwise.nil
  have hnd1 : ((cluster_map_loop (replaced addr (flat_store p mesh) gs).1
      (replaced addr (flat_store p mesh) gs).2 []).map Prod.fst).Nodup := by
    unfold List.Nodup
    rw [List.pairwise_map]
    exact hs.imp (fun hab => Nat.ne_of_lt hab)
  have hnd2 : (unnamed_elements mesh gs ++ List.range' mesh.n_elem gs.length).Nodup := by
    apply List.Nodup.append
    · exact (List.nodup_range _).filter _
    · exact List.nodup_range' _ _
    · intro a ha hb
      unfold unnamed_elements at ha
      rw [List.mem_filter, List.mem_range] at ha
      rw [List.mem_range'_1] at hb
      omega
  have hperm := (List.perm_ext_iff_of_nodup hnd1 hnd2).2
    (dense_cluster_map_keys addr hinj p mesh gs hall hvalid hne hdisj)
  have hlen := hperm.length_eq
  simp only [List.length_map, List.length_append, List.length_range'] at hlen ⊢
  omega

theorem chain6_all_active (h : Nat) (hh : h < chain6.n_elem) :
    ∃ e, chain6.elem h = some e ∧ e.active = true := by
  have hlt : h < 6 := hh
  interval_cases h <;> exact ⟨_, rfl, rfl⟩

/-- Witness of C12: the six-element chain with the groups `[0, 1]` and
`[2, 3]` has four clusters after the merge step. -/
theorem merge_cluster_count_witness :
    (2 + (unnamed_elements chain6 [[0, 1], [2, 3]]).length = 4) ∧
      ∃ s, (flat_store { } chain6)._merge_elem_to_cluster id chain6
          (some [[0, 1], [2, 3]]) = some s ∧
        s._clusters.length = 2 + (unnamed_elements chain6 [[0, 1], [2, 3]]).length :=
  ⟨by decide,
   merge_cluster_count id (fun _ _ h => h) { } chain6 [[0, 1], [2, 3]] chain6_all_active
     (by decide) (by decide) (by decide)⟩

/-! ## The set of neighbour candidates of a cluster -/

theorem set_ok_nil (addr : Nat → Nat) : set_ok addr [] :=
  ⟨List.Pairwise.nil, fun _ h => absurd h (List.not_mem_nil _)⟩

theorem set_insert_ok (addr : Nat → Nat) (h : Nat) (s : List (Nat × Nat))
    (hs : set_ok addr s) : set_ok addr (set_insert addr h s) := by
  refine ⟨map_insert_sorted _ _ _ hs.1, ?_⟩
  intro x hx
  rcases mem_map_insert _ _ _ _ hx with h1 | h1
  · exact hs.2 x h1
  · rw [h1]

theorem set_insert_all_ok (addr : Nat → Nat) (hs : List Nat) (s : List (Nat × Nat))
    (hok : set_ok addr s) : set_ok addr (set_insert_all addr hs s) := by
  induction hs generalizing s with
  | nil => exact hok
  | cons h rest ih => exact ih _ (set_insert_ok addr h s hok)

theorem insert_children_ok (addr : Nat → Nat) (mesh : Mesh) (h ns : Nat)
    (children : List Nat) (acc : List (Nat × Nat)) (hok : set_ok addr acc) :
    set_ok addr (insert_children addr mesh h ns children acc) := by
  induction children generalizing acc with
  | nil => exact hok
  | cons child rest ih =>
    rw [insert_children]
    cases mesh.elem child with
    | none => exact ih _ hok
    | some ce =>
      simp only
      split
      · exact ih _ (set_insert_ok addr child acc hok)
      · exact ih _ hok

theorem neighbor_loop_ok (addr : Nat → Nat) (mesh : Mesh) (cluster_elem : List (Nat × Nat))
    (h : Nat) (nbs : List (Option Nat)) (acc acc1 : List (Nat × Nat))
    (hr : neighbor_loop addr mesh cluster_elem h nbs acc = some acc1)
    (hok : set_ok addr acc) : set_ok addr acc1 := by
  induction nbs generalizing acc with
  | nil =>
    rw [neighbor_loop] at hr
    rw [← Option.some.inj hr]
    exact hok
  | cons o rest ih =>
    cases o with
    | none =>
      rw [neighbor_loop] at hr
      exact ih _ hr hok
    | some nb =>
      rw [neighbor_loop] at hr
      split at hr
      · exact ih _ hr hok
      · cases hne : mesh.elem nb with
        | none =>
          rw [hne] at hr
          exact ih _ hr hok
        | some ne =>
          rw [hne] at hr
          simp only at hr
          split at hr
          · exact ih _ hr (set_insert_ok addr nb acc hok)
          · cases hw : which_neighbor_am_i ne h with
            | none =>
              rw [hw] at hr
              exact absurd hr (by simp)
            | some ns =>
              rw [hw] at hr
              exact ih _ hr (insert_children_ok addr mesh h ns _ acc hok)

theorem member_loop_ok (addr : Nat → Nat) (mesh : Mesh) (cluster_elem : List (Nat × Nat))
    (hs : List Nat) (acc acc1 : List (Nat × Nat))
    (hr : member_loop addr mesh cluster_elem hs acc = some acc1)
    (hok : set_ok addr acc) : set_ok addr acc1 := by
  induction hs generalizing acc with
  | nil =>
    rw [member_loop] at hr
    rw [← Option.some.inj hr]
    exact hok
  | cons h rest ih =>
    rw [member_loop] at hr
    cases he : mesh.elem h with
    | none =>
      rw [he] at hr
      exact ih _ hr hok
    | some e =>
      rw [he] at hr
      simp only at hr
      cases hn : neighbor_loop addr mesh cluster_elem h e.neighbors acc with
      | none =>
        rw [hn] at hr
        exact absurd hr (by simp)
      | some acc2 =>
        rw [hn] at hr
        exact ih _ hr (neighbor_loop_ok addr mesh cluster_elem h _ acc acc2 hn hok)

/-- No element occurs twice in a pointer-ordered set. -/
theorem set_values_nodup (addr : Nat → Nat) (s : List (Nat × Nat)) (hok : set_ok addr s) :
    (s.map Prod.snd).Nodup := by
  unfold List.Nodup
  rw [List.pairwise_map]
  refine List.Pairwise.imp_of_mem ?_ hok.1
  intro a b ha hb hlt heq
  rw [hok.2 a ha, hok.2 b hb, heq] at hlt
  exact Nat.lt_irrefl _ hlt

/-! ## The choice of one neighbour per cluster -/

theorem pick_loop_mem (p : Partitioner) (rest : List Nat) (set : List (Option Nat))
    (elems : List Nat) (y : Nat) (hy : y ∈ pick_loop p rest set elems) :
    y ∈ elems ∨ y ∈ rest := by
  induction rest generalizing set elems with
  | nil => exact Or.inl hy
  | cons nb rest ih =>
    rw [pick_loop] at hy
    split at hy
    · rcases ih _ _ hy with h | h
      · exact Or.inl h
      · exact Or.inr (List.mem_cons_of_mem _ h)
    · rcases ih _ _ hy with h | h
      · rw [List.mem_append, List.mem_singleton] at h
        rcases h with h | h
        · exact Or.inl h
        · exact Or.inr (by rw [h]; exact List.mem_cons_self _ _)
      · exact Or.inr (List.mem_cons_of_mem _ h)

theorem pick_loop_nodup (p : Partitioner) (rest : List Nat) (set : List (Option Nat))
    (elems : List Nat) (hnd : (elems ++ rest).Nodup) : (pick_loop p rest set elems).Nodup := by
  induction rest generalizing set elems with
  | nil => simpa [pick_loop] using hnd
  | cons nb rest ih =>
    rw [pick_loop]
    split
    · apply ih
      refine List.Nodup.sublist ?_ hnd
      exact List.Sublist.append_left (List.sublist_cons_self nb rest) elems
    · apply ih
      simpa using hnd

theorem pick_loop_pairwise (p : Partitioner) (rest : List Nat) (set : List (Option Nat))
    (elems : List Nat)
    (hpw : elems.Pairwise (fun a b => p.cluster_of a ≠ p.cluster_of b))
    (hset : ∀ x ∈ elems, p.cluster_of x ∈ set) :
    (pick_loop p rest set elems).Pairwise (fun a b => p.cluster_of a ≠ p.cluster_of b) := by
  induction rest generalizing set elems with
  | nil => exact hpw
  | cons nb rest ih =>
    rw [pick_loop]
    split
    · exact ih _ _ hpw hset
    · rename_i hnot
      apply ih
      · rw [List.pairwise_append]
        refine ⟨hpw, List.pairwise_singleton _ _, ?_⟩
        intro a ha b hb heq
        rw [List.mem_singleton] at hb
        rw [hb] at heq
        apply hnot
        rw [← heq]
        simpa using hset a ha
      · intro x hx
        rw [List.mem_append, List.mem_singleton] at hx
        rcases hx with hx | hx
        · exact List.mem_cons_of_mem _ (hset x hx)
        · rw [hx]
          exact List.mem_cons_self _ _

/-- Every candidate has a representative of its cluster among the neighbours
kept. -/
theorem pick_loop_rep (p : Partitioner) (rest : List Nat) (set : List (Option Nat))
    (elems : List Nat)
    (hset : ∀ c ∈ set, ∃ y ∈ elems, p.cluster_of y = c) :
    (∀ y ∈ elems, y ∈ pick_loop p rest set elems) ∧
      ∀ x ∈ rest, ∃ y ∈ pick_loop p rest set elems, p.cluster_of y = p.cluster_of x := by
  induction rest generalizing set elems with
  | nil => exact ⟨fun y hy => hy, fun x hx => absurd hx (List.not_mem_nil _)⟩
  | cons nb rest ih =>
    rw [pick_loop]
    split
    · rename_i hin
      obtain ⟨h1, h2⟩ := ih set elems hset
      refine ⟨h1, ?_⟩
      intro x hx
      rw [List.mem_cons] at hx
      rcases hx with hx | hx
      · obtain ⟨y, hy, hyc⟩ := hset (p.cluster_of nb) (by simpa using hin)
        exact ⟨y, h1 y hy, by rw [hx]; exact hyc⟩
      · exact h2 x hx
    · have hset1 : ∀ c ∈ p.cluster_of nb :: set, ∃ y ∈ elems ++ [nb], p.cluster_of y = c := by
        intro c hc
        rw [List.mem_cons] at hc
        rcases hc with hc | hc
        · exact ⟨nb, by simp, hc.symm⟩
        · obtain ⟨y, hy, hyc⟩ := hset c hc
          exact ⟨y, by simp [hy], hyc⟩
      obtain ⟨h1, h2⟩ := ih _ _ hset1
      refine ⟨fun y hy => h1 y (by simp [hy]), ?_⟩
      intro x hx
      rw [List.mem_cons] at hx
      rcases hx with hx | hx
      · exact ⟨nb, h1 nb (by simp), by rw [hx]⟩
      · exact h2 x hx

theorem cluster_neighbor_elem_unfold (addr : Nat → Nat) (p : Partitioner) (mesh : Mesh)
    (cluster : Cluster) (r : List Nat)
    (hr : p.cluster_neighbor_elem addr mesh cluster = some r) :
    ∃ cn, member_loop addr mesh (set_insert_all addr cluster.elems []) cluster.elems [] =
        some cn ∧
      r = sort_by_id (pick_loop p (cn.map Prod.snd) [] []) := by
  unfold Partitioner.cluster_neighbor_elem at hr
  simp only at hr
  cases hm : member_loop addr mesh (set_insert_all addr cluster.elems []) cluster.elems [] with
  | none =>
    rw [hm] at hr
    exact absurd hr (by simp)
  | some cn =>
    rw [hm] at hr
    exact ⟨cn, rfl, (Option.some.inj hr).symm⟩

/-- C16: no two distinct elements returned by `cluster_neighbor_elem` are
mapped by the element-to-cluster table to the same cluster. -/
theorem neighbor_clusters_distinct (addr : Nat → Nat) (p : Partitioner) (mesh : Mesh)
    (cluster : Cluster) (r : List Nat)
    (hr : p.cluster_neighbor_elem addr mesh cluster = some r)
    (a b : Nat) (ha : a ∈ r) (hb : b ∈ r) (hab : a ≠ b) :
    p.cluster_of a ≠ p.cluster_of b := by
  obtain ⟨cn, _, rfl⟩ := cluster_neighbor_elem_unfold addr p mesh cluster r hr
  have hpw := pick_loop_pairwise p (cn.map Prod.snd) [] [] List.Pairwise.nil
    (fun x hx => absurd hx (List.not_mem_nil _))
  have hsorted : (sort_by_id (pick_loop p (cn.map Prod.snd) [] [])).Pairwise
      (fun a b => p.cluster_of a ≠ p.cluster_of b) :=
    (List.Perm.pairwise_iff (fun h => Ne.symm h)
      (List.perm_insertionSort _ _)).2 hpw
  exact hsorted.forall (fun _ _ h => Ne.symm h) ha hb hab

/-- C17: the list returned by `cluster_neighbor_elem` is strictly ascending
by element id. -/
theorem neighbor_list_ascending (addr : Nat → Nat) (p : Partitioner) (mesh : Mesh)
    (cluster : Cluster) (r : List Nat)
    (hr : p.cluster_neighbor_elem addr mesh cluster = some r) :
    r.Pairwise (fun a b => a < b) := by
  obtain ⟨cn, hcn, rfl⟩ := cluster_neighbor_elem_unfold addr p mesh cluster r hr
  have hok := member_loop_ok addr mesh _ _ [] cn hcn (set_ok_nil addr)
  have hnd : (pick_loop p (cn.map Prod.snd) [] []).Nodup :=
    pick_loop_nodup p _ [] [] (by simpa using set_values_nodup addr cn hok)
  have hnd1 : (sort_by_id (pick_loop p (cn.map Prod.snd) [] [])).Nodup :=
    (List.perm_insertionSort _ _).symm.nodup hnd
  exact List.Sorted.lt_of_le (List.sorted_insertionSort _ _) hnd1

theorem chain6_neighbors_of_23 :
    chain6_merged_store.cluster_neighbor_elem id chain6 { id := 3, elems := [2, 3] } =
      some [1, 4] := by
  decide

/-- Witness of C16: the neighbours 1 and 4 returned for the cluster `{2, 3}`
of the merged six-element chain belong to the clusters at addresses 6 and 4. -/
theorem neighbor_clusters_distinct_witness :
    chain6_merged_store.cluster_neighbor_elem id chain6 { id := 3, elems := [2, 3] } =
        some [1, 4] ∧
      chain6_merged_store.cluster_of 1 ≠ chain6_merged_store.cluster_of 4 :=
  ⟨chain6_neighbors_of_23,
   neighbor_clusters_distinct id chain6_merged_store chain6 { id := 3, elems := [2, 3] }
     [1, 4] chain6_neighbors_of_23 1 4 (by decide) (by decide) (by decide)⟩

/-- Witness of C17: the list `[1, 4]` returned for the cluster `{2, 3}` of the
merged six-element chain. -/
theorem neighbor_list_ascending_witness :
    chain6_merged_store.cluster_neighbor_elem id chain6 { id := 3, elems := [2, 3] } =
        some [1, 4] ∧
      ([1, 4] : List Nat).Pairwise (fun a b => a < b) :=
  ⟨chain6_neighbors_of_23,
   neighbor_list_ascending id chain6_merged_store chain6 { id := 3, elems := [2, 3] }
     [1, 4] chain6_neighbors_of_23⟩

/-! ## The neighbours of a cluster on a mesh whose neighbours are all active -/

theorem neighbors_active_spec (mesh : Mesh) (hact : mesh.neighbors_active = true)
    (h : Nat) (e : Elem) (nb : Nat) (he : mesh.elem h = some e) (hnb : some nb ∈ e.neighbors) :
    ∃ e1, mesh.elem nb = some e1 ∧ e1.active = true := by
  unfold Mesh.neighbors_active at hact
  rw [List.all_eq_true] at hact
  have h1 := hact (some e) ((mem_elements_iff mesh e).2 ⟨h, he⟩)
  simp only at h1
  rw [List.all_eq_true] at h1
  have h2 := h1 (some nb) hnb
  simp only at h2
  cases hm : mesh.elem nb with
  | none =>
    rw [hm] at h2
    exact absurd h2 (by simp)
  | some e1 =>
    rw [hm] at h2
    exact ⟨e1, rfl, h2⟩

theorem cluster_of_lt (p : Partitioner) (x d : Nat) (hx : p.cluster_of x = some d) :
    x < p._elem_cluster_map.length := by
  unfold Partitioner.cluster_of at hx
  by_contra hge
  rw [List.getElem?_eq_none (by omega)] at hx
  exact absurd hx (by simp)

theorem consistent_members (p : Partitioner) (hcons : p.consistent = true)
    (d : Nat) (hd : d ∈ p._clusters) (cld : Cluster) (hcl : deref p.heap d = some cld)
    (x : Nat) (hx : x ∈ cld.elems) : p.cluster_of x = some d := by
  unfold Partitioner.consistent at hcons
  rw [Bool.and_eq_true, List.all_eq_true] at hcons
  have h1 := hcons.1 d hd
  rw [hcl] at h1
  simp only at h1
  rw [List.all_eq_true] at h1
  simpa using h1 x hx

theorem consistent_table (p : Partitioner) (hcons : p.consistent = true)
    (x d : Nat) (hx : p.cluster_of x = some d) :
    d ∈ p._clusters ∧ ∃ cld, deref p.heap d = some cld ∧ x ∈ cld.elems := by
  unfold Partitioner.consistent at hcons
  rw [Bool.and_eq_true, List.all_eq_true, List.all_eq_true] at hcons
  have h1 := hcons.2 x (List.mem_range.2 (cluster_of_lt p x d hx))
  rw [hx] at h1
  simp only [Bool.and_eq_true] at h1
  refine ⟨by simpa using h1.1, ?_⟩
  cases hcl : deref p.heap d with
  | none =>
    rw [hcl] at h1
    exact absurd h1.2 (by simp)
  | some cld =>
    rw [hcl] at h1
    exact ⟨cld, rfl, by simpa using h1.2⟩

theorem set_contains_iff (addr : Nat → Nat) (hinj : Function.Injective addr)
    (s : List (Nat × Nat)) (hok : set_ok addr s) (h : Nat) :
    set_contains addr h s = true ↔ h ∈ s.map Prod.snd := by
  unfold set_contains
  rw [List.any_eq_true, List.mem_map]
  constructor
  · rintro ⟨x, hx, hk⟩
    have hk1 : x.1 = addr h := by simpa using hk
    rw [hok.2 x hx] at hk1
    exact ⟨x, hx, hinj hk1⟩
  · rintro ⟨x, hx, hk⟩
    refine ⟨x, hx, ?_⟩
    rw [hok.2 x hx, hk]
    simp

theorem mem_set_insert (addr : Nat → Nat) (hinj : Function.Injective addr)
    (s : List (Nat × Nat)) (hok : set_ok addr s) (h y : Nat) :
    y ∈ (set_insert addr h s).map Prod.snd ↔ y ∈ s.map Prod.snd ∨ y = h := by
  constructor
  · intro hy
    obtain ⟨x, hx, hxy⟩ := List.mem_map.1 hy
    rcases mem_map_insert _ _ _ _ hx with h1 | h1
    · exact Or.inl (List.mem_map.2 ⟨x, h1, hxy⟩)
    · right
      rw [← hxy, h1]
  · rintro (hy | hy)
    · obtain ⟨x, hx, hxy⟩ := List.mem_map.1 hy
      exact List.mem_map.2 ⟨x, mem_map_insert_of_mem _ _ _ _ hx, hxy⟩
    · obtain ⟨v, hv⟩ := map_insert_key_mem (addr h) h s
      have hok1 := set_insert_ok addr h s hok
      have hv1 : addr h = addr v := hok1.2 _ hv
      refine List.mem_map.2 ⟨_, hv, ?_⟩
      simp only
      rw [hy]
      exact (hinj hv1).symm

theorem mem_set_insert_all (addr : Nat → Nat) (hinj : Function.Injective addr)
    (hs : List Nat) (s : List (Nat × Nat)) (hok : set_ok addr s) (y : Nat) :
    y ∈ (set_insert_all addr hs s).map Prod.snd ↔ y ∈ s.map Prod.snd ∨ y ∈ hs := by
  induction hs generalizing s with
  | nil => simp [set_insert_all]
  | cons h rest ih =>
    rw [set_insert_all, ih _ (set_insert_ok addr h s hok), mem_set_insert addr hinj s hok,
      List.mem_cons]
    constructor
    · rintro ((h1 | h1) | h1)
      · exact Or.inl h1
      · exact Or.inr (Or.inl h1)
      · exact Or.inr (Or.inr h1)
    · rintro (h1 | h1 | h1)
      · exact Or.inl (Or.inl h1)
      · exact Or.inl (Or.inr h1)
      · exact Or.inr h1

/-- The loop over the sides of a member when all its neighbours are active:
it does not fail and adds the neighbours that are not members. -/
theorem neighbor_loop_active (addr : Nat → Nat) (hinj : Function.Injective addr)
    (mesh : Mesh) (cluster_elem : List (Nat × Nat)) (elems : List Nat)
    (hce : ∀ nb, set_contains addr nb cluster_elem = true ↔ nb ∈ elems)
    (h : Nat) (nbs : List (Option Nat)) (acc : List (Nat × Nat)) (hok : set_ok addr acc)
    (hnbs : ∀ nb, some nb ∈ nbs → ∃ e1, mesh.elem nb = some e1 ∧ e1.active = true) :
    ∃ acc1, neighbor_loop addr mesh cluster_elem h nbs acc = some acc1 ∧
      set_ok addr acc1 ∧
      ∀ y, y ∈ acc1.map Prod.snd ↔ y ∈ acc.map Prod.snd ∨ (some y ∈ nbs ∧ y ∉ elems) := by
  induction nbs generalizing acc with
  | nil => exact ⟨acc, rfl, hok, by simp⟩
  | cons o rest ih =>
    have hrest : ∀ nb, some nb ∈ rest → ∃ e1, mesh.elem nb = some e1 ∧ e1.active = true :=
      fun nb hnb => hnbs nb (List.mem_cons_of_mem _ hnb)
    cases o with
    | none =>
      obtain ⟨acc1, h1, h2, h3⟩ := ih acc hok hrest
      refine ⟨acc1, by rw [neighbor_loop]; exact h1, h2, ?_⟩
      intro y
      rw [h3 y]
      simp
    | some nb =>
      rw [neighbor_loop]
      by_cases hin : set_contains addr nb cluster_elem = true
      · rw [if_pos hin]
        obtain ⟨acc1, h1, h2, h3⟩ := ih acc hok hrest
        refine ⟨acc1, h1, h2, ?_⟩
        intro y
        rw [h3 y]
        constructor
        · rintro (hy | ⟨hy1, hy2⟩)
          · exact Or.inl hy
          · exact Or.inr ⟨List.mem_cons_of_mem _ hy1, hy2⟩
        · rintro (hy | ⟨hy1, hy2⟩)
          · exact Or.inl hy
          · rw [List.mem_cons] at hy1
            rcases hy1 with hy1 | hy1
            · have : y = nb := by simpa using hy1
              rw [this] at hy2
              exact absurd ((hce nb).1 hin) hy2
            · exact Or.inr ⟨hy1, hy2⟩
      · rw [if_neg hin]
        obtain ⟨e1, he1, ha1⟩ := hnbs nb (List.mem_cons_self _ _)
        rw [he1]
        simp only
        rw [if_pos ha1]
        obtain ⟨acc1, h1, h2, h3⟩ := ih _ (set_insert_ok addr nb acc hok) hrest
        refine ⟨acc1, h1, h2, ?_⟩
        intro y
        rw [h3 y, mem_set_insert addr hinj acc hok]
        have hnbnot : nb ∉ elems := fun hc => hin ((hce nb).2 hc)
        constructor
        · rintro ((hy | hy) | ⟨hy1, hy2⟩)
          · exact Or.inl hy
          · exact Or.inr ⟨by rw [hy]; exact List.mem_cons_self _ _, by rw [hy]; exact hnbnot⟩
          · exact Or.inr ⟨List.mem_cons_of_mem _ hy1, hy2⟩
        · rintro (hy | ⟨hy1, hy2⟩)
          · exact Or.inl (Or.inl hy)
          · rw [List.mem_cons] at hy1
            rcases hy1 with hy1 | hy1
            · have : y = nb := by simpa using hy1
              exact Or.inl (Or.inr this)
            · exact Or.inr ⟨hy1, hy2⟩

/-- The loop over the members of the cluster on a mesh whose neighbours are
all active: it does not fail and collects the neighbours of the members
handed to it that are not in `elems`. -/
theorem member_loop_active (addr : Nat → Nat) (hinj : Function.Injective addr)
    (mesh : Mesh) (hact : mesh.neighbors_active = true)
    (cluster_elem : List (Nat × Nat)) (elems : List Nat)
    (hce : ∀ nb, set_contains addr nb cluster_elem = true ↔ nb ∈ elems)
    (hs : List Nat) (acc : List (Nat × Nat)) (hok : set_ok addr acc) :
    ∃ acc1, member_loop addr mesh cluster_elem hs acc = some acc1 ∧
      set_ok addr acc1 ∧
      ∀ y, y ∈ acc1.map Prod.snd ↔
        y ∈ acc.map Prod.snd ∨
          ((∃ h ∈ hs, ∃ e, mesh.elem h = some e ∧ some y ∈ e.neighbors) ∧ y ∉ elems) := by
  induction hs generalizing acc with
  | nil => exact ⟨acc, rfl, hok, by simp⟩
  | cons h rest ih =>
    rw [member_loop]
    cases he : mesh.elem h with
    | none =>
      simp only
      obtain ⟨acc1, h1, h2, h3⟩ := ih acc hok
      refine ⟨acc1, h1, h2, ?_⟩
      intro y
      rw [h3 y]
      constructor
      · rintro (hy | ⟨⟨h0, hh0, e, hee, hye⟩, hy2⟩)
        · exact Or.inl hy
        · exact Or.inr ⟨⟨h0, List.mem_cons_of_mem _ hh0, e, hee, hye⟩, hy2⟩
      · rintro (hy | ⟨⟨h0, hh0, e, hee, hye⟩, hy2⟩)
        · exact Or.inl hy
        · rw [List.mem_cons] at hh0
          rcases hh0 with hh0 | hh0
          · rw [hh0, he] at hee
            exact absurd hee (by simp)
          · exact Or.inr ⟨⟨h0, hh0, e, hee, hye⟩, hy2⟩
    | some e0 =>
      simp only
      obtain ⟨acc2, g1, g2, g3⟩ := neighbor_loop_active addr hinj mesh cluster_elem elems hce h
        e0.neighbors acc hok (fun nb hnb => neighbors_active_spec mesh hact h e0 nb he hnb)
      rw [g1]
      simp only
      obtain ⟨acc1, h1, h2, h3⟩ := ih acc2 g2
      refine ⟨acc1, h1, h2, ?_⟩
      intro y
      rw [h3 y, g3 y]
      constructor
      · rintro ((hy | ⟨hy1, hy2⟩) | ⟨⟨h0, hh0, e, hee, hye⟩, hy2⟩)
        · exact Or.inl hy
        · exact Or.inr ⟨⟨h, List.mem_cons_self _ _, e0, he, hy1⟩, hy2⟩
        · exact Or.inr ⟨⟨h0, List.mem_cons_of_mem _ hh0, e, hee, hye⟩, hy2⟩
      · rintro (hy | ⟨⟨h0, hh0, e, hee, hye⟩, hy2⟩)
        · exact Or.inl (Or.inl hy)
        · rw [List.mem_cons] at hh0
          rcases hh0 with hh0 | hh0
          · rw [hh0, he] at hee
            have : e0 = e := Option.some.inj hee
            rw [← this] at hye
            exact Or.inl (Or.inr ⟨hye, hy2⟩)
          · exact Or.inr ⟨⟨h0, hh0, e, hee, hye⟩, hy2⟩

/-- The list returned on a mesh whose neighbours are all active: the call
does not fail, every element returned is a face neighbour of a member and no
member, and every face neighbour that is no member has the cluster of some
element returned. -/
theorem cluster_neighbor_elem_active (addr : Nat → Nat) (hinj : Function.Injective addr)
    (p : Partitioner) (mesh : Mesh) (hact : mesh.neighbors_active = true) (cl : Cluster) :
    ∃ r, p.cluster_neighbor_elem addr mesh cl = some r ∧
      (∀ x ∈ r, is_face_neighbor mesh cl x ∧ x ∉ cl.elems) ∧
      ∀ x, is_face_neighbor mesh cl x → x ∉ cl.elems →
        ∃ y ∈ r, p.cluster_of y = p.cluster_of x := by
  have hok0 := set_insert_all_ok addr cl.elems [] (set_ok_nil addr)
  have hce : ∀ nb, set_contains addr nb (set_insert_all addr cl.elems []) = true ↔
      nb ∈ cl.elems := by
    intro nb
    rw [set_contains_iff addr hinj _ hok0, mem_set_insert_all addr hinj _ _ (set_ok_nil addr)]
    simp
  obtain ⟨cn, h1, _, h3⟩ := member_loop_active addr hinj mesh hact _ cl.elems hce cl.elems []
    (set_ok_nil addr)
  have hcand : ∀ y, y ∈ cn.map Prod.snd ↔ (is_face_neighbor mesh cl y ∧ y ∉ cl.elems) := by
    intro y
    rw [h3 y]
    unfold is_face_neighbor
    simp
  refine ⟨sort_by_id (pick_loop p (cn.map Prod.snd) [] []), ?_, ?_, ?_⟩
  · unfold Partitioner.cluster_neighbor_elem
    simp only [h1]
  · intro x hx
    have hx1 : x ∈ pick_loop p (cn.map Prod.snd) [] [] :=
      (List.perm_insertionSort _ _).mem_iff.1 hx
    rcases pick_loop_mem p _ _ _ x hx1 with h | h
    · exact absurd h (List.not_mem_nil _)
    · exact (hcand x).1 h
  · intro x hx1 hx2
    obtain ⟨y, hy, hyc⟩ := (pick_loop_rep p (cn.map Prod.snd) [] []
      (fun c hc => absurd hc (List.not_mem_nil _))).2 x ((hcand x).2 ⟨hx1, hx2⟩)
    exact ⟨y, (List.perm_insertionSort _ _).mem_iff.2 hy, hyc⟩

/-- C18, counterexample: the six-element chain, all of whose elements are
active, with the groups `[1]` and `[1, 5]`.  The merge step maps element 1 to
the cluster of the first group (address 6) and leaves it a member of the
cluster of the second group (address 7) as well; both are in the list.  For
the flat cluster of element 0 (address 0) the call returns `[1]`, owned by the
cluster at address 6; the cluster at address 7 is another cluster of the list
with the member 1, a face neighbour of element 0, and owns no returned
element. -/
theorem neighbor_clusters_counterexample :
    chain6.neighbors_active = true ∧
      (flat_store { } chain6)._merge_elem_to_cluster id chain6 (some [[1], [1, 5]]) =
        some chain6_overlap_store ∧
      (0 ∈ chain6_overlap_store._clusters ∧
        deref chain6_overlap_store.heap 0 = some { id := 0, elems := [0] }) ∧
      chain6_overlap_store.cluster_neighbor_elem id chain6 { id := 0, elems := [0] } =
        some [1] ∧
      chain6_overlap_store.cluster_of 1 = some 6 ∧
      (7 ∈ chain6_overlap_store._clusters ∧ 7 ≠ 0 ∧
        deref chain6_overlap_store.heap 7 = some { id := 5, elems := [1, 5] } ∧
        1 ∈ [1, 5] ∧ is_face_neighbor chain6 { id := 0, elems := [0] } 1) ∧
      ¬ ∃ x ∈ [1], chain6_overlap_store.cluster_of x = some 7 := by
  refine ⟨by decide, by decide, by decide, by decide, by decide,
    ⟨by decide, by decide, by decide, by decide, ?_⟩, by decide⟩
  exact ⟨0, List.mem_singleton.2 rfl, _, rfl, by decide⟩

/-- C18, amended: on a mesh whose face neighbours are all active, for a store whose
table and member lists agree and a cluster `c` of its list,
`cluster_neighbor_elem` returns a list; every element of it is a face
neighbour of some member of `c`; and the clusters owning its elements are
exactly the clusters `d ≠ c` of the list with a member that is a face
neighbour of some member of `c`. -/
theorem neighbor_clusters_spec (addr : Nat → Nat) (hinj : Function.Injective addr)
    (p : Partitioner) (mesh : Mesh) (c : Nat) (cl : Cluster)
    (hact : mesh.neighbors_active = true) (hcons : p.consistent = true)
    (hc : c ∈ p._clusters) (hcl : deref p.heap c = some cl) :
    ∃ r, p.cluster_neighbor_elem addr mesh cl = some r ∧
      (∀ x ∈ r, is_face_neighbor mesh cl x) ∧
      ∀ d, (∃ x ∈ r, p.cluster_of x = some d) ↔
        (d ∈ p._clusters ∧ d ≠ c ∧
          ∃ cld, deref p.heap d = some cld ∧ ∃ x ∈ cld.elems, is_face_neighbor mesh cl x) := by
  obtain ⟨r, hr, h1, h2⟩ := cluster_neighbor_elem_active addr hinj p mesh hact cl
  refine ⟨r, hr, fun x hx => (h1 x hx).1, ?_⟩
  intro d
  constructor
  · rintro ⟨x, hx, hxd⟩
    obtain ⟨hd, cld, hcld, hxm⟩ := consistent_table p hcons x d hxd
    refine ⟨hd, ?_, cld, hcld, x, hxm, (h1 x hx).1⟩
    intro hdc
    rw [hdc, hcl] at hcld
    have : cl = cld := Option.some.inj hcld
    rw [← this] at hxm
    exact (h1 x hx).2 hxm
  · rintro ⟨hd, hdc, cld, hcld, x, hxm, hxn⟩
    have hxd := consistent_members p hcons d hd cld hcld x hxm
    have hxnot : x ∉ cl.elems := by
      intro hxc
      have := consistent_members p hcons c hc cl hcl x hxc
      rw [hxd] at this
      exact hdc (Option.some.inj this)
    obtain ⟨y, hy, hyc⟩ := h2 x hxn hxnot
    exact ⟨y, hy, by rw [hyc]; exact hxd⟩

/-- Witness of C18: the cluster `{2, 3}` (address 7) of the merged
six-element chain. -/
theorem neighbor_clusters_spec_witness :
    chain6.neighbors_active = true ∧ chain6_merged_store.consistent = true ∧
      ∃ r, chain6_merged_store.cluster_neighbor_elem id chain6 { id := 3, elems := [2, 3] } =
          some r ∧
        (∀ x ∈ r, is_face_neighbor chain6 { id := 3, elems := [2, 3] } x) ∧
        ∀ d, (∃ x ∈ r, chain6_merged_store.cluster_of x = some d) ↔
          (d ∈ chain6_merged_store._clusters ∧ d ≠ 7 ∧
            ∃ cld, deref chain6_merged_store.heap d = some cld ∧
              ∃ x ∈ cld.elems, is_face_neighbor chain6 { id := 3, elems := [2, 3] } x) :=
  ⟨by decide, by decide,
   neighbor_clusters_spec id (fun _ _ h => h) chain6_merged_store chain6 7
     { id := 3, elems := [2, 3] } (by decide) (by decide) (by decide) (by decide)⟩

/-! ## `cluster_neighbor_elem` on a refined mesh and under a change of addresses -/

/-- C15, evaluation at the failing input.  On the refined chain the groups
`[0, 2]` and `[3]` put the coarse element 0 and the child 2 of its refined
neighbour into one cluster.  The neighbour of element 0 on side 1 is the
inactive parent (slot 1); of its active descendants the child 2 has element 0
as neighbour on the matching side and is inserted without a look into
`cluster_elem`.  The list returned for the cluster `{0, 2}` is `[2, 3]`: it
holds the member 2. -/
theorem neighbor_list_holds_member :
    (flat_store { } refined_chain)._merge_elem_to_cluster id refined_chain
        (some [[0, 2], [3]]) = some refined_chain_store ∧
      refined_chain_store.cluster_list =
        [some { id := 0, elems := [0, 2] }, some { id := 1, elems := [3] }] ∧
      refined_chain_store.cluster_neighbor_elem id refined_chain { id := 0, elems := [0, 2] } =
        some [2, 3] := by
  refine ⟨by decide, by decide, by decide⟩

/-- C19, evaluation at the failing input.  On the six-element chain with the
single group `[0, 2]` the store after the merge step is the same for both
layouts of the elements in memory.  The flat cluster of element 1 has the
neighbours 0 and 2, both members of the merged cluster; the one kept is the
one with the lower address: element 0 when the addresses ascend with the ids,
element 2 when they descend. -/
theorem neighbor_list_depends_on_addresses :
    (flat_store { } chain6)._merge_elem_to_cluster id chain6 (some [[0, 2]]) =
        some chain6_store_02 ∧
      (flat_store { } chain6)._merge_elem_to_cluster reversed_addr chain6 (some [[0, 2]]) =
        some chain6_store_02 ∧
      deref chain6_store_02.heap 1 = some { id := 0, elems := [1] } ∧
      chain6_store_02.cluster_neighbor_elem id chain6 { id := 0, elems := [1] } = some [0] ∧
      chain6_store_02.cluster_neighbor_elem reversed_addr chain6 { id := 0, elems := [1] } =
        some [2] := by
  refine ⟨by decide, by decide, by decide, by decide, by decide⟩

/-! ## The rebuilt cluster list in terms of cluster values -/

theorem map_insert_map {α β : Type} (f : α → β) (k : Nat) (v : α) (m : List (Nat × α)) :
    (map_insert k v m).map (fun kv => (kv.1, f kv.2)) =
      map_insert k (f v) (m.map (fun kv => (kv.1, f kv.2))) := by
  induction m with
  | nil => rfl
  | cons kv rest ih =>
    obtain ⟨k1, v1⟩ := kv
    simp only [map_insert, List.map_cons]
    split
    · rfl
    · split
      · rfl
      · simp only [List.map_cons, ih]

theorem value_loop_rel (heap : List (Option Cluster)) (table : List (Option Nat))
    (m : List (Nat × Nat)) (m1 : List (Nat × Cluster))
    (hrel : m.map (fun kc => (kc.1, deref heap kc.2)) = m1.map (fun kv => (kv.1, some kv.2))) :
    (cluster_map_loop heap table m).map (fun kc => (kc.1, deref heap kc.2)) =
      (value_loop (table_values heap table) m1).map (fun kv => (kv.1, some kv.2)) := by
  induction table generalizing m m1 with
  | nil => exact hrel
  | cons o rest ih =>
    cases o with
    | none => exact ih m m1 hrel
    | some c =>
      rw [cluster_map_loop]
      cases hc : deref heap c with
      | none =>
        have hv : table_values heap (some c :: rest) = none :: table_values heap rest := by
          simp [table_values, hc]
        rw [hv, value_loop]
        exact ih m m1 hrel
      | some cl =>
        have hv : table_values heap (some c :: rest) = some cl :: table_values heap rest := by
          simp [table_values, hc]
        rw [hv, value_loop]
        apply ih
        rw [map_insert_map (deref heap), map_insert_map some, hrel, hc]

theorem renumber_values_get (n : Nat) (l : List Cluster) (k : Nat) :
    (renumber_values n l)[k]? = (l[k]?).map (fun cl => { cl with id := n + k }) := by
  induction l generalizing n k with
  | nil => simp [renumber_values]
  | cons cl rest ih =>
    cases k with
    | zero => simp [renumber_values]
    | succ k =>
      simp only [renumber_values, List.getElem?_cons_succ]
      rw [ih]
      have : n + 1 + k = n + (k + 1) := by omega
      rw [this]

/-- The cluster list after the rebuild depends on the heap and the table only
through the cluster values the slots of the table refer to. -/
theorem rebuild_cluster_list (heap : List (Option Cluster)) (table : List (Option Nat)) :
    (rebuild heap table).cluster_list =
      (renumber_values 0 ((value_loop (table_values heap table) []).map Prod.snd)).map some := by
  have hrel := value_loop_rel heap table [] [] rfl
  have hs := cluster_map_loop_sorted heap table [] List.Pairwise.nil
  have hid : ∀ x ∈ cluster_map_loop heap table [],
      ∃ cl, deref heap x.2 = some cl ∧ cl.id = x.1 := by
    intro x hx
    rcases cluster_map_loop_mem heap table [] x hx with h | ⟨_, cl, _, b, c⟩
    · exact absurd h (List.not_mem_nil _)
    · exact ⟨cl, b, c⟩
  have hnd := cluster_map_values_nodup heap _ hs hid
  have hsnd : ((cluster_map_loop heap table []).map Prod.snd).map (deref heap) =
      ((value_loop (table_values heap table) []).map Prod.snd).map some := by
    have := congrArg (List.map Prod.snd) hrel
    simpa [List.map_map, Function.comp] using this
  apply List.ext_getElem?
  intro k
  have hlhs : (rebuild heap table).cluster_list[k]? =
      (((cluster_map_loop heap table []).map Prod.snd)[k]?).map
        (deref (renumber_loop 0 ((cluster_map_loop heap table []).map Prod.snd) heap)) :=
    List.getElem?_map _ _ _
  have hrhs : ((renumber_values 0
        ((value_loop (table_values heap table) []).map Prod.snd)).map some)[k]? =
      ((((value_loop (table_values heap table) []).map Prod.snd)[k]?).map
        (fun cl => { cl with id := 0 + k })).map some := by
    rw [List.getElem?_map, renumber_values_get]
  rw [hlhs, hrhs]
  have hk : (((cluster_map_loop heap table []).map Prod.snd)[k]?).map (deref heap) =
      (((value_loop (table_values heap table) []).map Prod.snd)[k]?).map some := by
    have h1 : (((cluster_map_loop heap table []).map Prod.snd).map (deref heap))[k]? =
        (((cluster_map_loop heap table []).map Prod.snd)[k]?).map (deref heap) :=
      List.getElem?_map _ _ _
    have h2 : (((value_loop (table_values heap table) []).map Prod.snd).map some)[k]? =
        (((value_loop (table_values heap table) []).map Prod.snd)[k]?).map some :=
      List.getElem?_map _ _ _
    rw [← h1, ← h2, hsnd]
  cases hc : ((cluster_map_loop heap table []).map Prod.snd)[k]? with
  | none =>
    rw [hc] at hk
    cases hv : ((value_loop (table_values heap table) []).map Prod.snd)[k]? with
    | none => rfl
    | some v =>
      rw [hv] at hk
      exact absurd hk (by simp)
  | some c =>
    rw [hc] at hk
    cases hv : ((value_loop (table_values heap table) []).map Prod.snd)[k]? with
    | none =>
      rw [hv] at hk
      exact absurd hk (by simp)
    | some v =>
      rw [hv] at hk
      have hdc : deref heap c = some v := by simpa using hk
      simp only [Option.map_some']
      rw [renumber_loop_deref 0 _ heap hnd k c hc, hdc]
      rfl

/-! ## The first group that names an element -/

theorem first_group_none (gs : List (List Nat)) (x : Nat) :
    first_group gs x = none ↔ ∀ g ∈ gs, x ∉ g := by
  induction gs with
  | nil => simp [first_group]
  | cons g rest ih =>
    rw [first_group]
    by_cases hx : x ∈ g
    · have hc : g.contains x = true := by simpa using hx
      rw [if_pos hc]
      constructor
      · intro h
        exact absurd h (by simp)
      · intro h
        exact absurd hx (h g (List.mem_cons_self _ _))
    · have hc : ¬ g.contains x = true := by simpa using hx
      rw [if_neg hc, Option.map_eq_none', ih]
      constructor
      · intro h g1 hg1
        rw [List.mem_cons] at hg1
        rcases hg1 with hg1 | hg1
        · rw [hg1]; exact hx
        · exact h g1 hg1
      · intro h g1 hg1
        exact h g1 (List.mem_cons_of_mem _ hg1)

theorem first_group_some (gs : List (List Nat)) (x j : Nat) (hj : first_group gs x = some j) :
    ∃ g, gs[j]? = some g ∧ x ∈ g := by
  induction gs generalizing j with
  | nil => simp [first_group] at hj
  | cons g rest ih =>
    rw [first_group] at hj
    by_cases hc : g.contains x = true
    · rw [if_pos hc] at hj
      have : j = 0 := (Option.some.inj hj).symm
      subst this
      exact ⟨g, by simp, by simpa using hc⟩
    · rw [if_neg hc] at hj
      cases hr : first_group rest x with
      | none =>
        rw [hr] at hj
        exact absurd hj (by simp)
      | some j1 =>
        rw [hr] at hj
        have : j = j1 + 1 := (Option.some.inj hj).symm
        subst this
        obtain ⟨g1, h1, h2⟩ := ih j1 hr
        exact ⟨g1, by simpa using h1, h2⟩

/-- The first pair handed to `insert` for the element `x` names the cluster of
the first group that names `x`. -/
theorem group_pairs_find (c : Nat) (gs : List (List Nat)) (x : Nat) :
    (group_pairs c gs).find? (fun ec => ec.1 == x) =
      (first_group gs x).map (fun j => (x, c + j)) := by
  induction gs generalizing c with
  | nil => rfl
  | cons g rest ih =>
    rw [group_pairs, List.find?_append, first_group, ih]
    by_cases hx : x ∈ g
    · have hc : g.contains x = true := by simpa using hx
      rw [if_pos hc]
      have hfind : (g.map (fun e => (e, c))).find? (fun ec => ec.1 == x) = some (x, c) := by
        rw [List.find?_map]
        have : g.find? ((fun ec : Nat × Nat => ec.1 == x) ∘ fun e => (e, c)) = some x := by
          clear hc ih
          induction g with
          | nil => exact absurd hx (List.not_mem_nil _)
          | cons a t iht =>
            by_cases ha : a = x
            · subst ha
              simp
            · rw [List.mem_cons] at hx
              rcases hx with hx | hx
              · exact absurd hx.symm ha
              · rw [List.find?_cons_of_neg _ (by simpa using ha)]
                exact iht hx
        rw [this]
        rfl
      rw [hfind]
      rfl
    · have hc : ¬ g.contains x = true := by simpa using hx
      rw [if_neg hc]
      have hfind : (g.map (fun e => (e, c))).find? (fun ec => ec.1 == x) = none := by
        rw [List.find?_eq_none]
        intro y hy
        obtain ⟨e, he, hey⟩ := List.mem_map.1 hy
        rw [← hey]
        simp only [beq_iff_eq]
        intro hex
        exact hx (by rw [← hex]; exact he)
      rw [hfind]
      cases first_group rest x with
      | none => rfl
      | some j =>
        simp only [Option.map_some', Option.or]
        congr 2
        omega

theorem sorted_key_unique {α : Type} (m : List (Nat × α))
    (hs : m.Pairwise (fun a b => a.1 < b.1)) (x y : Nat × α) (hx : x ∈ m) (hy : y ∈ m)
    (hk : x.1 = y.1) : x = y := by
  induction m with
  | nil => exact absurd hx (List.not_mem_nil _)
  | cons a rest ih =>
    rw [List.pairwise_cons] at hs
    rw [List.mem_cons] at hx hy
    rcases hx with hx | hx
    · rcases hy with hy | hy
      · rw [hx, hy]
      · have := hs.1 y hy
        rw [← hx, hk] at this
        exact absurd this (Nat.lt_irrefl _)
    · rcases hy with hy | hy
      · have := hs.1 x hx
        rw [← hy, hk] at this
        exact absurd this (Nat.lt_irrefl _)
      · exact ih hs.2 hx hy

theorem insert_pairs_mono_mem (addr : Nat → Nat) (seq : List (Nat × Nat))
    (m : List (Nat × Nat × Nat)) (x : Nat × Nat × Nat) (hx : x ∈ m) :
    x ∈ insert_pairs addr seq m := by
  induction seq generalizing m with
  | nil => exact hx
  | cons ec rest ih => exact ih _ (mem_map_insert_of_mem _ _ _ _ hx)

/-- An entry of the pointer-keyed map that was not there before the
insertions is the first pair handed to `insert` for its element. -/
theorem insert_pairs_first (addr : Nat → Nat) (seq : List (Nat × Nat))
    (m : List (Nat × Nat × Nat)) (hs : m.Pairwise (fun a b => a.1 < b.1))
    (x : Nat × Nat × Nat) (hx : x ∈ insert_pairs addr seq m) :
    x ∈ m ∨ seq.find? (fun ec => ec.1 == x.2.1) = some x.2 := by
  induction seq generalizing m with
  | nil => exact Or.inl hx
  | cons ec rest ih =>
    rw [insert_pairs] at hx
    have hs1 := map_insert_sorted (addr ec.1) ec m hs
    by_cases hxm : x ∈ map_insert (addr ec.1) ec m
    · rcases mem_map_insert _ _ _ _ hxm with h | h
      · exact Or.inl h
      · right
        rw [h]
        simp
    · rcases ih _ hs1 hx with h | h
      · exact absurd h hxm
      · right
        by_cases hec : ec.1 = x.2.1
        · exfalso
          obtain ⟨v, hv⟩ := map_insert_key_mem (addr ec.1) ec m
          obtain ⟨v1, hv1⟩ := insert_pairs_mono addr rest _ _ ⟨v, hv⟩
          have hxk : x.1 = addr x.2.1 := by
            rcases insert_pairs_mem addr rest _ x hx with h1 | h1
            · exact absurd h1 hxm
            · exact h1.2
          have hsr := insert_pairs_sorted addr rest _ hs1
          have heq := sorted_key_unique _ hsr x (addr ec.1, v1) hx hv1 (by rw [hxk, hec])
          have hv2 := sorted_key_unique _ hsr (addr ec.1, v1) (addr ec.1, v) hv1
            (insert_pairs_mono_mem addr rest _ _ hv) rfl
          rw [heq, hv2] at hxm
          exact hxm hv
        · rw [List.find?_cons_of_neg _ (by simpa using hec)]
          exact h

/-! ## The cluster list as a function of the active ids, the element count and the groups -/

/-- After the replacement loop on the flat store, an element named in a group
points to the cluster allocated for the first group that names it, and that
cluster is live with the provisional id and the members of the group. -/
theorem replaced_named_first (addr : Nat → Nat) (hinj : Function.Injective addr)
    (p : Partitioner) (mesh : Mesh) (gs : List (List Nat)) (x : Nat)
    (hlt : x < mesh.n_elem) (j : Nat) (hj : first_group gs x = some j) :
    ∃ g, gs[j]? = some g ∧
      (replaced addr (flat_store p mesh) gs).2[x]? =
        some (some ((flat_store p mesh).heap.length + j)) ∧
      deref (replaced addr (flat_store p mesh) gs).1 ((flat_store p mesh).heap.length + j) =
        some { id := (flat_store p mesh)._clusters.length + j, elems := g } := by
  obtain ⟨g, hg, hxg⟩ := first_group_some gs x j hj
  have hpair : (x, (flat_store p mesh).heap.length + j) ∈
      group_pairs (flat_store p mesh).heap.length gs :=
    (mem_group_pairs _ gs x _).2 ⟨j, g, hg, hxg, rfl⟩
  obtain ⟨v, hv⟩ := insert_pairs_key addr _ [] _ hpair
  have hspec := (insert_pairs_spec addr (group_pairs (flat_store p mesh).heap.length gs)).2 _ hv
  have hv1 : v.1 = x := (hinj hspec.2).symm
  have hfirst : (group_pairs (flat_store p mesh).heap.length gs).find?
      (fun ec => ec.1 == v.1) = some v := by
    rcases insert_pairs_first addr _ [] List.Pairwise.nil _ hv with h | h
    · exact absurd h (List.not_mem_nil _)
    · exact h
  rw [hv1, group_pairs_find, hj] at hfirst
  have hveq : v = (x, (flat_store p mesh).heap.length + j) := (Option.some.inj hfirst).symm
  rw [hveq] at hv
  have hmem : (x, (flat_store p mesh).heap.length + j) ∈
      (insert_pairs addr (group_pairs (flat_store p mesh).heap.length gs) []).map Prod.snd :=
    List.mem_map.2 ⟨_, hv, rfl⟩
  refine ⟨g, hg, ?_, ?_⟩
  · unfold replaced
    exact replace_pairs_table_mem _ _ _ x _ (merge_pairs_nodup addr _ gs) hmem
      (by rw [flat_store_table_length]; exact hlt)
  · have hkeep := replace_pairs_heap_keep
      ((insert_pairs addr (group_pairs (flat_store p mesh).heap.length gs) []).map Prod.snd)
      ((flat_store p mesh).heap ++
        (merged_clusters (flat_store p mesh)._clusters.length 0 gs).map some)
      (flat_store p mesh)._elem_cluster_map ((flat_store p mesh).heap.length + j)
      (merge_pairs_nodup addr _ gs)
      (by
        intro e2 c2 _ ht
        have := flat_store_table_lt p mesh e2 _ ht
        omega)
    unfold replaced
    rw [deref_congr _ _ _ hkeep, deref_append_right, merged_clusters_get, hg]
    simp

/-- The cluster values the slots of the table refer to after the replacement
loop on the flat store. -/
theorem table_values_replaced (addr : Nat → Nat) (hinj : Function.Injective addr)
    (p : Partitioner) (mesh : Mesh) (gs : List (List Nat)) :
    table_values (replaced addr (flat_store p mesh) gs).1
        (replaced addr (flat_store p mesh) gs).2 =
      table_view (active_elements 0 mesh.elements) mesh.n_elem gs := by
  have htlen : (replaced addr (flat_store p mesh) gs).2.length = mesh.n_elem := by
    unfold replaced
    rw [replace_pairs_table_length, flat_store_table_length]
  have hsize : (flat_store p mesh)._clusters.length =
      (active_elements 0 mesh.elements).length := by
    rw [flat_store_clusters, List.length_range']
  apply List.ext_getElem?
  intro x
  unfold table_values table_view
  rw [List.getElem?_map, List.getElem?_map]
  by_cases hx : x < mesh.n_elem
  · rw [List.getElem?_range hx]
    simp only [Option.map_some']
    cases hfg : first_group gs x with
    | some j =>
      obtain ⟨g, hg, htab, hder⟩ := replaced_named_first addr hinj p mesh gs x hx j hfg
      rw [htab]
      simp only [Option.map_some', Option.some_bind]
      rw [hder, hg, hsize]
      rfl
    | none =>
      have hno := (first_group_none gs x).1 hfg
      have hnot : ∀ c, (x, c) ∉
          (insert_pairs addr (group_pairs (flat_store p mesh).heap.length gs) []).map
            Prod.snd := by
        intro c hc
        obtain ⟨j, g, hj, hg, _⟩ := merge_pairs_mem addr _ gs x c hc
        exact hno g (List.mem_iff_getElem?.2 ⟨j, hj⟩) hg
      by_cases hact : x ∈ active_elements 0 mesh.elements
      · obtain ⟨e, he, ha⟩ := (mem_active_elements_mesh mesh x).1 hact
        obtain ⟨c0, htab, hder⟩ := replaced_unnamed addr p mesh gs x e he ha hno
        rw [htab]
        simp only [Option.map_some', Option.some_bind]
        rw [hder]
        have hc : (active_elements 0 mesh.elements).contains x = true := by simpa using hact
        rw [if_pos hc]
      · have htab : (replaced addr (flat_store p mesh) gs).2[x]? = some none := by
          unfold replaced
          rw [replace_pairs_table_not_mem _ _ _ x hnot]
          exact flat_store_table_inactive p mesh x hx hact
        rw [htab]
        have hc : ¬ (active_elements 0 mesh.elements).contains x = true := by simpa using hact
        rw [if_neg hc]
        rfl
  · rw [List.getElem?_eq_none (by omega), List.getElem?_eq_none (by simp; omega)]
    rfl

/-- The cluster list after the merge step on the flat store, as a list of
(dense id, members): the merge step returns exactly when every id of every
group names an element of the mesh, and the list is then `merge_view` of the
active element ids, the element count and the groups. -/
theorem merge_cluster_list (addr : Nat → Nat) (hinj : Function.Injective addr)
    (p : Partitioner) (mesh : Mesh) (gs : List (List Nat)) :
    ((flat_store p mesh)._merge_elem_to_cluster addr mesh (some gs)).map
        Partitioner.cluster_list =
      if groups_valid mesh gs then
        some ((merge_view (active_elements 0 mesh.elements) mesh.n_elem gs).map some)
      else none := by
  rw [merge_eq_replaced]
  by_cases hv : groups_valid mesh gs = true
  · rw [if_pos hv, if_pos hv]
    simp only [Option.map_some']
    rw [rebuild_cluster_list, table_values_replaced addr hinj]
    rfl
  · rw [if_neg hv, if_neg hv]
    rfl

theorem flat_store_cluster_list (p : Partitioner) (mesh : Mesh) :
    (flat_store p mesh).cluster_list =
      (active_elements 0 mesh.elements).map (fun h => some (flat_cluster h)) := by
  unfold Partitioner.cluster_list
  rw [flat_store_heap, flat_store_clusters]
  have hlen : (active_elements 0 mesh.elements).length =
      ((active_elements 0 mesh.elements).map flat_cluster).length := by simp
  rw [hlen, map_deref_range, List.map_map]
  rfl

/-- C14: the cluster list left by `_build_flat_cluster` followed by
`_merge_elem_to_cluster`, viewed as the list of (dense id, member element
ids), is the same for two runs that agree on the active element ids, on the
element count, on the groups and on whether the groups name existing elements,
whatever the addresses of the element objects (distinct objects have distinct
addresses) and whatever the store the runs start from.  When the two runs
start from the same store, the whole stores they end in are equal. -/
theorem merge_deterministic (addr1 addr2 : Nat → Nat)
    (h1 : Function.Injective addr1) (h2 : Function.Injective addr2)
    (p1 p2 : Partitioner) (mesh1 mesh2 : Mesh) (groups : Option (List (List Nat)))
    (hact : active_elements 0 mesh1.elements = active_elements 0 mesh2.elements)
    (hn : mesh1.n_elem = mesh2.n_elem)
    (hvalid : ∀ gs, groups = some gs → groups_valid mesh1 gs = groups_valid mesh2 gs) :
    ((flat_store p1 mesh1)._merge_elem_to_cluster addr1 mesh1 groups).map
          Partitioner.cluster_list =
        ((flat_store p2 mesh2)._merge_elem_to_cluster addr2 mesh2 groups).map
          Partitioner.cluster_list ∧
      (p1 = p2 →
        (flat_store p1 mesh1)._merge_elem_to_cluster addr1 mesh1 groups =
          (flat_store p2 mesh2)._merge_elem_to_cluster addr2 mesh2 groups) := by
  constructor
  · cases groups with
    | none =>
      show some (flat_store p1 mesh1).cluster_list = some (flat_store p2 mesh2).cluster_list
      rw [flat_store_cluster_list, flat_store_cluster_list, hact]
    | some gs =>
      rw [merge_cluster_list addr1 h1, merge_cluster_list addr2 h2, hact, hn, hvalid gs rfl]
  · intro hp
    subst hp
    rw [flat_store_congr p1 mesh1 mesh2 hact hn,
      merge_addr_eq addr1 addr2 h1 h2 (flat_store p1 mesh2) mesh1 groups]
    cases groups with
    | none => rfl
    | some gs => rw [merge_eq, merge_eq, hvalid gs rfl]

/-- Witness of C14: the six-element chain with the groups `[0, 1]` and
`[2, 3]`; one run starts from the empty store with the elements laid out in
memory in the order of their ids, the other from a store left by an earlier
run with the elements laid out in the reverse order. -/
theorem merge_deterministic_witness :
    ((flat_store { } chain6)._merge_elem_to_cluster id chain6
          (some [[0, 1], [2, 3]])).map Partitioner.cluster_list =
        ((flat_store chain6_merged_store chain6)._merge_elem_to_cluster reversed_addr chain6
          (some [[0, 1], [2, 3]])).map Partitioner.cluster_list :=
  (merge_deterministic id reversed_addr (fun _ _ h => h) reversed_addr_injective { }
    chain6_merged_store chain6 chain6 (some [[0, 1], [2, 3]]) rfl rfl (fun _ _ => rfl)).1

/-! ## The store is empty between calls -/

theorem merge_isSome (addr : Nat → Nat) (p : Partitioner) (mesh : Mesh)
    (groups : Option (List (List Nat))) (hv : groups_exist mesh groups = true) :
    ∃ q, p._merge_elem_to_cluster addr mesh groups = some q := by
  cases groups with
  | none => exact ⟨p, rfl⟩
  | some gs =>
    have hv1 : groups_valid mesh gs = true := hv
    rw [merge_eq, if_pos hv1]
    exact ⟨_, rfl⟩

/-- C24: `_clear_cluster` leaves the cluster list and the element-to-cluster
table empty, clearing twice is clearing once, for every store, and the empty
store is left as it is. -/
theorem clear_cluster_idempotent (p : Partitioner) :
    p._clear_cluster._clusters = [] ∧
      p._clear_cluster._elem_cluster_map = [] ∧
      p._clear_cluster._clear_cluster = p._clear_cluster ∧
      ({ } : Partitioner)._clear_cluster = { } :=
  ⟨rfl, rfl, rfl, rfl⟩

/-- C25: with absent groups `_merge_elem_to_cluster` returns the store it was
given; after `_build_flat_cluster` the cluster list is then still the list of
the flat clusters of the active elements in ascending element order, each with
the id of its element. -/
theorem merge_absent_groups (addr : Nat → Nat) (p : Partitioner) (mesh : Mesh) :
    p._merge_elem_to_cluster addr mesh none = some p ∧
      ((flat_store p mesh)._merge_elem_to_cluster addr mesh none).map
          Partitioner.cluster_list =
        some ((active_elements 0 mesh.elements).map (fun h => some (flat_cluster h))) := by
  refine ⟨rfl, ?_⟩
  show some (flat_store p mesh).cluster_list = _
  rw [flat_store_cluster_list]

/-- C21, counterexample: on the refined chain the group `[3, 1]` names the
active element 3 together with the inactive element in slot 1, whose table
slot is empty after `_build_flat_cluster`; the merge step returns, the table
slot of element 1 points to the cluster of the group, and that cluster is in
the cluster list. -/
theorem merge_accepts_inactive :
    (refined_chain.elem 1).map Elem.active = some false ∧
      (flat_store { } refined_chain)._elem_cluster_map[1]? = some none ∧
      ((flat_store { } refined_chain)._merge_elem_to_cluster id refined_chain
          (some [[3, 1]])).map (fun s => ((s.cluster_of 1).bind (deref s.heap), s.cluster_list)) =
        some (some { id := 2, elems := [3, 1] },
          [some { id := 0, elems := [0] }, some { id := 1, elems := [2] },
           some { id := 2, elems := [3, 1] }]) := by
  refine ⟨rfl, ?_, ?_⟩
  · decide
  · decide

/-- C21, amended: `_merge_elem_to_cluster` fails exactly when some group holds
an id that names no element of the mesh (a slot that does not exist or is
NULL), whatever the store and the addresses; the activity of the named
elements is not looked at, and absent groups never fail. -/
theorem merge_fails_iff_unknown (addr : Nat → Nat) (p : Partitioner) (mesh : Mesh)
    (gs : List (List Nat)) :
    (p._merge_elem_to_cluster addr mesh (some gs) = none ↔
        ∃ g ∈ gs, ∃ i ∈ g, mesh.elem i = none) ∧
      p._merge_elem_to_cluster addr mesh none ≠ none := by
  refine ⟨?_, fun h => Option.noConfusion h⟩
  rw [merge_eq]
  by_cases hv : groups_valid mesh gs = true
  · rw [if_pos hv]
    constructor
    · intro h
      exact Option.noConfusion h
    · rintro ⟨g, hg, i, hi, hnone⟩
      unfold groups_valid at hv
      rw [List.all_eq_true] at hv
      have h1 := hv g hg
      rw [List.all_eq_true] at h1
      have h2 := h1 i hi
      rw [hnone] at h2
      exact absurd h2 (by decide)
  · rw [if_neg hv]
    refine ⟨fun _ => ?_, fun _ => rfl⟩
    by_contra hcon
    apply hv
    unfold groups_valid
    rw [List.all_eq_true]
    intro g hg
    rw [List.all_eq_true]
    intro i hi
    cases hel : mesh.elem i with
    | some e => rfl
    | none => exact absurd ⟨g, hg, i, hi, hel⟩ hcon

/-! ## Provisional ids -/

/-- C27, evaluation at the failing input.  On the chain of four refined
elements there are eight flat clusters; with the single group `[9, 10]` the
heap after the replacement loop holds, behind the table slots of the elements
8 and 9, two different clusters that both carry the id 8: the flat cluster of
the active element 8, which the merge leaves in place, and the merged cluster
with the provisional id 8 + 0. -/
theorem provisional_id_collides :
    (flat_store { } refined_chain4)._clusters.length = 8 ∧
      (replaced id (flat_store { } refined_chain4) [[9, 10]]).2[8]? = some (some 4) ∧
      (replaced id (flat_store { } refined_chain4) [[9, 10]]).2[9]? = some (some 8) ∧
      deref (replaced id (flat_store { } refined_chain4) [[9, 10]]).1 4 =
        some { id := 8, elems := [8] } ∧
      deref (replaced id (flat_store { } refined_chain4) [[9, 10]]).1 8 =
        some { id := 8, elems := [9, 10] } := by
  decide

/-! ## The table after `_build_flat_cluster` -/

/-- C28: after `_build_flat_cluster`, whatever the store before, the table
has as many slots as the mesh has element slots, so the id of every element of
the mesh is an index of the table, and the slot of every active element
points to a live cluster, the flat cluster of that element. -/
theorem build_flat_table_in_range (p : Partitioner) (mesh : Mesh) :
    (p._build_flat_cluster mesh)._elem_cluster_map.length = mesh.n_elem ∧
      (∀ h e, mesh.elem h = some e → h < (p._build_flat_cluster mesh)._elem_cluster_map.length) ∧
      ∀ h e, mesh.elem h = some e → e.active = true →
        ∃ c, (p._build_flat_cluster mesh)._elem_cluster_map[h]? = some (some c) ∧
          deref (p._build_flat_cluster mesh).heap c = some (flat_cluster h) := by
  have hlen : (p._build_flat_cluster mesh)._elem_cluster_map.length = mesh.n_elem := by
    unfold Partitioner._build_flat_cluster
    rw [build_flat_loop_table_length]
    simp only [resize_map, List.length_append, List.length_take, List.length_replicate]
    omega
  refine ⟨hlen, ?_, ?_⟩
  · intro h e he
    rw [hlen]
    rw [elem_eq_some_iff] at he
    exact (List.getElem?_eq_some.1 he).1
  · intro h e he ha
    have hmem : h ∈ active_elements 0 mesh.elements :=
      (mem_active_elements_mesh mesh h).2 ⟨e, he, ha⟩
    obtain ⟨j, hj⟩ := List.mem_iff_getElem?.1 hmem
    have hlt : h < mesh.n_elem := active_elements_lt mesh h hmem
    refine ⟨p.heap.length + j, ?_, ?_⟩
    · unfold Partitioner._build_flat_cluster
      exact build_flat_loop_table_mem _ _ h (active_elements_nodup 0 mesh.elements)
        (by
          simp only [resize_map, List.length_append, List.length_take, List.length_replicate]
          show h < _
          have : mesh.n_elem = mesh.elements.length := rfl
          omega) j hj
    · unfold Partitioner._build_flat_cluster
      rw [build_flat_loop_heap]
      have hd := deref_append_right p.heap ((active_elements 0 mesh.elements).map flat_cluster) j
      simp only [List.map_map] at hd
      show deref (p.heap ++ _) (p.heap.length + j) = _
      rw [show (List.map (fun h => some ({ id := h, elems := [h] } : Cluster))
            (active_elements 0 mesh.elements)) =
          List.map (some ∘ flat_cluster) (active_elements 0 mesh.elements) from rfl, hd]
      simp [hj]

/-! ## `_set_node_processor_ids` forgets the prior node state and locality flags -/

theorem map_reset_node (nodes : List Node) :
    nodes.map reset_node =
      List.replicate nodes.length { processor_id := invalid_processor_id, on_local := false } := by
  induction nodes with
  | nil => rfl
  | cons nd rest ih =>
    rw [List.map_cons, ih]
    rfl

theorem assign_node_ids_snd_forget (es : List (Option Elem)) (nodes : List Node) :
    (assign_node_ids (es.map (Option.map forget_local)) nodes).2 =
      (assign_node_ids es nodes).2 := by
  induction es generalizing nodes with
  | nil => rfl
  | cons oe rest ih =>
    cases oe with
    | none =>
      simp only [List.map_cons, Option.map_none', assign_node_ids]
      exact ih nodes
    | some e =>
      simp only [List.map_cons, Option.map_some', assign_node_ids]
      exact ih _

theorem assign_node_ids_congr (es1 es2 : List (Option Elem)) (nodes : List Node)
    (hel : es1.map (Option.map forget_local) = es2.map (Option.map forget_local)) :
    assign_node_ids es1 nodes = assign_node_ids es2 nodes := by
  apply Prod.ext
  · rw [assign_node_ids_fst, assign_node_ids_fst]
    exact hel
  · rw [← assign_node_ids_snd_forget es1, ← assign_node_ids_snd_forget es2, hel]

/-- The result of `_set_node_processor_ids` is the same for two meshes that
agree on the elements up to their locality flags, on the number of nodes and
on the declared partition count. -/
theorem set_ids_congr (me : Nat) (m1 m2 : Mesh)
    (hel : m1.elements.map (Option.map forget_local) =
      m2.elements.map (Option.map forget_local))
    (hn : m1.nodes.length = m2.nodes.length) (hp : m1.n_partitions = m2.n_partitions) :
    _set_node_processor_ids me m1 = _set_node_processor_ids me m2 := by
  unfold _set_node_processor_ids
  simp only
  rw [map_reset_node, map_reset_node, hn, assign_node_ids_congr m1.elements m2.elements _ hel, hp]

theorem mark_on_local_forget (me : Nat) (all : List (Option Elem)) (S : List Nat) (h : Nat)
    (rest : List (Option Elem)) (nodes : List Node) :
    (mark_on_local me all S h rest nodes).1.map (Option.map forget_local) =
      rest.map (Option.map forget_local) := by
  induction rest generalizing h nodes with
  | nil => rfl
  | cons oe rest ih =>
    cases oe with
    | none =>
      simp only [mark_on_local, List.map_cons]
      rw [ih]
    | some e =>
      rw [mark_on_local]
      split
      · simp only [List.map_cons]
        rw [ih]
        rfl
      · simp only [List.map_cons]
        rw [ih]

theorem min_node_ids_length (pid : Nat) (ns : List Nat) (nodes : List Node) :
    (min_node_ids pid ns nodes).length = nodes.length := by
  induction ns generalizing nodes with
  | nil => rfl
  | cons n rest ih => rw [min_node_ids, ih, modify_node_length]

theorem set_nodes_on_local_length (ns : List Nat) (nodes : List Node) :
    (set_nodes_on_local ns nodes).length = nodes.length := by
  induction ns generalizing nodes with
  | nil => rfl
  | cons n rest ih => rw [set_nodes_on_local, ih, modify_node_length]

theorem assign_node_ids_length (es : List (Option Elem)) (nodes : List Node) :
    (assign_node_ids es nodes).2.length = nodes.length := by
  induction es generalizing nodes with
  | nil => rfl
  | cons oe rest ih =>
    cases oe with
    | none => simpa [assign_node_ids] using ih nodes
    | some e =>
      simp only [assign_node_ids]
      rw [ih, min_node_ids_length]

theorem mark_on_local_length (me : Nat) (all : List (Option Elem)) (S : List Nat) (h : Nat)
    (rest : List (Option Elem)) (nodes : List Node) :
    (mark_on_local me all S h rest nodes).2.length = nodes.length := by
  induction rest generalizing h nodes with
  | nil => rfl
  | cons oe rest ih =>
    cases oe with
    | none =>
      simp only [mark_on_local]
      rw [ih]
    | some e =>
      rw [mark_on_local]
      split
      · simp only
        rw [ih, set_nodes_on_local_length]
      · simp only
        rw [ih]

/-- The call changes the elements in their locality flags only. -/
theorem set_ids_forget (me : Nat) (mesh : Mesh) :
    (_set_node_processor_ids me mesh).elements.map (Option.map forget_local) =
      mesh.elements.map (Option.map forget_local) := by
  unfold _set_node_processor_ids
  simp only
  rw [mark_on_local_forget, assign_node_ids_fst, List.map_map]
  apply List.map_congr_left
  intro oe _
  cases oe <;> rfl

theorem set_ids_nodes_length (me : Nat) (mesh : Mesh) :
    (_set_node_processor_ids me mesh).nodes.length = mesh.nodes.length := by
  unfold _set_node_processor_ids
  simp only
  rw [mark_on_local_length, assign_node_ids_length, List.length_map]

/-- C30: two meshes that agree on the elements up to their `on_local` flags
(same slots, same nodes, neighbours and processor id per element), on the
number of nodes and on the declared partition count are taken by
`_set_node_processor_ids` to the same mesh, whatever the prior processor ids
and flags of the nodes and the prior flags of the elements; and running the
operation a second time changes nothing. -/
theorem set_node_ids_forgets_prior_state (me : Nat) (m1 m2 : Mesh)
    (hel : m1.elements.map (Option.map forget_local) =
      m2.elements.map (Option.map forget_local))
    (hn : m1.nodes.length = m2.nodes.length) (hp : m1.n_partitions = m2.n_partitions) :
    _set_node_processor_ids me m1 = _set_node_processor_ids me m2 ∧
      _set_node_processor_ids me (_set_node_processor_ids me m1) =
        _set_node_processor_ids me m1 :=
  ⟨set_ids_congr me m1 m2 hel hn hp,
    set_ids_congr me _ m1 (set_ids_forget me m1) (set_ids_nodes_length me m1) rfl⟩

/-- Witness of C30: the six-element chain in its initial state and after an
earlier run that left every node on processor 3 and every node and element
flagged local; the running process is 1. -/
theorem set_node_ids_forgets_prior_state_witness :
    _set_node_processor_ids 1 chain6 = _set_node_processor_ids 1 chain6_stale ∧
      _set_node_processor_ids 1 (_set_node_processor_ids 1 chain6) =
        _set_node_processor_ids 1 chain6 :=
  set_node_ids_forgets_prior_state 1 chain6 chain6_stale (by decide) (by decide) (by decide)

/-! ## Every candidate neighbour has a cluster -/

theorem mem_active_family_tree (mesh : Mesh) (fuel h x : Nat)
    (hx : x ∈ active_family_tree mesh fuel h) :
    ∃ e, mesh.elem x = some e ∧ e.active = true := by
  induction fuel generalizing h with
  | zero => exact absurd hx (List.not_mem_nil _)
  | succ fuel ih =>
    rw [active_family_tree] at hx
    cases he : mesh.elem h with
    | none =>
      rw [he] at hx
      exact absurd hx (List.not_mem_nil _)
    | some e =>
      rw [he] at hx
      simp only at hx
      split at hx
      · rename_i ha
        rw [List.mem_singleton] at hx
        subst hx
        exact ⟨e, he, ha⟩
      · obtain ⟨ch, _, hch⟩ := List.mem_flatMap.1 hx
        exact ih ch hch

theorem insert_children_act (addr : Nat → Nat) (mesh : Mesh) (h ns : Nat)
    (children : List Nat) (acc : List (Nat × Nat))
    (hch : ∀ x ∈ children, ∃ e, mesh.elem x = some e ∧ e.active = true)
    (hacc : ∀ x ∈ acc, ∃ e, mesh.elem x.2 = some e ∧ e.active = true) :
    ∀ x ∈ insert_children addr mesh h ns children acc,
      ∃ e, mesh.elem x.2 = some e ∧ e.active = true := by
  induction children generalizing acc with
  | nil => exact hacc
  | cons child rest ih =>
    have hrest : ∀ x ∈ rest, ∃ e, mesh.elem x = some e ∧ e.active = true :=
      fun x hx => hch x (List.mem_cons_of_mem _ hx)
    rw [insert_children]
    cases mesh.elem child with
    | none => exact ih _ hrest hacc
    | some ce =>
      simp only
      split
      · apply ih _ hrest
        intro x hx
        rcases mem_map_insert _ _ _ _ hx with h1 | h1
        · exact hacc x h1
        · rw [h1]
          exact hch child (List.mem_cons_self _ _)
      · exact ih _ hrest hacc

theorem neighbor_loop_act (addr : Nat → Nat) (mesh : Mesh) (cluster_elem : List (Nat × Nat))
    (h : Nat) (nbs : List (Option Nat)) (acc acc1 : List (Nat × Nat))
    (hr : neighbor_loop addr mesh cluster_elem h nbs acc = some acc1)
    (hacc : ∀ x ∈ acc, ∃ e, mesh.elem x.2 = some e ∧ e.active = true) :
    ∀ x ∈ acc1, ∃ e, mesh.elem x.2 = some e ∧ e.active = true := by
  induction nbs generalizing acc with
  | nil =>
    rw [neighbor_loop] at hr
    rw [← Option.some.inj hr]
    exact hacc
  | cons o rest ih =>
    cases o with
    | none =>
      rw [neighbor_loop] at hr
      exact ih _ hr hacc
    | some nb =>
      rw [neighbor_loop] at hr
      split at hr
      · exact ih _ hr hacc
      · cases hne : mesh.elem nb with
        | none =>
          rw [hne] at hr
          exact ih _ hr hacc
        | some ne =>
          rw [hne] at hr
          simp only at hr
          split at hr
          · rename_i ha
            apply ih _ hr
            intro x hx
            rcases mem_map_insert _ _ _ _ hx with h1 | h1
            · exact hacc x h1
            · rw [h1]
              exact ⟨ne, hne, ha⟩
          · cases hw : which_neighbor_am_i ne h with
            | none =>
              rw [hw] at hr
              exact absurd hr (by simp)
            | some ns =>
              rw [hw] at hr
              exact ih _ hr (insert_children_act addr mesh h ns _ acc
                (fun x hx => mem_active_family_tree mesh _ _ x hx) hacc)

theorem member_loop_act (addr : Nat → Nat) (mesh : Mesh) (cluster_elem : List (Nat × Nat))
    (hs : List Nat) (acc acc1 : List (Nat × Nat))
    (hr : member_loop addr mesh cluster_elem hs acc = some acc1)
    (hacc : ∀ x ∈ acc, ∃ e, mesh.elem x.2 = some e ∧ e.active = true) :
    ∀ x ∈ acc1, ∃ e, mesh.elem x.2 = some e ∧ e.active = true := by
  induction hs generalizing acc with
  | nil =>
    rw [member_loop] at hr
    rw [← Option.some.inj hr]
    exact hacc
  | cons h rest ih =>
    rw [member_loop] at hr
    cases he : mesh.elem h with
    | none =>
      rw [he] at hr
      exact ih _ hr hacc
    | some e =>
      rw [he] at hr
      simp only at hr
      cases hn : neighbor_loop addr mesh cluster_elem h e.neighbors acc with
      | none =>
        rw [hn] at hr
        exact absurd hr (by simp)
      | some acc2 =>
        rw [hn] at hr
        exact ih _ hr (neighbor_loop_act addr mesh cluster_elem h _ acc acc2 hn hacc)

/-- After the replacement loop on the flat store the table slot of every
active element points to a live cluster. -/
theorem replaced_active_entry (addr : Nat → Nat) (p : Partitioner) (mesh : Mesh)
    (gs : List (List Nat)) (h : Nat) (e : Elem)
    (he : mesh.elem h = some e) (ha : e.active = true) :
    ∃ c cl, (replaced addr (flat_store p mesh) gs).2[h]? = some (some c) ∧
      deref (replaced addr (flat_store p mesh) gs).1 c = some cl := by
  by_cases hp : ∃ c, (h, c) ∈
      (insert_pairs addr (group_pairs (flat_store p mesh).heap.length gs) []).map Prod.snd
  · obtain ⟨c, hc⟩ := hp
    obtain ⟨j, g, hj, _, hcj⟩ := merge_pairs_mem addr _ gs h c hc
    have hlt : h < mesh.n_elem :=
      active_elements_lt mesh h ((mem_active_elements_mesh mesh h).2 ⟨e, he, ha⟩)
    refine ⟨c, { id := (flat_store p mesh)._clusters.length + j, elems := g }, ?_, ?_⟩
    · unfold replaced
      exact replace_pairs_table_mem _ _ _ h _ (merge_pairs_nodup addr _ gs) hc
        (by rw [flat_store_table_length]; exact hlt)
    · have hkeep := replace_pairs_heap_keep
        ((insert_pairs addr (group_pairs (flat_store p mesh).heap.length gs) []).map Prod.snd)
        ((flat_store p mesh).heap ++
          (merged_clusters (flat_store p mesh)._clusters.length 0 gs).map some)
        (flat_store p mesh)._elem_cluster_map c
        (merge_pairs_nodup addr _ gs)
        (by
          intro e2 c2 _ ht
          have := flat_store_table_lt p mesh e2 _ ht
          omega)
      unfold replaced
      rw [deref_congr _ _ _ hkeep, hcj, deref_append_right, merged_clusters_get, hj]
      simp
  · have hnot : ∀ c, (h, c) ∉
        (insert_pairs addr (group_pairs (flat_store p mesh).heap.length gs) []).map Prod.snd :=
      fun c hc => hp ⟨c, hc⟩
    obtain ⟨c0, hc0, _, hd0⟩ := flat_store_active_entry p mesh h e he ha
    refine ⟨c0, flat_cluster h, ?_, ?_⟩
    · unfold replaced
      rw [replace_pairs_table_not_mem _ _ _ h hnot]
      exact hc0
    · have hkeep := replace_pairs_heap_keep
        ((insert_pairs addr (group_pairs (flat_store p mesh).heap.length gs) []).map Prod.snd)
        ((flat_store p mesh).heap ++
          (merged_clusters (flat_store p mesh)._clusters.length 0 gs).map some)
        (flat_store p mesh)._elem_cluster_map c0 (merge_pairs_nodup addr _ gs)
        (by
          intro e1 c1 h1 ht
          have := flat_store_table_injective p mesh e1 h c0 ht hc0
          subst this
          exact hnot c1 h1)
      unfold replaced
      rw [deref_congr _ _ c0 hkeep, deref_append_left _ _ c0 (deref_lt _ _ _ hd0)]
      exact hd0

/-- After `_clear_cluster`, `_build_flat_cluster` and `_merge_elem_to_cluster`
the table slot of every active element points to a live cluster. -/
theorem merge_active_entry (addr : Nat → Nat) (p : Partitioner) (mesh : Mesh)
    (groups : Option (List (List Nat))) (q : Partitioner)
    (hm : (flat_store p mesh)._merge_elem_to_cluster addr mesh groups = some q)
    (h : Nat) (e : Elem) (he : mesh.elem h = some e) (ha : e.active = true) :
    ∃ c cl, q._elem_cluster_map[h]? = some (some c) ∧ deref q.heap c = some cl := by
  cases groups with
  | none =>
    have hq : flat_store p mesh = q := Option.some.inj hm
    subst hq
    obtain ⟨c, hc, _, hd⟩ := flat_store_active_entry p mesh h e he ha
    exact ⟨c, _, hc, hd⟩
  | some gs =>
    rw [merge_eq_replaced] at hm
    split at hm
    · have hq := Option.some.inj hm
      subst hq
      obtain ⟨c, cl, hc, hd⟩ := replaced_active_entry addr p mesh gs h e he ha
      have hel := renumber_loop_elems 0
        ((cluster_map_loop (replaced addr (flat_store p mesh) gs).1
          (replaced addr (flat_store p mesh) gs).2 []).map Prod.snd)
        (replaced addr (flat_store p mesh) gs).1 c
      rw [hd] at hel
      cases hq : deref (rebuild (replaced addr (flat_store p mesh) gs).1
          (replaced addr (flat_store p mesh) gs).2).heap c with
      | none =>
        unfold rebuild at hq
        simp only at hq
        rw [hq] at hel
        exact absurd hel (by simp)
      | some cl1 => exact ⟨c, cl1, hc, hq⟩
    · exact absurd hm (by simp)

/-- C29: for a store produced by `_clear_cluster`, `_build_flat_cluster` and
`_merge_elem_to_cluster`, whatever the groups, the addresses and the cluster
asked about, every element of the set `cluster_neighbor` built by
`cluster_neighbor_elem` (the candidates whose table slot the loop of lines
519-527 reads) has its id inside the table, and its slot holds a non-NULL
pointer to a live cluster. -/
theorem neighbor_lookup_finds_cluster (addr : Nat → Nat) (p : Partitioner) (mesh : Mesh)
    (groups : Option (List (List Nat))) (q : Partitioner) (cluster : Cluster)
    (cluster_neighbor : List (Nat × Nat)) (nb : Nat)
    (hm : (flat_store p mesh)._merge_elem_to_cluster addr mesh groups = some q)
    (hcn : member_loop addr mesh (set_insert_all addr cluster.elems []) cluster.elems [] =
      some cluster_neighbor)
    (hnb : nb ∈ cluster_neighbor.map Prod.snd) :
    nb < q._elem_cluster_map.length ∧
      ∃ c cl, q.cluster_of nb = some c ∧ deref q.heap c = some cl := by
  obtain ⟨x, hx, hxnb⟩ := List.mem_map.1 hnb
  obtain ⟨e, he, ha⟩ := member_loop_act addr mesh _ cluster.elems [] cluster_neighbor hcn
    (fun y hy => absurd hy (List.not_mem_nil _)) x hx
  rw [hxnb] at he
  obtain ⟨c, cl, hc, hd⟩ := merge_active_entry addr p mesh groups q hm nb e he ha
  refine ⟨(List.getElem?_eq_some.1 hc).1, c, cl, ?_, hd⟩
  unfold Partitioner.cluster_of
  rw [hc]

/-- Witness of C29: the six-element chain with the groups `[0, 1]` and
`[2, 3]`; the cluster asked about is the merged cluster of the elements 0 and
1, whose only candidate neighbour is element 2. -/
theorem neighbor_lookup_finds_cluster_witness :
    2 < chain6_merged_store._elem_cluster_map.length ∧
      ∃ c cl, chain6_merged_store.cluster_of 2 = some c ∧
        deref chain6_merged_store.heap c = some cl :=
  neighbor_lookup_finds_cluster id { } chain6 (some [[0, 1], [2, 3]]) chain6_merged_store
    { id := 2, elems := [0, 1] } [(2, 2)] 2 (by decide) (by decide) (by decide)

/-! ## The order of the renumbering -/

theorem value_loop_sorted (t : List (Option Cluster)) (m : List (Nat × Cluster))
    (hs : m.Pairwise (fun a b => a.1 < b.1)) :
    (value_loop t m).Pairwise (fun a b => a.1 < b.1) := by
  induction t generalizing m with
  | nil => exact hs
  | cons o rest ih =>
    cases o with
    | none => exact ih m hs
    | some cl => exact ih _ (map_insert_sorted _ _ _ hs)

theorem value_loop_mem (t : List (Option Cluster)) (m : List (Nat × Cluster))
    (x : Nat × Cluster) (hx : x ∈ value_loop t m) :
    x ∈ m ∨ (some x.2 ∈ t ∧ x.2.id = x.1) := by
  induction t generalizing m with
  | nil => exact Or.inl hx
  | cons o rest ih =>
    cases o with
    | none =>
      rcases ih m hx with h | ⟨h1, h2⟩
      · exact Or.inl h
      · exact Or.inr ⟨List.mem_cons_of_mem _ h1, h2⟩
    | some cl =>
      rcases ih _ hx with h | ⟨h1, h2⟩
      · rcases mem_map_insert _ _ _ _ h with h3 | h3
        · exact Or.inl h3
        · subst h3
          exact Or.inr ⟨List.mem_cons_self _ _, rfl⟩
      · exact Or.inr ⟨List.mem_cons_of_mem _ h1, h2⟩

theorem value_loop_mono (t : List (Option Cluster)) (m : List (Nat × Cluster)) (k : Nat)
    (hk : ∃ v, (k, v) ∈ m) : ∃ v, (k, v) ∈ value_loop t m := by
  induction t generalizing m with
  | nil => exact hk
  | cons o rest ih =>
    cases o with
    | none => exact ih m hk
    | some cl =>
      obtain ⟨v, hv⟩ := hk
      exact ih _ ⟨v, mem_map_insert_of_mem _ _ _ _ hv⟩

theorem value_loop_key (t : List (Option Cluster)) (m : List (Nat × Cluster)) (cl : Cluster)
    (h : some cl ∈ t) : ∃ v, (cl.id, v) ∈ value_loop t m := by
  induction t generalizing m with
  | nil => exact absurd h (List.not_mem_nil _)
  | cons o rest ih =>
    rcases List.mem_cons.1 h with h1 | h1
    · subst h1
      exact value_loop_mono rest _ cl.id (map_insert_key_mem _ _ _)
    · cases o with
      | none => exact ih m h1
      | some cl1 => exact ih _ h1

theorem table_view_get (actives : List Nat) (n_elem : Nat) (gs : List (List Nat)) (x : Nat)
    (hx : x < n_elem) :
    (table_view actives n_elem gs)[x]? =
      some (match first_group gs x with
        | some j => (gs[j]?).map (fun g => { id := actives.length + j, elems := g })
        | none => if actives.contains x then some (flat_cluster x) else none) := by
  unfold table_view
  rw [List.getElem?_map, List.getElem?_range hx]
  rfl

/-- A cluster behind a slot of the table after the replacement loop is the
flat cluster of an active element named in no group, or the cluster of a
group with its provisional id. -/
theorem mem_table_view (actives : List Nat) (n_elem : Nat) (gs : List (List Nat))
    (cl : Cluster) (h : some cl ∈ table_view actives n_elem gs) :
    (∃ x, x < n_elem ∧ first_group gs x = none ∧ x ∈ actives ∧ cl = flat_cluster x) ∨
      ∃ x j g, x < n_elem ∧ first_group gs x = some j ∧ gs[j]? = some g ∧
        cl = { id := actives.length + j, elems := g } := by
  obtain ⟨x, hx⟩ := List.mem_iff_getElem?.1 h
  have hlt : x < n_elem := by
    have := (List.getElem?_eq_some.1 hx).1
    unfold table_view at this
    simpa using this
  rw [table_view_get actives n_elem gs x hlt] at hx
  have hx1 := Option.some.inj hx
  cases hfg : first_group gs x with
  | none =>
    rw [hfg] at hx1
    simp only at hx1
    by_cases hc : actives.contains x = true
    · rw [if_pos hc] at hx1
      exact Or.inl ⟨x, hlt, hfg, by simpa using hc, (Option.some.inj hx1).symm⟩
    · rw [if_neg hc] at hx1
      exact absurd hx1 (by simp)
  | some j =>
    rw [hfg] at hx1
    simp only at hx1
    cases hg : gs[j]? with
    | none =>
      rw [hg] at hx1
      exact absurd hx1 (by simp)
    | some g =>
      rw [hg] at hx1
      exact Or.inr ⟨x, j, g, hlt, hfg, hg, (Option.some.inj hx1).symm⟩

/-- Two maps kept in strictly ascending key order with the same entries are
the same list. -/
theorem sorted_key_ext {α : Type} (l1 l2 : List (Nat × α))
    (h1 : l1.Pairwise (fun a b => a.1 < b.1)) (h2 : l2.Pairwise (fun a b => a.1 < b.1))
    (hmem : ∀ y, y ∈ l1 ↔ y ∈ l2) : l1 = l2 := by
  have hne : ∀ a b : Nat × α, a.1 < b.1 → a ≠ b := by
    intro a b hab heq
    rw [heq] at hab
    exact Nat.lt_irrefl _ hab
  have nd1 : l1.Nodup := h1.imp (fun {a b} hab => hne a b hab)
  have nd2 : l2.Nodup := h2.imp (fun {a b} hab => hne a b hab)
  haveI : IsAntisymm (Nat × α) (fun a b => a.1 < b.1) :=
    ⟨fun a b hab hba => absurd hab (Nat.lt_asymm hba)⟩
  exact List.eq_of_perm_of_sorted ((List.perm_ext_iff_of_nodup nd1 nd2).2 hmem) h1 h2

theorem merged_clusters_id_ge (size n : Nat) (gs : List (List Nat)) (cl : Cluster)
    (h : cl ∈ merged_clusters size n gs) : size + n ≤ cl.id := by
  induction gs generalizing n with
  | nil => exact absurd h (List.not_mem_nil _)
  | cons g rest ih =>
    rw [merged_clusters] at h
    rcases List.mem_cons.1 h with h1 | h1
    · rw [h1]
    · have := ih (n + 1) h1
      omega

theorem merged_clusters_sorted (size n : Nat) (gs : List (List Nat)) :
    (merged_clusters size n gs).Pairwise (fun a b => a.id < b.id) := by
  induction gs generalizing n with
  | nil => exact List.Pairwise.nil
  | cons g rest ih =>
    rw [merged_clusters]
    refine List.Pairwise.cons ?_ (ih (n + 1))
    intro cl hcl
    have := merged_clusters_id_ge size (n + 1) rest cl hcl
    show size + n < cl.id
    omega

theorem mem_unnamed_elements (mesh : Mesh) (gs : List (List Nat)) (x : Nat) :
    x ∈ unnamed_elements mesh gs ↔ x < mesh.n_elem ∧ first_group gs x = none := by
  unfold unnamed_elements
  rw [List.mem_filter, List.mem_range, first_group_none]
  constructor
  · rintro ⟨h1, h2⟩
    refine ⟨h1, ?_⟩
    intro g hg hx
    have : named gs x = true := (named_iff gs x).2 ⟨g, hg, hx⟩
    rw [this] at h2
    exact absurd h2 (by decide)
  · rintro ⟨h1, h2⟩
    refine ⟨h1, ?_⟩
    cases hn : named gs x with
    | false => rfl
    | true =>
      obtain ⟨g, hg, hx⟩ := (named_iff gs x).1 hn
      exact absurd hx (h2 g hg)

theorem unnamed_elements_sorted (mesh : Mesh) (gs : List (List Nat)) :
    (unnamed_elements mesh gs).Pairwise (fun a b => a < b) := by
  unfold unnamed_elements
  exact List.Pairwise.filter _ (List.pairwise_lt_range _)

/-- The expected list of a mesh without inactive elements and NULL slots, keyed
by the ids before the renumbering: ascending in the key. -/
theorem dense_expected_sorted (mesh : Mesh) (gs : List (List Nat)) :
    (((unnamed_elements mesh gs).map flat_cluster ++ merged_clusters mesh.n_elem 0 gs).map
      (fun cl => (cl.id, cl))).Pairwise (fun a b => a.1 < b.1) := by
  rw [List.pairwise_map, List.pairwise_append]
  refine ⟨?_, merged_clusters_sorted _ _ _, ?_⟩
  · rw [List.pairwise_map]
    exact unnamed_elements_sorted mesh gs
  · intro a ha b hb
    obtain ⟨x, hx, hxa⟩ := List.mem_map.1 ha
    have h1 := ((mem_unnamed_elements mesh gs x).1 hx).1
    have h2 := merged_clusters_id_ge _ _ _ b hb
    rw [← hxa]
    show x < b.id
    omega

/-- On a mesh without inactive elements and NULL slots, with non-empty pairwise
disjoint groups of existing elements, the clusters keyed by their ids before
the renumbering are the flat clusters of the elements named in no group, in
ascending element order, followed by the clusters of the groups in the order
of the groups. -/
theorem dense_value_loop (mesh : Mesh) (gs : List (List Nat))
    (hall : ∀ h, h < mesh.n_elem → ∃ e, mesh.elem h = some e ∧ e.active = true)
    (hvalid : ∀ g ∈ gs, ∀ x ∈ g, x < mesh.n_elem)
    (hne : ∀ g ∈ gs, g ≠ [])
    (hdisj : gs.Pairwise (fun a b => ∀ x ∈ a, x ∉ b)) :
    value_loop (table_view (active_elements 0 mesh.elements) mesh.n_elem gs) [] =
      ((unnamed_elements mesh gs).map flat_cluster ++ merged_clusters mesh.n_elem 0 gs).map
        (fun cl => (cl.id, cl)) := by
  have hlen := dense_active_length mesh hall
  have hact : ∀ x, x ∈ active_elements 0 mesh.elements → x < mesh.n_elem :=
    fun x hx => active_elements_lt mesh x hx
  -- what an entry of the map can be
  have hentry : ∀ y, y ∈ value_loop
      (table_view (active_elements 0 mesh.elements) mesh.n_elem gs) [] →
      (∃ x, x < mesh.n_elem ∧ first_group gs x = none ∧ y = (x, flat_cluster x)) ∨
        ∃ j g, gs[j]? = some g ∧ y = (mesh.n_elem + j, { id := mesh.n_elem + j, elems := g }) := by
    intro y hy
    rcases value_loop_mem _ _ y hy with h | ⟨h1, h2⟩
    · exact absurd h (List.not_mem_nil _)
    · rcases mem_table_view _ _ _ _ h1 with ⟨x, hx, hfg, _, hcl⟩ | ⟨x, j, g, _, _, hg, hcl⟩
      · left
        refine ⟨x, hx, hfg, ?_⟩
        apply Prod.ext
        · rw [← h2, hcl]
          rfl
        · exact hcl
      · right
        rw [hlen] at hcl
        refine ⟨j, g, hg, ?_⟩
        apply Prod.ext
        · rw [← h2, hcl]
        · exact hcl
  apply sorted_key_ext _ _ (value_loop_sorted _ _ List.Pairwise.nil)
    (dense_expected_sorted mesh gs)
  intro y
  constructor
  · intro hy
    rcases hentry y hy with ⟨x, hx, hfg, hyx⟩ | ⟨j, g, hg, hyj⟩
    · rw [hyx]
      refine List.mem_map.2 ⟨flat_cluster x, List.mem_append_left _ ?_, rfl⟩
      exact List.mem_map.2 ⟨x, (mem_unnamed_elements mesh gs x).2 ⟨hx, hfg⟩, rfl⟩
    · rw [hyj]
      refine List.mem_map.2 ⟨{ id := mesh.n_elem + j, elems := g },
        List.mem_append_right _ ?_, rfl⟩
      refine List.mem_iff_getElem?.2 ⟨j, ?_⟩
      rw [merged_clusters_get, hg]
      simp
  · intro hy
    obtain ⟨cl, hcl, hycl⟩ := List.mem_map.1 hy
    rcases List.mem_append.1 hcl with hcl | hcl
    · obtain ⟨x, hx, hxcl⟩ := List.mem_map.1 hcl
      obtain ⟨hlt, hfg⟩ := (mem_unnamed_elements mesh gs x).1 hx
      obtain ⟨e, he, ha⟩ := hall x hlt
      have hxa : x ∈ active_elements 0 mesh.elements :=
        (mem_active_elements_mesh mesh x).2 ⟨e, he, ha⟩
      have hslot : some (flat_cluster x) ∈
          table_view (active_elements 0 mesh.elements) mesh.n_elem gs := by
        refine List.mem_iff_getElem?.2 ⟨x, ?_⟩
        rw [table_view_get _ _ _ x hlt, hfg]
        have hc : (active_elements 0 mesh.elements).contains x = true := by simpa using hxa
        simp only
        rw [if_pos hc]
      obtain ⟨v, hv⟩ := value_loop_key _ [] _ hslot
      have hyv : y = ((flat_cluster x).id, v) := by
        rcases hentry _ hv with ⟨x1, _, _, h1⟩ | ⟨j, g, _, h1⟩
        · have hk : (flat_cluster x).id = x1 := congrArg Prod.fst h1
          have hx1 : x = x1 := hk
          subst hx1
          rw [← hycl, ← hxcl, h1]
          rfl
        · have hk : (flat_cluster x).id = mesh.n_elem + j := congrArg Prod.fst h1
          have hx1 : x = mesh.n_elem + j := hk
          omega
      rw [hyv]
      exact hv
    · obtain ⟨j, hj⟩ := List.mem_iff_getElem?.1 hcl
      rw [merged_clusters_get] at hj
      cases hg : gs[j]? with
      | none =>
        rw [hg] at hj
        exact absurd hj (by simp)
      | some g =>
        rw [hg] at hj
        have hclv : cl = { id := mesh.n_elem + j, elems := g } := by
          have := Option.some.inj hj
          rw [← this]
          simp
        have hgmem : g ∈ gs := List.mem_iff_getElem?.2 ⟨j, hg⟩
        obtain ⟨x, hxg⟩ := List.exists_mem_of_ne_nil g (hne g hgmem)
        have hlt : x < mesh.n_elem := hvalid g hgmem x hxg
        have hfg : first_group gs x = some j := by
          cases hf : first_group gs x with
          | none => exact absurd hxg ((first_group_none gs x).1 hf g hgmem)
          | some j1 =>
            obtain ⟨g1, hg1, hxg1⟩ := first_group_some gs x j1 hf
            rw [disjoint_groups_index gs hdisj j1 j g1 g hg1 hg x hxg1 hxg]
        have hslot : some ({ id := mesh.n_elem + j, elems := g } : Cluster) ∈
            table_view (active_elements 0 mesh.elements) mesh.n_elem gs := by
          refine List.mem_iff_getElem?.2 ⟨x, ?_⟩
          rw [table_view_get _ _ _ x hlt, hfg]
          simp only
          rw [hg, hlen]
          rfl
        obtain ⟨v, hv⟩ := value_loop_key _ [] _ hslot
        have hyv : y = (mesh.n_elem + j, v) := by
          rcases hentry _ hv with ⟨x1, hx1, _, h1⟩ | ⟨j1, g1, hg1, h1⟩
          · have hk : mesh.n_elem + j = x1 := congrArg Prod.fst h1
            omega
          · have hk : mesh.n_elem + j = mesh.n_elem + j1 := congrArg Prod.fst h1
            have hjj : j = j1 := by omega
            subst hjj
            rw [hg] at hg1
            have hgg := Option.some.inj hg1
            subst hgg
            rw [← hycl, hclv, h1]
        rw [hyv]
        exact hv

theorem groups_valid_lt (mesh : Mesh) (gs : List (List Nat))
    (hv : groups_valid mesh gs = true) : ∀ g ∈ gs, ∀ x ∈ g, x < mesh.n_elem := by
  intro g hg x hx
  unfold groups_valid at hv
  rw [List.all_eq_true] at hv
  have h1 := hv g hg
  rw [List.all_eq_true] at h1
  have h2 := h1 x hx
  cases he : mesh.elem x with
  | none =>
    rw [he] at h2
    exact absurd h2 (by decide)
  | some e =>
    rw [elem_eq_some_iff] at he
    exact (List.getElem?_eq_some.1 he).1

/-- C26: after `_build_flat_cluster` and `_merge_elem_to_cluster` with groups of
existing elements, the cluster list is a list `pre` of clusters renumbered by
position, where `pre` is strictly ascending in the ids the clusters had before
the renumbering and every cluster of `pre` is the flat cluster of an active
element named in no group, with the element id as id, or the cluster of a
group, with the number of flat clusters plus the index of the group as id.  On
a mesh without inactive elements and NULL slots, with non-empty pairwise
disjoint groups, `pre` is the flat clusters of the elements named in no group
in ascending element order followed by the clusters of the groups in the order
of the groups. -/
theorem merge_renumbering_order (addr : Nat → Nat) (hinj : Function.Injective addr)
    (p : Partitioner) (mesh : Mesh) (gs : List (List Nat))
    (hv : groups_valid mesh gs = true) :
    ∃ pre : List Cluster,
      ((flat_store p mesh)._merge_elem_to_cluster addr mesh (some gs)).map
          Partitioner.cluster_list = some ((renumber_values 0 pre).map some) ∧
      pre.Pairwise (fun a b => a.id < b.id) ∧
      (∀ cl ∈ pre,
        (∃ x, x ∈ active_elements 0 mesh.elements ∧ named gs x = false ∧
            cl = flat_cluster x) ∨
          ∃ j g, gs[j]? = some g ∧
            cl = { id := (active_elements 0 mesh.elements).length + j, elems := g }) ∧
      ((∀ h, h < mesh.n_elem → ∃ e, mesh.elem h = some e ∧ e.active = true) →
        (∀ g ∈ gs, g ≠ []) → gs.Pairwise (fun a b => ∀ x ∈ a, x ∉ b) →
        pre = (unnamed_elements mesh gs).map flat_cluster ++
          merged_clusters mesh.n_elem 0 gs) := by
  refine ⟨(value_loop (table_view (active_elements 0 mesh.elements) mesh.n_elem gs) []).map
    Prod.snd, ?_, ?_, ?_, ?_⟩
  · rw [merge_cluster_list addr hinj, if_pos hv]
    rfl
  · rw [List.pairwise_map]
    refine List.Pairwise.imp_of_mem ?_ (value_loop_sorted _ [] List.Pairwise.nil)
    intro a b ha hb hab
    rcases value_loop_mem _ _ a ha with h | ⟨_, h2⟩
    · exact absurd h (List.not_mem_nil _)
    · rcases value_loop_mem _ _ b hb with h | ⟨_, h3⟩
      · exact absurd h (List.not_mem_nil _)
      · rw [h2, h3]
        exact hab
  · intro cl hcl
    obtain ⟨y, hy, hycl⟩ := List.mem_map.1 hcl
    rcases value_loop_mem _ _ y hy with h | ⟨h1, _⟩
    · exact absurd h (List.not_mem_nil _)
    · rw [hycl] at h1
      rcases mem_table_view _ _ _ _ h1 with ⟨x, hx, hfg, hxa, hc⟩ | ⟨x, j, g, _, _, hg, hc⟩
      · left
        refine ⟨x, hxa, ?_, hc⟩
        cases hn : named gs x with
        | false => rfl
        | true =>
          obtain ⟨g, hg, hxg⟩ := (named_iff gs x).1 hn
          exact absurd hxg ((first_group_none gs x).1 hfg g hg)
      · exact Or.inr ⟨j, g, hg, hc⟩
  · intro hall hne hdisj
    rw [dense_value_loop mesh gs hall (groups_valid_lt mesh gs hv) hne hdisj, List.map_map]
    exact List.map_id _

/-- Witness of C26: on the six-element chain with the groups `[0, 1]` and
`[2, 3]` the cluster list is `{4}, {5}, {0, 1}, {2, 3}` with the ids 0-3. -/
theorem merge_renumbering_order_witness :
    ((flat_store { } chain6)._merge_elem_to_cluster id chain6
        (some [[0, 1], [2, 3]])).map Partitioner.cluster_list =
      some [some { id := 0, elems := [4] }, some { id := 1, elems := [5] },
            some { id := 2, elems := [0, 1] }, some { id := 3, elems := [2, 3] }] := by
  obtain ⟨pre, h1, _, _, h4⟩ := merge_renumbering_order id (fun _ _ h => h) { } chain6
    [[0, 1], [2, 3]] (by decide)
  rw [h1, h4 chain6_all_active (by decide) (by decide)]
  decide

/-! ## Two calls of `partition` in a row -/

theorem set_cluster_processor_id_get_all (pid : Nat) (hs : List Nat) (l : List (Option Elem))
    (j : Nat) :
    (set_cluster_processor_id pid hs l)[j]? =
      (l[j]?).map (Option.map (write_pid (if hs.contains j then some pid else none))) := by
  cases hj : l[j]? with
  | none =>
    rw [set_cluster_processor_id_other pid hs l j none hj (fun e h => Option.noConfusion h)]
    rfl
  | some oe =>
    cases oe with
    | none =>
      rw [set_cluster_processor_id_other pid hs l j (some none) hj
        (fun e h => Option.noConfusion (Option.some.inj h))]
      rfl
    | some e =>
      rw [set_cluster_processor_id_get pid hs l j e hj]
      by_cases hm : j ∈ hs
      · have hc : hs.contains j = true := by simpa using hm
        rw [if_pos hm, if_pos hc]
        rfl
      · have hc : ¬ hs.contains j = true := by simpa using hm
        rw [if_neg hm, if_neg hc]
        rfl

theorem last_pid_cons (pids : Nat → Nat) (x k : Nat) (ocl : Option Cluster)
    (rest : List (Option Cluster)) :
    last_pid pids x k (ocl :: rest) =
      match last_pid pids x (k + 1) rest with
      | some q => some q
      | none =>
          match ocl with
          | some cl => if cl.elems.contains x then some (pids k) else none
          | none => none := rfl

theorem write_pid_write_pid (q1 q2 : Option Nat) (e : Elem) :
    write_pid q2 (write_pid q1 e) =
      write_pid (match q2 with
        | some v => some v
        | none => q1) e := by
  cases q2 <;> cases q1 <;> rfl

/-- The element in slot `x` after the loop of `propagate` is the element
before with the processor id written last. -/
theorem propagate_get (heap : List (Option Cluster)) (pids : Nat → Nat) (k : Nat)
    (cs : List Nat) (l : List (Option Elem)) (x : Nat) :
    (propagate heap pids k cs l)[x]? =
      (l[x]?).map (Option.map (write_pid (last_pid pids x k (cs.map (deref heap))))) := by
  induction cs generalizing k l with
  | nil =>
    rw [propagate]
    cases l[x]? with
    | none => rfl
    | some oe => cases oe <;> rfl
  | cons c rest ih =>
    rw [propagate, List.map_cons, last_pid_cons]
    cases hd : deref heap c with
    | none =>
      simp only
      rw [ih]
      cases last_pid pids x (k + 1) (rest.map (deref heap)) <;> rfl
    | some cl =>
      simp only
      rw [ih, set_cluster_processor_id_get_all]
      cases l[x]? with
      | none => rfl
      | some oe =>
        cases oe with
        | none => rfl
        | some e =>
          simp only [Option.map_some']
          rw [write_pid_write_pid]

theorem last_pid_none (pids : Nat → Nat) (k : Nat) (cls : List (Option Cluster)) (x : Nat) :
    last_pid pids x k cls = none ↔ ∀ cl, some cl ∈ cls → x ∉ cl.elems := by
  induction cls generalizing k with
  | nil => simp [last_pid]
  | cons ocl rest ih =>
    rw [last_pid_cons]
    cases hl : last_pid pids x (k + 1) rest with
    | some q =>
      simp only
      constructor
      · intro h
        exact Option.noConfusion h
      · intro h
        have := (ih (k + 1)).2 (fun cl hcl => h cl (List.mem_cons_of_mem _ hcl))
        rw [hl] at this
        exact Option.noConfusion this
    | none =>
      have hrest := (ih (k + 1)).1 hl
      simp only
      cases ocl with
      | none =>
        refine ⟨fun _ cl hcl => ?_, fun _ => rfl⟩
        rcases List.mem_cons.1 hcl with h | h
        · exact Option.noConfusion h
        · exact hrest cl h
      | some cl0 =>
        simp only
        by_cases hc : cl0.elems.contains x = true
        · rw [if_pos hc]
          constructor
          · intro h
            exact Option.noConfusion h
          · intro h
            exact absurd (by simpa using hc) (h cl0 (List.mem_cons_self _ _))
        · rw [if_neg hc]
          refine ⟨fun _ cl hcl => ?_, fun _ => rfl⟩
          rcases List.mem_cons.1 hcl with h | h
          · rw [Option.some.inj h]
            simpa using hc
          · exact hrest cl h

theorem last_pid_none_iff_assigned (pids : Nat → Nat) (k : Nat) (mesh : Mesh)
    (groups : Option (List (List Nat))) (x : Nat) :
    last_pid pids x k ((cluster_view mesh groups).map some) = none ↔
      x ∉ assigned mesh groups := by
  rw [last_pid_none]
  unfold assigned
  rw [List.mem_flatMap]
  constructor
  · rintro h ⟨cl, hcl, hx⟩
    exact h cl (List.mem_map.2 ⟨cl, hcl, rfl⟩) hx
  · intro h cl hcl hx
    obtain ⟨cl1, hcl1, heq⟩ := List.mem_map.1 hcl
    rw [Option.some.inj heq] at hcl1
    exact h ⟨cl, hcl1, hx⟩

/-- The cluster list after `_clear_cluster`, `_build_flat_cluster` and
`_merge_elem_to_cluster` is `cluster_view`, whatever the store before and the
addresses. -/
theorem merge_cluster_view (addr : Nat → Nat) (hinj : Function.Injective addr)
    (p : Partitioner) (mesh : Mesh) (groups : Option (List (List Nat))) (q : Partitioner)
    (hm : (flat_store p mesh)._merge_elem_to_cluster addr mesh groups = some q) :
    q.cluster_list = (cluster_view mesh groups).map some := by
  cases groups with
  | none =>
    have hq : flat_store p mesh = q := Option.some.inj hm
    rw [← hq, flat_store_cluster_list]
    unfold cluster_view
    rw [List.map_map]
    rfl
  | some gs =>
    have h := merge_cluster_list addr hinj p mesh gs
    rw [hm] at h
    by_cases hv : groups_valid mesh gs = true
    · rw [if_pos hv] at h
      exact Option.some.inj h
    · rw [if_neg hv] at h
      exact Option.noConfusion h

theorem merge_isSome_iff (addr : Nat → Nat) (p : Partitioner) (mesh : Mesh)
    (groups : Option (List (List Nat))) :
    (p._merge_elem_to_cluster addr mesh groups).isSome = groups_exist mesh groups := by
  cases groups with
  | none => rfl
  | some gs =>
    rw [merge_eq]
    show _ = groups_valid mesh gs
    cases groups_valid mesh gs <;> rfl

theorem topology_forget (e : Elem) : (forget_local e).topology = e.topology := rfl

theorem forget_write_pid (q : Option Nat) (e1 e2 : Elem)
    (h : forget_local e1 = forget_local e2) (hq : q = none → e1.processor_id = e2.processor_id) :
    forget_local (write_pid q e1) = forget_local (write_pid q e2) := by
  cases e1
  cases e2
  cases q <;> simp_all [forget_local, write_pid]

theorem option_elem_map_eq (f : Elem → Elem) (l1 l2 : List (Option Elem))
    (h : ∀ x : Nat, (l1[x]?).map (Option.map f) = (l2[x]?).map (Option.map f)) :
    l1.map (Option.map f) = l2.map (Option.map f) := by
  apply List.ext_getElem?
  intro x
  rw [List.getElem?_map, List.getElem?_map]
  exact h x

theorem elem_topology_congr (m1 m2 : Mesh)
    (h : m1.elements.map (Option.map Elem.topology) =
      m2.elements.map (Option.map Elem.topology)) :
    active_elements 0 m1.elements = active_elements 0 m2.elements ∧
      m1.n_elem = m2.n_elem ∧
      ∀ groups, groups_exist m1 groups = groups_exist m2 groups := by
  have hact : m1.elements.map (Option.map Elem.active) =
      m2.elements.map (Option.map Elem.active) := by
    have h1 := congrArg (List.map (Option.map Elem.active)) h
    rw [List.map_map, List.map_map] at h1
    have hf : (Option.map Elem.active ∘ Option.map Elem.topology) = Option.map Elem.active := by
      funext oe
      cases oe <;> rfl
    rw [hf] at h1
    exact h1
  have hlen : m1.n_elem = m2.n_elem := by
    have := congrArg List.length h
    simpa using this
  have hsome : ∀ i, (m1.elem i).isSome = (m2.elem i).isSome := by
    intro i
    have h1 := congrArg (fun l => l[i]?) h
    simp only [List.getElem?_map] at h1
    unfold Mesh.elem
    cases h1a : m1.elements[i]? with
    | none =>
      rw [h1a] at h1
      cases h2a : m2.elements[i]? with
      | none => rfl
      | some oe =>
        rw [h2a] at h1
        exact absurd h1 (by simp)
    | some oe1 =>
      rw [h1a] at h1
      cases h2a : m2.elements[i]? with
      | none =>
        rw [h2a] at h1
        exact absurd h1 (by simp)
      | some oe2 =>
        rw [h2a] at h1
        cases oe1 <;> cases oe2 <;> simp_all
  refine ⟨active_elements_congr 0 _ _ hact, hlen, ?_⟩
  intro groups
  cases groups with
  | none => rfl
  | some gs =>
    show groups_valid m1 gs = groups_valid m2 gs
    unfold groups_valid
    simp only [hsome]

/-- The elements after `_do_partition`, slot by slot. -/
theorem do_partition_get (strategy : Mesh → Partitioner → Nat → Nat → Nat)
    (q : Partitioner) (mesh : Mesh) (n x : Nat) :
    (q._do_partition strategy mesh n).elements[x]? =
      (mesh.elements[x]?).map
        (Option.map (write_pid (last_pid (strategy mesh q n) x 0 q.cluster_list))) := by
  unfold Partitioner._do_partition Partitioner.cluster_list
  exact propagate_get _ _ _ _ _ _

/-- The mesh after `partition`, in terms of the cluster list handed to the
strategy. -/
theorem partition_some (addr : Nat → Nat) (strategy : Mesh → Partitioner → Nat → Nat → Nat)
    (me : Nat) (p : Partitioner) (mesh : Mesh) (groups : Option (List (List Nat))) (n : Nat)
    (r : Partitioner × Mesh) (h : p.partition addr strategy me mesh groups n = some r) :
    ∃ q, (flat_store p { mesh with n_partitions := n })._merge_elem_to_cluster addr
        { mesh with n_partitions := n } groups = some q ∧
      r = (q._clear_cluster,
        _set_node_processor_ids me (q._do_partition strategy { mesh with n_partitions := n } n)) := by
  cases hm : (flat_store p { mesh with n_partitions := n })._merge_elem_to_cluster addr
      { mesh with n_partitions := n } groups with
  | none =>
    rw [partition_of_merge_none addr strategy me p mesh groups n hm] at h
    exact Option.noConfusion h
  | some q =>
    rw [partition_of_merge addr strategy me p mesh groups n q hm] at h
    exact ⟨q, rfl, (Option.some.inj h).symm⟩

/-- The mesh after `partition` for two starting states with the same topology:
the results agree when the elements the call does not assign carry the same
processor id in both. -/
theorem partition_congr (addr : Nat → Nat) (hinj : Function.Injective addr)
    (strategy : Mesh → Partitioner → Nat → Nat → Nat)
    (hstrat : ∀ (m1 m2 : Mesh) (q1 q2 : Partitioner) (n : Nat), m1.topology = m2.topology →
      q1.cluster_list = q2.cluster_list → strategy m1 q1 n = strategy m2 q2 n)
    (me : Nat) (p1 p2 : Partitioner) (mesh1 mesh2 : Mesh) (groups : Option (List (List Nat)))
    (n : Nat)
    (hforget : ∀ x, x ∉ assigned mesh2 groups →
      (mesh1.elements[x]?).map (Option.map forget_local) =
        (mesh2.elements[x]?).map (Option.map forget_local))
    (htopo : mesh1.topology = mesh2.topology) :
    (p1.partition addr strategy me mesh1 groups n).map Prod.snd =
      (p2.partition addr strategy me mesh2 groups n).map Prod.snd := by
  have htop1 : ({ mesh1 with n_partitions := n } : Mesh).topology =
      ({ mesh2 with n_partitions := n } : Mesh).topology := htopo
  have hel : mesh1.elements.map (Option.map Elem.topology) =
      mesh2.elements.map (Option.map Elem.topology) := congrArg Prod.fst htopo
  have hnodes : mesh1.nodes.length = mesh2.nodes.length := congrArg Prod.snd htopo
  obtain ⟨hact, hlen, hex⟩ := elem_topology_congr mesh1 mesh2 hel
  have hview : cluster_view mesh1 groups = cluster_view mesh2 groups := by
    unfold cluster_view
    rw [hact, hlen]
  cases hm2 : (flat_store p2 { mesh2 with n_partitions := n })._merge_elem_to_cluster addr
      { mesh2 with n_partitions := n } groups with
  | none =>
    have hm1 : (flat_store p1 { mesh1 with n_partitions := n })._merge_elem_to_cluster addr
        { mesh1 with n_partitions := n } groups = none := by
      have h2 := merge_isSome_iff addr (flat_store p2 { mesh2 with n_partitions := n })
        { mesh2 with n_partitions := n } groups
      have h1 := merge_isSome_iff addr (flat_store p1 { mesh1 with n_partitions := n })
        { mesh1 with n_partitions := n } groups
      have hex1 : groups_exist { mesh1 with n_partitions := n } groups =
          groups_exist { mesh2 with n_partitions := n } groups := by
        cases groups with
        | none => rfl
        | some gs => exact hex (some gs)
      rw [hm2, ← hex1] at h2
      rw [← h2] at h1
      cases hc : (flat_store p1 { mesh1 with n_partitions := n })._merge_elem_to_cluster addr
          { mesh1 with n_partitions := n } groups with
      | none => rfl
      | some q =>
        rw [hc] at h1
        exact absurd h1 (by simp)
    rw [partition_of_merge_none addr strategy me p1 mesh1 groups n hm1,
      partition_of_merge_none addr strategy me p2 mesh2 groups n hm2]
  | some q2 =>
    have hsome1 : ∃ q1, (flat_store p1 { mesh1 with n_partitions := n })._merge_elem_to_cluster
        addr { mesh1 with n_partitions := n } groups = some q1 := by
      apply merge_isSome
      have h2 := merge_isSome_iff addr (flat_store p2 { mesh2 with n_partitions := n })
        { mesh2 with n_partitions := n } groups
      rw [hm2] at h2
      cases groups with
      | none => rfl
      | some gs =>
        have := hex (some gs)
        show groups_exist mesh1 (some gs) = true
        rw [this]
        exact h2.symm
    obtain ⟨q1, hm1⟩ := hsome1
    have hcl1 : q1.cluster_list = (cluster_view mesh1 groups).map some :=
      merge_cluster_view addr hinj p1 { mesh1 with n_partitions := n } groups q1 hm1
    have hcl2 : q2.cluster_list = (cluster_view mesh2 groups).map some :=
      merge_cluster_view addr hinj p2 { mesh2 with n_partitions := n } groups q2 hm2
    have hcl : q1.cluster_list = q2.cluster_list := by rw [hcl1, hcl2, hview]
    have hpids : strategy { mesh1 with n_partitions := n } q1 n =
        strategy { mesh2 with n_partitions := n } q2 n := hstrat _ _ q1 q2 n htop1 hcl
    rw [partition_of_merge addr strategy me p1 mesh1 groups n q1 hm1,
      partition_of_merge addr strategy me p2 mesh2 groups n q2 hm2]
    simp only [Option.map_some']
    congr 1
    apply set_ids_congr
    · apply option_elem_map_eq
      intro x
      rw [do_partition_get, do_partition_get, hpids, hcl, hcl2]
      have ht := congrArg (fun l => l[x]?) hel
      simp only [List.getElem?_map] at ht
      cases h1 : mesh1.elements[x]? with
      | none =>
        rw [h1] at ht
        cases h2 : mesh2.elements[x]? with
        | none => rfl
        | some oe =>
          rw [h2] at ht
          exact absurd ht (by simp)
      | some oe1 =>
        rw [h1] at ht
        cases h2 : mesh2.elements[x]? with
        | none =>
          rw [h2] at ht
          exact absurd ht (by simp)
        | some oe2 =>
          rw [h2] at ht
          cases oe1 with
          | none =>
            cases oe2 with
            | none => rfl
            | some e2 => exact absurd ht (by simp)
          | some e1 =>
            cases oe2 with
            | none => exact absurd ht (by simp)
            | some e2 =>
              simp only [Option.map_some']
              have hte : e1.topology = e2.topology := by simpa using ht
              cases hq : last_pid (strategy { mesh2 with n_partitions := n } q2 n) x 0
                  ((cluster_view mesh2 groups).map some) with
              | some v =>
                cases e1
                cases e2
                simp_all [forget_local, write_pid, Elem.topology]
              | none =>
                have hna := (last_pid_none_iff_assigned _ 0 mesh2 groups x).1 hq
                have hf := hforget x hna
                rw [h1, h2] at hf
                simp only [Option.map_some'] at hf
                exact congrArg (fun o => some o) (Option.some.inj hf)
    · exact hnodes
    · rfl

/-- On a mesh without inactive elements and NULL slots every element is given
a processor id by `partition`, whatever the groups of existing elements. -/
theorem dense_assigned (mesh : Mesh) (groups : Option (List (List Nat)))
    (hall : ∀ h, h < mesh.n_elem → ∃ e, mesh.elem h = some e ∧ e.active = true)
    (x : Nat) (hx : x < mesh.n_elem) : x ∈ assigned mesh groups := by
  obtain ⟨e, he, ha⟩ := hall x hx
  have hxa : x ∈ active_elements 0 mesh.elements :=
    (mem_active_elements_mesh mesh x).2 ⟨e, he, ha⟩
  have hlen := dense_active_length mesh hall
  unfold assigned
  rw [List.mem_flatMap]
  cases groups with
  | none => exact ⟨flat_cluster x, List.mem_map.2 ⟨x, hxa, rfl⟩, List.mem_singleton.2 rfl⟩
  | some gs =>
    -- the cluster behind the table slot of `x`
    have hslot : ∃ cl0, some cl0 ∈
        table_view (active_elements 0 mesh.elements) mesh.n_elem gs ∧ x ∈ cl0.elems ∧
        ((cl0 = flat_cluster x) ∨ ∃ j g, gs[j]? = some g ∧
          cl0 = { id := mesh.n_elem + j, elems := g }) := by
      cases hfg : first_group gs x with
      | none =>
        refine ⟨flat_cluster x, List.mem_iff_getElem?.2 ⟨x, ?_⟩, List.mem_singleton.2 rfl,
          Or.inl rfl⟩
        rw [table_view_get _ _ _ x hx, hfg]
        have hc : (active_elements 0 mesh.elements).contains x = true := by simpa using hxa
        simp only
        rw [if_pos hc]
      | some j =>
        obtain ⟨g, hg, hxg⟩ := first_group_some gs x j hfg
        refine ⟨{ id := mesh.n_elem + j, elems := g }, List.mem_iff_getElem?.2 ⟨x, ?_⟩, hxg,
          Or.inr ⟨j, g, hg, rfl⟩⟩
        rw [table_view_get _ _ _ x hx, hfg]
        simp only
        rw [hg, hlen]
        rfl
    obtain ⟨cl0, hmem, hxcl, hshape⟩ := hslot
    obtain ⟨v, hv⟩ := value_loop_key _ [] _ hmem
    have hvcl : v = cl0 := by
      rcases value_loop_mem _ _ _ hv with h | ⟨h1, h2⟩
      · exact absurd h (List.not_mem_nil _)
      · have h2 : v.id = cl0.id := h2
        have h1 : some v ∈ table_view (active_elements 0 mesh.elements) mesh.n_elem gs := h1
        rcases mem_table_view _ _ _ _ h1 with ⟨x1, hx1, _, _, hc1⟩ | ⟨x1, j1, g1, _, _, hg1, hc1⟩
        · rcases hshape with hs | ⟨j, g, hg, hs⟩
          · rw [hc1, hs] at h2
            have : x1 = x := h2
            rw [hc1, hs, this]
          · rw [hc1, hs] at h2
            have : x1 = mesh.n_elem + j := h2
            omega
        · rw [hlen] at hc1
          rcases hshape with hs | ⟨j, g, hg, hs⟩
          · rw [hc1, hs] at h2
            have : mesh.n_elem + j1 = x := h2
            omega
          · rw [hc1, hs] at h2
            have hj : mesh.n_elem + j1 = mesh.n_elem + j := h2
            have hjj : j1 = j := by omega
            subst hjj
            rw [hg] at hg1
            rw [hc1, hs, Option.some.inj hg1]
    subst hvcl
    have hpre : v ∈ (value_loop
        (table_view (active_elements 0 mesh.elements) mesh.n_elem gs) []).map Prod.snd :=
      List.mem_map.2 ⟨_, hv, rfl⟩
    obtain ⟨k, hk⟩ := List.mem_iff_getElem?.1 hpre
    refine ⟨{ v with id := 0 + k }, List.mem_iff_getElem?.2 ⟨k, ?_⟩, hxcl⟩
    show (merge_view _ _ _)[k]? = _
    unfold merge_view
    rw [renumber_values_get, hk]
    rfl

/-- With groups of existing elements, every element given a processor id by
`partition` has its id below the element count. -/
theorem assigned_lt (mesh : Mesh) (groups : Option (List (List Nat)))
    (hv : groups_exist mesh groups = true) (x : Nat) (hx : x ∈ assigned mesh groups) :
    x < mesh.n_elem := by
  unfold assigned at hx
  obtain ⟨cl, hcl, hxcl⟩ := List.mem_flatMap.1 hx
  cases groups with
  | none =>
    obtain ⟨h, hh, hcl1⟩ := List.mem_map.1 hcl
    rw [← hcl1] at hxcl
    rw [List.mem_singleton.1 hxcl]
    exact active_elements_lt mesh h hh
  | some gs =>
    have hv1 : groups_valid mesh gs = true := hv
    obtain ⟨k, hk⟩ := List.mem_iff_getElem?.1 hcl
    have hk1 : (merge_view (active_elements 0 mesh.elements) mesh.n_elem gs)[k]? = some cl := hk
    unfold merge_view at hk1
    rw [renumber_values_get] at hk1
    cases hpre : ((value_loop (table_view (active_elements 0 mesh.elements) mesh.n_elem gs)
        []).map Prod.snd)[k]? with
    | none =>
      rw [hpre] at hk1
      exact Option.noConfusion hk1
    | some cl0 =>
      rw [hpre] at hk1
      have hel : cl.elems = cl0.elems := by
        rw [← Option.some.inj hk1]
      rw [hel] at hxcl
      obtain ⟨y, hy, hy2⟩ := List.mem_map.1 (List.mem_iff_getElem?.2 ⟨k, hpre⟩)
      rcases value_loop_mem _ _ y hy with h | ⟨h1, _⟩
      · exact absurd h (List.not_mem_nil _)
      · rw [hy2] at h1
        rcases mem_table_view _ _ _ _ h1 with ⟨x1, hx1, _, _, hc⟩ | ⟨x1, j, g, _, _, hg, hc⟩
        · rw [hc] at hxcl
          rw [List.mem_singleton.1 hxcl]
          exact hx1
        · rw [hc] at hxcl
          exact groups_valid_lt mesh gs hv1 g (List.mem_iff_getElem?.2 ⟨j, hg⟩) x hxcl

/-- On a mesh without inactive elements and NULL slots, every element given a
processor id by `partition` with groups of existing elements is given one by
`partition` with any other groups. -/
theorem dense_cover (mesh : Mesh) (g1 g2 : Option (List (List Nat)))
    (hall : ∀ h, h < mesh.n_elem → ∃ e, mesh.elem h = some e ∧ e.active = true)
    (hv : groups_exist mesh g1 = true) :
    ∀ x ∈ assigned mesh g1, x ∈ assigned mesh g2 :=
  fun x hx => dense_assigned mesh g2 hall x (assigned_lt mesh g1 hv x hx)

/-- C23, counterexample: on the refined chain the groups `[3]`, `[1]` of the
first call name the inactive element 1, which the call gives processor id 1;
the second call, without groups, assigns the active elements only, so element
1 ends with processor id 1, and with processor id 0 when the second call is
made alone. -/
theorem partition_twice_counterexample :
    ((({ } : Partitioner).partition id parity_strategy 0 refined_chain
          (some [[3], [1]]) 2).bind
        (fun r => r.1.partition id parity_strategy 0 r.2 none 2)).map
        (fun r => (r.2.elem 1).map Elem.processor_id) = some (some 1) ∧
      (({ } : Partitioner).partition id parity_strategy 0 refined_chain none 2).map
        (fun r => (r.2.elem 1).map Elem.processor_id) = some (some 0) := by
  decide

/-- C23, amended: let the strategy depend on the mesh only through what is
left of it when processor ids and locality flags are disregarded, and on the
store only through the cluster list.  If `partition` with the groups `g1` and
the count `n1` returns, and every element it assigns (every member of a cluster
of its cluster list) is also assigned by `partition` with the groups `g2`, then
`partition` with `g2` and `n2` run on the state left by the first call gives
the same mesh (element and node processor ids, locality flags, declared
partition count) as run on the initial state, and fails when that one
fails. -/
theorem partition_twice (addr : Nat → Nat) (hinj : Function.Injective addr)
    (strategy : Mesh → Partitioner → Nat → Nat → Nat)
    (hstrat : ∀ (m1 m2 : Mesh) (q1 q2 : Partitioner) (n : Nat), m1.topology = m2.topology →
      q1.cluster_list = q2.cluster_list → strategy m1 q1 n = strategy m2 q2 n)
    (me : Nat) (p : Partitioner) (mesh : Mesh) (g1 g2 : Option (List (List Nat)))
    (n1 n2 : Nat) (r1 : Partitioner × Mesh)
    (h1 : p.partition addr strategy me mesh g1 n1 = some r1)
    (hcover : ∀ x ∈ assigned mesh g1, x ∈ assigned mesh g2) :
    (r1.1.partition addr strategy me r1.2 g2 n2).map Prod.snd =
      (p.partition addr strategy me mesh g2 n2).map Prod.snd := by
  obtain ⟨q, hq, hr⟩ := partition_some addr strategy me p mesh g1 n1 r1 h1
  have hcl : q.cluster_list = (cluster_view mesh g1).map some :=
    merge_cluster_view addr hinj p { mesh with n_partitions := n1 } g1 q hq
  -- the elements left by the first call, up to the locality flags
  have hfirst : ∀ x, (r1.2.elements[x]?).map (Option.map forget_local) =
      ((mesh.elements[x]?).map (Option.map (write_pid
        (last_pid (strategy { mesh with n_partitions := n1 } q n1) x 0
          ((cluster_view mesh g1).map some))))).map (Option.map forget_local) := by
    intro x
    have := congrArg (fun l => l[x]?) (set_ids_forget me
      (q._do_partition strategy { mesh with n_partitions := n1 } n1))
    simp only [List.getElem?_map] at this
    rw [hr]
    show Option.map (Option.map forget_local)
      ((_set_node_processor_ids me
        (q._do_partition strategy { mesh with n_partitions := n1 } n1)).elements[x]?) = _
    rw [this, do_partition_get, hcl]
  apply partition_congr addr hinj strategy hstrat me
  · intro x hx
    rw [hfirst x]
    have hx1 : x ∉ assigned mesh g1 := fun h => hx (hcover x h)
    rw [(last_pid_none_iff_assigned _ 0 mesh g1 x).2 hx1]
    cases mesh.elements[x]? with
    | none => rfl
    | some oe => cases oe <;> rfl
  · apply Prod.ext
    · show r1.2.elements.map (Option.map Elem.topology) =
        mesh.elements.map (Option.map Elem.topology)
      apply option_elem_map_eq
      intro x
      have hx := congrArg (Option.map (Option.map Elem.topology)) (hfirst x)
      cases h2 : mesh.elements[x]? with
      | none =>
        rw [h2] at hx
        cases h3 : r1.2.elements[x]? with
        | none => rfl
        | some oe =>
          rw [h3] at hx
          exact absurd hx (by simp)
      | some oe2 =>
        rw [h2] at hx
        cases h3 : r1.2.elements[x]? with
        | none =>
          rw [h3] at hx
          exact absurd hx (by simp)
        | some oe3 =>
          rw [h3] at hx
          cases oe2 with
          | none =>
            cases oe3 with
            | none => rfl
            | some e3 => exact absurd hx (by simp)
          | some e2 =>
            cases oe3 with
            | none => exact absurd hx (by simp)
            | some e3 =>
              simp only [Option.map_some'] at hx
              have hx1 := Option.some.inj (Option.some.inj hx)
              simp only [Option.map_some']
              rw [← topology_forget e3, ← topology_forget e2]
              rw [show (forget_local e3).topology =
                (forget_local (write_pid (last_pid
                  (strategy { mesh with n_partitions := n1 } q n1) x 0
                  ((cluster_view mesh g1).map some)) e2)).topology from hx1]
              cases last_pid (strategy { mesh with n_partitions := n1 } q n1) x 0
                ((cluster_view mesh g1).map some) <;> rfl
    · show r1.2.nodes.length = mesh.nodes.length
      rw [hr]
      exact set_ids_nodes_length me _

/-- Witness of C23: the six-element chain, all of whose elements are active;
first call with the groups `[0, 1]`, `[2, 3]` and three partitions, second call
with the group `[4, 5]` and two partitions. -/
theorem partition_twice_witness :
    (chain6_merged_store._clear_cluster.partition id parity_strategy 1
        (_set_node_processor_ids 1
          (chain6_merged_store._do_partition parity_strategy
            { chain6 with n_partitions := 3 } 3)) (some [[4, 5]]) 2).map Prod.snd =
      (({ } : Partitioner).partition id parity_strategy 1 chain6 (some [[4, 5]]) 2).map
        Prod.snd :=
  partition_twice id (fun _ _ h => h) parity_strategy (fun _ _ _ _ _ _ _ => rfl) 1 { } chain6
    (some [[0, 1], [2, 3]]) (some [[4, 5]]) 3 2
    (chain6_merged_store._clear_cluster,
      _set_node_processor_ids 1
        (chain6_merged_store._do_partition parity_strategy { chain6 with n_partitions := 3 } 3))
    (by decide) (dense_cover chain6 _ _ chain6_all_active (by decide))

/-! ## `repartition` against `partition` -/

/-- C31: `partition` and `repartition` set the partition count, clear, build
the flat clusters and merge in the same way, so the store handed to the
strategy is the same store `q` for both; they fail together when the merge
step fails; each returns `q` cleared and the mesh after
`_set_node_processor_ids`, applied to what its own strategy entry point made
of the mesh.  Given one and the same function for both entry points they
return the same. -/
theorem repartition_same_staging (addr : Nat → Nat)
    (strategy restrategy : Mesh → Partitioner → Nat → Nat → Nat) (me : Nat)
    (p : Partitioner) (mesh : Mesh) (groups : Option (List (List Nat))) (n : Nat) :
    p.partition addr strategy me mesh groups n =
        ((flat_store p { mesh with n_partitions := n })._merge_elem_to_cluster addr
          { mesh with n_partitions := n } groups).map
          (fun q => (q._clear_cluster,
            _set_node_processor_ids me
              (q._do_partition strategy { mesh with n_partitions := n } n))) ∧
      p.repartition addr restrategy me mesh groups n =
        ((flat_store p { mesh with n_partitions := n })._merge_elem_to_cluster addr
          { mesh with n_partitions := n } groups).map
          (fun q => (q._clear_cluster,
            _set_node_processor_ids me
              (q._do_repartition restrategy { mesh with n_partitions := n } n))) ∧
      p.repartition addr strategy me mesh groups n =
        p.partition addr strategy me mesh groups n := by
  refine ⟨?_, ?_, rfl⟩
  · cases hm : (flat_store p { mesh with n_partitions := n })._merge_elem_to_cluster addr
        { mesh with n_partitions := n } groups with
    | none => exact partition_of_merge_none addr strategy me p mesh groups n hm
    | some q => exact partition_of_merge addr strategy me p mesh groups n q hm
  · cases hm : (flat_store p { mesh with n_partitions := n })._merge_elem_to_cluster addr
        { mesh with n_partitions := n } groups with
    | none => exact repartition_of_merge_none addr restrategy me p mesh groups n hm
    | some q => exact repartition_of_merge addr restrategy me p mesh groups n q hm

/-! ## What `_set_node_processor_ids` writes -/

/-- C33: `_set_node_processor_ids` keeps every element slot and, in every
element, everything but the locality flag, so each element has the processor
id it had before; the declared partition count is kept as well. -/
theorem set_node_ids_keeps_elem_ids (me : Nat) (mesh : Mesh) :
    (∀ h, ((_set_node_processor_ids me mesh).elem h).map Elem.processor_id =
        (mesh.elem h).map Elem.processor_id) ∧
      (_set_node_processor_ids me mesh).elements.map (Option.map forget_local) =
        mesh.elements.map (Option.map forget_local) ∧
      (_set_node_processor_ids me mesh).n_partitions = mesh.n_partitions := by
  refine ⟨?_, set_ids_forget me mesh, rfl⟩
  intro h
  cases he : mesh.elem h with
  | none =>
    cases he1 : (_set_node_processor_ids me mesh).elem h with
    | none => rfl
    | some e1 =>
      obtain ⟨e, he2, _⟩ := (set_ids_elem me mesh h e1).1 he1
      rw [he] at he2
      exact Option.noConfusion he2
  | some e =>
    rw [(set_ids_elem me mesh h _).2 ⟨e, he, rfl⟩]
    rfl

/-- A node with an incident element that carries the id of the running process
after the first loop is flagged local. -/
theorem goto_of_own_node (me : Nat) (mesh : Mesh) (h : Nat) (e : Elem)
    (he : mesh.elem h = some e) (v : Nat) (hv : v ∈ e.nodes) (nd : Node)
    (hn : (nodes_after_ids mesh)[v]? = some nd) (hp : nd.processor_id = me) :
    goto_on_local me (elems_after_ids mesh) (on_process_set me mesh) h e = true := by
  have hS : h ∈ on_process_set me mesh :=
    (mem_on_process_set me mesh h).2 ⟨e, he, v, nd, hv, hn, hp⟩
  unfold goto_on_local
  have hc : (on_process_set me mesh).contains h = true := by simpa using hS
  rw [hc]
  simp

/-- C34: for a process id `me` that is not the unassigned value, every node
that carries the processor id `me` after `_set_node_processor_ids` is flagged
local. -/
theorem own_nodes_are_local (me : Nat) (mesh : Mesh) (hme : me ≠ invalid_processor_id)
    (v : Nat) (nd : Node) (hv : (_set_node_processor_ids me mesh).nodes[v]? = some nd)
    (hp : nd.processor_id = me) : nd.on_local = true := by
  obtain ⟨nd0, h0, hpid, hloc⟩ := set_ids_node me mesh v nd hv
  obtain ⟨_, _, _, hcase⟩ := nodes_after_ids_spec mesh v nd0 h0
  rcases hcase with hinv | ⟨h, e, he, hve, _⟩
  · rw [hpid, hinv] at hp
    exact absurd hp.symm hme
  · exact hloc.2 ⟨h, e, he, hve, goto_of_own_node me mesh h e he v hve nd0 h0 (by rw [← hpid, hp])⟩

/-- Witness of C34: the six-element chain on process 1; the last node, node
6, belongs to the odd element 5 alone and carries processor id 1. -/
theorem own_nodes_are_local_witness :
    (_set_node_processor_ids 1 chain6).nodes[6]? =
        some { processor_id := 1, on_local := true } ∧
      ({ processor_id := 1, on_local := true } : Node).on_local = true :=
  ⟨by decide,
    own_nodes_are_local 1 chain6 (by decide) 6 { processor_id := 1, on_local := true }
      (by decide) rfl⟩

/-- C35: after `_set_node_processor_ids` a node is flagged local exactly when
it is a node of some element of the mesh that is flagged local. -/
theorem node_on_local_iff (me : Nat) (mesh : Mesh) (v : Nat) (nd : Node)
    (hv : (_set_node_processor_ids me mesh).nodes[v]? = some nd) :
    nd.on_local = true ↔
      ∃ h e, (_set_node_processor_ids me mesh).elem h = some e ∧ v ∈ e.nodes ∧
        e.on_local = true := by
  obtain ⟨nd0, _, _, hloc⟩ := set_ids_node me mesh v nd hv
  rw [hloc]
  constructor
  · rintro ⟨h, e, he, hve, hg⟩
    exact ⟨h, _, (set_ids_elem me mesh h _).2 ⟨e, he, rfl⟩, hve, hg⟩
  · rintro ⟨h, e1, he1, hve, hl⟩
    obtain ⟨e, he, heq⟩ := (set_ids_elem me mesh h e1).1 he1
    rw [heq] at hve hl
    exact ⟨h, e, he, hve, hl⟩

/-- Witness of C35: node 0 of the six-element chain on process 1; its only
element, element 0, is flagged local as a neighbour of element 1. -/
theorem node_on_local_iff_witness :
    (_set_node_processor_ids 1 chain6).nodes[0]? =
        some { processor_id := 0, on_local := true } ∧
      (({ processor_id := 0, on_local := true } : Node).on_local = true ↔
        ∃ h e, (_set_node_processor_ids 1 chain6).elem h = some e ∧ 0 ∈ e.nodes ∧
          e.on_local = true) :=
  ⟨by decide,
    node_on_local_iff 1 chain6 0 { processor_id := 0, on_local := true } (by decide)⟩

/-! ## `_set_node_processor_ids` on a mesh with a single partition -/

theorem all_on_zero_spec (mesh : Mesh) (h0 : mesh.all_on_zero = true) (h : Nat) (e : Elem)
    (he : mesh.elem h = some e) : e.processor_id = 0 := by
  unfold Mesh.all_on_zero at h0
  rw [List.all_eq_true] at h0
  have := h0 (some e) ((mem_elements_iff mesh e).2 ⟨h, he⟩)
  simpa using this

theorem nodes_covered_spec (mesh : Mesh) (hc : mesh.nodes_covered = true) (v : Nat)
    (hv : v < mesh.nodes.length) : mesh.has_incident_elem v := by
  unfold Mesh.nodes_covered at hc
  rw [List.all_eq_true] at hc
  have h1 := hc v (List.mem_range.2 hv)
  rw [List.any_eq_true] at h1
  obtain ⟨oe, hoe, hx⟩ := h1
  cases oe with
  | none => exact absurd hx (by simp)
  | some e =>
    obtain ⟨h, he⟩ := (mem_elements_iff mesh e).1 hoe
    exact ⟨h, e, he, by simpa using hx⟩

/-- C36: on a mesh whose elements all have processor id 0 and whose nodes all
belong to some element, `_set_node_processor_ids` run by process 0 gives the
mesh that `single_partition` gives: every element and node with processor id
0 and flagged local, everything else as before. -/
theorem set_node_ids_single_partition (p : Partitioner) (mesh : Mesh)
    (h0 : mesh.all_on_zero = true) (hc : mesh.nodes_covered = true) :
    _set_node_processor_ids 0 mesh = (p.single_partition mesh).2 := by
  have hel : (_set_node_processor_ids 0 mesh).elements =
      mesh.elements.map (Option.map single_elem) := by
    apply List.ext_getElem?
    intro h
    rw [List.getElem?_map]
    cases hm : mesh.elements[h]? with
    | none =>
      cases h1 : (_set_node_processor_ids 0 mesh).elements[h]? with
      | none => rfl
      | some oe =>
        have hlen := congrArg List.length (set_ids_forget 0 mesh)
        simp only [List.length_map] at hlen
        have := (List.getElem?_eq_some.1 h1).1
        have hn := List.getElem?_eq_none_iff.1 hm
        omega
    | some oe =>
      cases oe with
      | none =>
        have hf := congrArg (fun l => l[h]?) (set_ids_forget 0 mesh)
        simp only [List.getElem?_map, hm] at hf
        cases h1 : (_set_node_processor_ids 0 mesh).elements[h]? with
        | none =>
          rw [h1] at hf
          exact absurd hf (by simp)
        | some oe1 =>
          rw [h1] at hf
          cases oe1 with
          | none => rfl
          | some e1 => exact absurd hf (by simp)
      | some e =>
        have he : mesh.elem h = some e := (elem_eq_some_iff mesh h e).2 hm
        have hz := all_on_zero_spec mesh h0 h e he
        have hg : goto_on_local 0 (elems_after_ids mesh) (on_process_set 0 mesh) h e = true := by
          unfold goto_on_local
          rw [hz]
          simp
        have h1 := (set_ids_elem 0 mesh h _).2 ⟨e, he, rfl⟩
        rw [elem_eq_some_iff] at h1
        rw [h1, hg]
        simp only [Option.map_some']
        cases e
        simp_all [single_elem]
  have hnd : (_set_node_processor_ids 0 mesh).nodes = mesh.nodes.map single_node := by
    apply List.ext_getElem?
    intro v
    rw [List.getElem?_map]
    by_cases hv : v < mesh.nodes.length
    · have hv1 : v < (_set_node_processor_ids 0 mesh).nodes.length := by
        rw [set_ids_nodes_length]
        exact hv
      rw [List.getElem?_eq_getElem hv1, List.getElem?_eq_getElem hv]
      simp only [Option.map_some']
      have hget : (_set_node_processor_ids 0 mesh).nodes[v]? =
          some ((_set_node_processor_ids 0 mesh).nodes[v]) := List.getElem?_eq_getElem hv1
      obtain ⟨nd0, hnd0, hpid, hloc⟩ := set_ids_node 0 mesh v _ hget
      obtain ⟨h, e, he, hve⟩ := nodes_covered_spec mesh hc v hv
      obtain ⟨_, _, hle, _⟩ := nodes_after_ids_spec mesh v nd0 hnd0
      have hz := all_on_zero_spec mesh h0 h e he
      have hp0 : nd0.processor_id = 0 := by
        have := hle h e he hve
        omega
      have hl : ((_set_node_processor_ids 0 mesh).nodes[v]).on_local = true :=
        hloc.2 ⟨h, e, he, hve, goto_of_own_node 0 mesh h e he v hve nd0 hnd0 hp0⟩
      have hp : ((_set_node_processor_ids 0 mesh).nodes[v]).processor_id = 0 := by
        rw [hpid, hp0]
      cases hnode : (_set_node_processor_ids 0 mesh).nodes[v] with
      | mk pid loc =>
        rw [hnode] at hl hp
        simp only at hl hp
        rw [hl, hp]
        rfl
    · rw [List.getElem?_eq_none (by rw [set_ids_nodes_length]; omega),
        List.getElem?_eq_none (by omega)]
      rfl
  show _ = ({ mesh with
      elements := mesh.elements.map (Option.map single_elem),
      nodes := mesh.nodes.map single_node } : Mesh)
  rw [← hel, ← hnd]
  rfl

/-- Witness of C36: the six-element chain with every element on processor
0. -/
theorem set_node_ids_single_partition_witness :
    _set_node_processor_ids 0 chain6_zero = (({ } : Partitioner).single_partition chain6_zero).2 :=
  set_node_ids_single_partition { } chain6_zero (by decide) (by decide)

/-! ## Silicon band model -/

/-- C39: in exact arithmetic (any field, the reals among them) the total
recombination rate `Recomb` is the sum of `R_SHR`, `R_Direct` and `R_Auger`,
for all `p`, `n`, `Tl`, all coefficients and all values of `nie`, `TAUN`,
`TAUP`; where the denominator of the Shockley-Read-Hall term is not zero the
division of the field is the division of the code. -/
theorem recomb_is_sum_of_parts {K : Type} [Field K] (b : GSS_Si_BandStructure K)
    (p n Tl : K) :
    b.Recomb p n Tl = b.R_SHR p n Tl + b.R_Direct p n Tl + b.R_Auger p n Tl := by
  unfold GSS_Si_BandStructure.Recomb GSS_Si_BandStructure.R_SHR
    GSS_Si_BandStructure.R_Direct GSS_Si_BandStructure.R_Auger
  simp only
  ring

/-- The predefined species map in key order: the aliases, which start with a
capital letter, come before the lower-case names. -/
theorem species_map_keys :
    IncompleteIonization_Init.map Prod.fst =
      ["AluminumActive".toList, "AntimonyActive".toList, "ArsenicActive".toList,
       "BoronActive".toList, "GalliumActive".toList, "IndiumActive".toList,
       "NitrogenActive".toList, "PhosphorusActive".toList, "aluminum".toList,
       "antimony".toList, "arsenic".toList, "boron".toList, "gallium".toList,
       "indium".toList, "nitrogen".toList, "phosphorus".toList] := by
  decide

/-- A species name with its ion type is found by `IonType` in any mix of upper
and lower case. -/
theorem ion_type_of_lower (names : List (List Char)) (ion : Int)
    (hexact : ∀ kv ∈ IncompleteIonization_Init,
      kv.1.map Char.toLower ∈ names → kv.2.ion = ion)
    (hpart : ∀ name ∈ names, partly_match IncompleteIonization_Init name = ion)
    (s : List Char) (hs : s.map Char.toLower ∈ names) :
    IonType IncompleteIonization_Init s = ion := by
  unfold IonType
  simp only
  cases hf : species_find IncompleteIonization_Init s with
  | some sp =>
    simp only
    unfold species_find at hf
    cases hk : IncompleteIonization_Init.find? (fun kv => kv.1 == s) with
    | none =>
      rw [hk] at hf
      exact Option.noConfusion hf
    | some kv =>
      rw [hk] at hf
      have hsp : kv.2 = sp := Option.some.inj hf
      have hmem := List.mem_of_find?_eq_some hk
      have hkey : kv.1 = s := by
        have := List.find?_some hk
        simpa using this
      rw [← hsp]
      exact hexact kv hmem (by rw [hkey]; exact hs)
  | none => exact hpart _ hs

/-- C40: with the species map of `IncompleteIonization_Init`, `IonType`
returns -1 for every string whose lower-case form is `boron`, `aluminum`,
`gallium` or `indium`, and +1 for every string whose lower-case form is
`nitrogen`, `phosphorus`, `arsenic` or `antimony`. -/
theorem ion_type_case_insensitive (s : List Char) :
    (s.map Char.toLower ∈ p_type_names → IonType IncompleteIonization_Init s = -1) ∧
      (s.map Char.toLower ∈ n_type_names → IonType IncompleteIonization_Init s = 1) :=
  ⟨ion_type_of_lower p_type_names (-1) (by decide) (by decide) s,
    ion_type_of_lower n_type_names 1 (by decide) (by decide) s⟩

/-- Two evaluations of `IonType`: mixed case in, ion type out. -/
theorem ion_type_examples :
    IonType IncompleteIonization_Init "BoRoN".toList = -1 ∧
      IonType IncompleteIonization_Init "ARSENIC".toList = 1 ∧
      IonType IncompleteIonization_Init "oxygen".toList = 0 := by
  decide

/-! ## Cluster adjacency is symmetric -/

theorem neighbors_symmetric_spec (mesh : Mesh) (hsym : mesh.neighbors_symmetric = true)
    (a b : Nat) (ea : Elem) (ha : mesh.elem a = some ea) (hb : some b ∈ ea.neighbors) :
    ∃ eb, mesh.elem b = some eb ∧ some a ∈ eb.neighbors := by
  unfold Mesh.neighbors_symmetric at hsym
  rw [List.all_eq_true] at hsym
  have hlt : a < mesh.n_elem := by
    rw [elem_eq_some_iff] at ha
    exact (List.getElem?_eq_some.1 ha).1
  have h1 := hsym a (List.mem_range.2 hlt)
  rw [ha] at h1
  simp only at h1
  rw [List.all_eq_true] at h1
  have h2 := h1 (some b) hb
  simp only at h2
  cases hbe : mesh.elem b with
  | none =>
    rw [hbe] at h2
    exact absurd h2 (by simp)
  | some eb =>
    rw [hbe] at h2
    exact ⟨eb, rfl, by simpa using h2⟩

/-- One direction of the symmetry: a member of the second cluster returned for
the first gives a member of the first returned for the second. -/
theorem cluster_adjacency_one_way (p : Partitioner) (mesh : Mesh)
    (hsym : mesh.neighbors_symmetric = true) (hcons : p.consistent = true)
    (c1 c2 : Nat) (h1 : c1 ∈ p._clusters) (h2 : c2 ∈ p._clusters) (hne : c1 ≠ c2)
    (cl1 cl2 : Cluster) (hd1 : deref p.heap c1 = some cl1) (hd2 : deref p.heap c2 = some cl2)
    (r1 r2 : List Nat)
    (hr1 : ∀ x ∈ r1, is_face_neighbor mesh cl1 x ∧ x ∉ cl1.elems)
    (hr2 : ∀ x, is_face_neighbor mesh cl2 x → x ∉ cl2.elems →
      ∃ y ∈ r2, p.cluster_of y = p.cluster_of x)
    (hy : ∃ y ∈ r1, y ∈ cl2.elems) : ∃ y ∈ r2, y ∈ cl1.elems := by
  obtain ⟨y, hyr, hy2⟩ := hy
  obtain ⟨⟨h, hh, e, he, hnb⟩, _⟩ := hr1 y hyr
  obtain ⟨ey, hey, hback⟩ := neighbors_symmetric_spec mesh hsym h y e he hnb
  have hface : is_face_neighbor mesh cl2 h := ⟨y, hy2, ey, hey, hback⟩
  have hc1 : p.cluster_of h = some c1 := consistent_members p hcons c1 h1 cl1 hd1 h hh
  have hnot : h ∉ cl2.elems := by
    intro hin
    have hc2 := consistent_members p hcons c2 h2 cl2 hd2 h hin
    rw [hc1] at hc2
    exact hne (Option.some.inj hc2)
  obtain ⟨y1, hy1, hcl⟩ := hr2 h hface hnot
  rw [hc1] at hcl
  obtain ⟨_, cld, hcld, hmem⟩ := consistent_table p hcons y1 c1 hcl
  rw [hd1] at hcld
  rw [Option.some.inj hcld]
  exact ⟨y1, hy1, hmem⟩

/-- C38: on a mesh whose face neighbours are all active and whose face
adjacency is symmetric, for a store whose table and member lists agree and
two different clusters of its list, `cluster_neighbor_elem` returns for both,
and the list of the first holds a member of the second exactly when the list
of the second holds a member of the first. -/
theorem cluster_adjacency_symmetric (addr : Nat → Nat) (hinj : Function.Injective addr)
    (p : Partitioner) (mesh : Mesh) (hact : mesh.neighbors_active = true)
    (hsym : mesh.neighbors_symmetric = true) (hcons : p.consistent = true)
    (c1 c2 : Nat) (h1 : c1 ∈ p._clusters) (h2 : c2 ∈ p._clusters) (hne : c1 ≠ c2)
    (cl1 cl2 : Cluster) (hd1 : deref p.heap c1 = some cl1)
    (hd2 : deref p.heap c2 = some cl2) :
    ∃ r1 r2, p.cluster_neighbor_elem addr mesh cl1 = some r1 ∧
      p.cluster_neighbor_elem addr mesh cl2 = some r2 ∧
      ((∃ y ∈ r1, y ∈ cl2.elems) ↔ ∃ y ∈ r2, y ∈ cl1.elems) := by
  obtain ⟨r1, e1, s1, t1⟩ := cluster_neighbor_elem_active addr hinj p mesh hact cl1
  obtain ⟨r2, e2, s2, t2⟩ := cluster_neighbor_elem_active addr hinj p mesh hact cl2
  exact ⟨r1, r2, e1, e2,
    cluster_adjacency_one_way p mesh hsym hcons c1 c2 h1 h2 hne cl1 cl2 hd1 hd2 r1 r2 s1 t2,
    cluster_adjacency_one_way p mesh hsym hcons c2 c1 h2 h1 (fun h => hne h.symm) cl2 cl1
      hd2 hd1 r2 r1 s2 t1⟩

/-- Witness of C38: the six-element chain with the merged clusters `{0, 1}`
(at address 6) and `{2, 3}` (at address 7). -/
theorem cluster_adjacency_symmetric_witness :
    chain6.neighbors_active = true ∧ chain6.neighbors_symmetric = true ∧
      chain6_merged_store.consistent = true ∧
      ∃ r1 r2,
        chain6_merged_store.cluster_neighbor_elem id chain6 { id := 2, elems := [0, 1] } =
          some r1 ∧
        chain6_merged_store.cluster_neighbor_elem id chain6 { id := 3, elems := [2, 3] } =
          some r2 ∧
        ((∃ y ∈ r1, y ∈ [2, 3]) ↔ ∃ y ∈ r2, y ∈ [0, 1]) :=
  ⟨by decide, by decide, by decide,
    cluster_adjacency_symmetric id (fun _ _ h => h) chain6_merged_store chain6 (by decide)
      (by decide) (by decide) 6 7 (by decide) (by decide) (by decide)
      { id := 2, elems := [0, 1] } { id := 3, elems := [2, 3] } (by decide) (by decide)⟩

/-! ## Table and list after the merge step on a mesh without inactive elements -/

/-- On a mesh without inactive elements and NULL slots, with pairwise disjoint
groups of existing elements, the table slot of every element after the
replacement loop points to a live cluster that holds the element: its flat
cluster when it is named in no group, the cluster of its group otherwise. -/
theorem dense_table_entry (addr : Nat → Nat) (hinj : Function.Injective addr)
    (p : Partitioner) (mesh : Mesh) (gs : List (List Nat))
    (hall : ∀ h, h < mesh.n_elem → ∃ e, mesh.elem h = some e ∧ e.active = true)
    (x : Nat) (hx : x < mesh.n_elem) :
    ∃ c cl, (replaced addr (flat_store p mesh) gs).2[x]? = some (some c) ∧
      deref (replaced addr (flat_store p mesh) gs).1 c = some cl ∧ x ∈ cl.elems ∧
      ((first_group gs x = none ∧ cl = flat_cluster x) ∨
        ∃ j g, first_group gs x = some j ∧ gs[j]? = some g ∧
          c = (flat_store p mesh).heap.length + j ∧
          cl = { id := mesh.n_elem + j, elems := g }) := by
  have hK : (flat_store p mesh)._clusters.length = mesh.n_elem := by
    rw [flat_store_clusters, List.length_range', dense_active_length mesh hall]
  cases hfg : first_group gs x with
  | none =>
    obtain ⟨e, he, ha⟩ := hall x hx
    obtain ⟨c0, h1, h2⟩ := replaced_unnamed addr p mesh gs x e he ha
      ((first_group_none gs x).1 hfg)
    exact ⟨c0, flat_cluster x, h1, h2, List.mem_singleton.2 rfl, Or.inl ⟨rfl, rfl⟩⟩
  | some j =>
    obtain ⟨g, hg, h1, h2⟩ := replaced_named_first addr hinj p mesh gs x hx j hfg
    obtain ⟨g1, hg1, hxg⟩ := first_group_some gs x j hfg
    rw [hg] at hg1
    rw [← Option.some.inj hg1] at hxg
    rw [hK] at h2
    exact ⟨_, _, h1, h2, hxg, Or.inr ⟨j, g, rfl, hg, rfl, rfl⟩⟩

/-- C37: on a mesh without inactive elements and NULL slots, with pairwise
disjoint groups of existing elements, the store after `_build_flat_cluster`
and `_merge_elem_to_cluster` has a table and a list that agree: every
non-NULL table entry is a cluster of the list and that cluster holds the
element of the slot, and every member of a cluster of the list is mapped by
the table to that cluster. -/
theorem merge_table_list_agree (addr : Nat → Nat) (hinj : Function.Injective addr)
    (p : Partitioner) (mesh : Mesh) (gs : List (List Nat))
    (hall : ∀ h, h < mesh.n_elem → ∃ e, mesh.elem h = some e ∧ e.active = true)
    (hvalid : ∀ g ∈ gs, ∀ x ∈ g, x < mesh.n_elem)
    (hdisj : gs.Pairwise (fun a b => ∀ x ∈ a, x ∉ b)) :
    ∃ q, (flat_store p mesh)._merge_elem_to_cluster addr mesh (some gs) = some q ∧
      (∀ x c, q._elem_cluster_map[x]? = some (some c) →
        c ∈ q._clusters ∧ ∃ cl, deref q.heap c = some cl ∧ x ∈ cl.elems) ∧
      ∀ c ∈ q._clusters, ∀ cl, deref q.heap c = some cl →
        ∀ e ∈ cl.elems, q._elem_cluster_map[e]? = some (some c) := by
  have hlen : (replaced addr (flat_store p mesh) gs).2.length = mesh.n_elem := by
    unfold replaced
    rw [replace_pairs_table_length, flat_store_table_length]
  -- the elements of a cluster are not changed by the renumbering
  have helems : ∀ c cl, deref (replaced addr (flat_store p mesh) gs).1 c = some cl →
      ∃ cl1, deref (rebuild (replaced addr (flat_store p mesh) gs).1
          (replaced addr (flat_store p mesh) gs).2).heap c = some cl1 ∧
        cl1.elems = cl.elems := by
    intro c cl hc
    have h := renumber_loop_elems 0
      ((cluster_map_loop (replaced addr (flat_store p mesh) gs).1
        (replaced addr (flat_store p mesh) gs).2 []).map Prod.snd)
      (replaced addr (flat_store p mesh) gs).1 c
    rw [hc] at h
    cases hq : deref (rebuild (replaced addr (flat_store p mesh) gs).1
        (replaced addr (flat_store p mesh) gs).2).heap c with
    | none =>
      unfold rebuild at hq
      simp only at hq
      rw [hq] at h
      exact absurd h (by simp)
    | some cl1 =>
      unfold rebuild at hq
      simp only at hq
      rw [hq] at h
      exact ⟨cl1, rfl, by simpa using h⟩
  have helems_back : ∀ c cl1, deref (rebuild (replaced addr (flat_store p mesh) gs).1
        (replaced addr (flat_store p mesh) gs).2).heap c = some cl1 →
      ∃ cl, deref (replaced addr (flat_store p mesh) gs).1 c = some cl ∧
        cl1.elems = cl.elems := by
    intro c cl1 hc
    have h := renumber_loop_elems 0
      ((cluster_map_loop (replaced addr (flat_store p mesh) gs).1
        (replaced addr (flat_store p mesh) gs).2 []).map Prod.snd)
      (replaced addr (flat_store p mesh) gs).1 c
    unfold rebuild at hc
    simp only at hc
    rw [hc] at h
    cases hq : deref (replaced addr (flat_store p mesh) gs).1 c with
    | none =>
      rw [hq] at h
      exact absurd h (by simp)
    | some cl =>
      rw [hq] at h
      exact ⟨cl, rfl, by simpa using h⟩
  -- a table entry is determined by the id of its cluster
  have hunique : ∀ (x i c c1 : Nat) (cl cl1 : Cluster),
      (replaced addr (flat_store p mesh) gs).2[x]? = some (some c) →
      (replaced addr (flat_store p mesh) gs).2[i]? = some (some c1) →
      deref (replaced addr (flat_store p mesh) gs).1 c = some cl →
      deref (replaced addr (flat_store p mesh) gs).1 c1 = some cl1 →
      cl.id = cl1.id → c = c1 := by
    intro x i c c1 cl cl1 hx hi hc hc1 hid
    have hxlt : x < mesh.n_elem := by
      rw [← hlen]
      exact (List.getElem?_eq_some.1 hx).1
    have hilt : i < mesh.n_elem := by
      rw [← hlen]
      exact (List.getElem?_eq_some.1 hi).1
    obtain ⟨cx, clx, hx1, hx2, _, hx3⟩ := dense_table_entry addr hinj p mesh gs hall x hxlt
    obtain ⟨ci, cli, hi1, hi2, _, hi3⟩ := dense_table_entry addr hinj p mesh gs hall i hilt
    rw [hx] at hx1
    rw [hi] at hi1
    have e1 : c = cx := Option.some.inj (Option.some.inj hx1)
    have e2 : c1 = ci := Option.some.inj (Option.some.inj hi1)
    subst e1
    subst e2
    rw [hc] at hx2
    rw [hc1] at hi2
    have e3 : cl = clx := Option.some.inj hx2
    have e4 : cl1 = cli := Option.some.inj hi2
    subst e3
    subst e4
    rcases hx3 with ⟨_, hfx⟩ | ⟨j, g, _, _, hcj, hfx⟩
    · rcases hi3 with ⟨_, hfi⟩ | ⟨j1, g1, _, _, _, hfi⟩
      · rw [hfx, hfi] at hid
        have hxi : x = i := hid
        subst hxi
        rw [hx] at hi
        exact Option.some.inj (Option.some.inj hi)
      · rw [hfx, hfi] at hid
        have hxi : x = mesh.n_elem + j1 := hid
        omega
    · rcases hi3 with ⟨_, hfi⟩ | ⟨j1, g1, _, _, hcj1, hfi⟩
      · rw [hfx, hfi] at hid
        have hxi : mesh.n_elem + j = i := hid
        omega
      · rw [hfx, hfi] at hid
        have hjj : mesh.n_elem + j = mesh.n_elem + j1 := hid
        rw [hcj, hcj1]
        omega
  refine ⟨rebuild (replaced addr (flat_store p mesh) gs).1
    (replaced addr (flat_store p mesh) gs).2, ?_, ?_, ?_⟩
  · rw [merge_eq_replaced, if_pos (dense_groups_valid mesh gs hall hvalid)]
  · intro x c hx
    have hx : (replaced addr (flat_store p mesh) gs).2[x]? = some (some c) := hx
    have hxlt : x < mesh.n_elem := by
      rw [← hlen]
      exact (List.getElem?_eq_some.1 hx).1
    obtain ⟨cx, cl, hx1, hx2, hx3, _⟩ := dense_table_entry addr hinj p mesh gs hall x hxlt
    rw [hx] at hx1
    have e1 : c = cx := Option.some.inj (Option.some.inj hx1)
    subst e1
    obtain ⟨c1, hc1⟩ := cluster_map_loop_key (replaced addr (flat_store p mesh) gs).1
      (replaced addr (flat_store p mesh) gs).2 [] x c cl hx hx2
    rcases cluster_map_loop_mem _ _ _ _ hc1 with h | ⟨i, cl1, hi, hd, hid⟩
    · exact absurd h (List.not_mem_nil _)
    · have hcc : c = c1 := hunique x i c c1 cl cl1 hx hi hx2 hd hid.symm
      obtain ⟨cl2, hq, hel⟩ := helems c cl hx2
      refine ⟨?_, cl2, hq, by rw [hel]; exact hx3⟩
      show c ∈ (cluster_map_loop _ _ []).map Prod.snd
      rw [hcc]
      exact List.mem_map.2 ⟨_, hc1, rfl⟩
  · intro c hc cl1 hq e he
    show (replaced addr (flat_store p mesh) gs).2[e]? = some (some c)
    have hc : c ∈ (cluster_map_loop (replaced addr (flat_store p mesh) gs).1
        (replaced addr (flat_store p mesh) gs).2 []).map Prod.snd := hc
    obtain ⟨kc, hkc, hkc2⟩ := List.mem_map.1 hc
    rcases cluster_map_loop_mem _ _ _ _ hkc with h | ⟨i, cl, hi, hd, _⟩
    · exact absurd h (List.not_mem_nil _)
    · rw [hkc2] at hi hd
      obtain ⟨cl0, hd0, hel⟩ := helems_back c cl1 hq
      rw [hd] at hd0
      have e0 : cl = cl0 := Option.some.inj hd0
      subst e0
      rw [hel] at he
      have hilt : i < mesh.n_elem := by
        rw [← hlen]
        exact (List.getElem?_eq_some.1 hi).1
      obtain ⟨ci, cli, hi1, hi2, _, hi3⟩ := dense_table_entry addr hinj p mesh gs hall i hilt
      rw [hi] at hi1
      have e1 : c = ci := Option.some.inj (Option.some.inj hi1)
      subst e1
      rw [hd] at hi2
      have e2 : cl = cli := Option.some.inj hi2
      subst e2
      rcases hi3 with ⟨_, hf⟩ | ⟨j, g, _, hg, hcj, hf⟩
      · rw [hf] at he
        rw [List.mem_singleton.1 he]
        exact hi
      · rw [hf] at he
        have he : e ∈ g := he
        have hgmem : g ∈ gs := List.mem_iff_getElem?.2 ⟨j, hg⟩
        have helt : e < mesh.n_elem := hvalid g hgmem e he
        have hfg : first_group gs e = some j := by
          cases hfe : first_group gs e with
          | none => exact absurd he ((first_group_none gs e).1 hfe g hgmem)
          | some j1 =>
            obtain ⟨g1, hg1, heg1⟩ := first_group_some gs e j1 hfe
            rw [disjoint_groups_index gs hdisj j1 j g1 g hg1 hg e heg1 he]
        obtain ⟨_, _, h1, _⟩ := replaced_named_first addr hinj p mesh gs e helt j hfg
        rw [h1, hcj]

/-- Witness of C37: the six-element chain with the groups `[0, 1]` and
`[2, 3]`. -/
theorem merge_table_list_agree_witness :
    ∃ q, (flat_store { } chain6)._merge_elem_to_cluster id chain6
        (some [[0, 1], [2, 3]]) = some q ∧
      (∀ x c, q._elem_cluster_map[x]? = some (some c) →
        c ∈ q._clusters ∧ ∃ cl, deref q.heap c = some cl ∧ x ∈ cl.elems) ∧
      ∀ c ∈ q._clusters, ∀ cl, deref q.heap c = some cl →
        ∀ e ∈ cl.elems, q._elem_cluster_map[e]? = some (some c) :=
  merge_table_list_agree id (fun _ _ h => h) { } chain6 [[0, 1], [2, 3]] chain6_all_active
    (by decide) (by decide)

/-! ## The candidates of `cluster_neighbor_elem` on a refined mesh -/

theorem insert_children_mem (addr : Nat → Nat) (hinj : Function.Injective addr)
    (mesh : Mesh) (h ns : Nat) (children : List Nat) (acc : List (Nat × Nat))
    (hok : set_ok addr acc) (y : Nat) :
    y ∈ (insert_children addr mesh h ns children acc).map Prod.snd ↔
      y ∈ acc.map Prod.snd ∨
        (y ∈ children ∧ ∃ ce, mesh.elem y = some ce ∧ ce.neighbors[ns]? = some (some h)) := by
  induction children generalizing acc with
  | nil =>
    rw [insert_children]
    simp
  | cons child rest ih =>
    rw [insert_children]
    cases hce : mesh.elem child with
    | none =>
      simp only
      rw [ih acc hok]
      constructor
      · rintro (h1 | ⟨h1, h2⟩)
        · exact Or.inl h1
        · exact Or.inr ⟨List.mem_cons_of_mem _ h1, h2⟩
      · rintro (h1 | ⟨h1, ce, h2, h3⟩)
        · exact Or.inl h1
        · rcases List.mem_cons.1 h1 with h4 | h4
          · rw [h4, hce] at h2
            exact Option.noConfusion h2
          · exact Or.inr ⟨h4, ce, h2, h3⟩
    | some ce0 =>
      simp only
      by_cases hside : ce0.neighbors[ns]? = some (some h)
      · rw [if_pos hside, ih _ (set_insert_ok addr child acc hok),
          mem_set_insert addr hinj acc hok]
        constructor
        · rintro ((h1 | h1) | ⟨h1, h2⟩)
          · exact Or.inl h1
          · exact Or.inr ⟨by rw [h1]; exact List.mem_cons_self _ _, ce0, by rw [h1]; exact hce,
              hside⟩
          · exact Or.inr ⟨List.mem_cons_of_mem _ h1, h2⟩
        · rintro (h1 | ⟨h1, h2⟩)
          · exact Or.inl (Or.inl h1)
          · rcases List.mem_cons.1 h1 with h4 | h4
            · exact Or.inl (Or.inr h4)
            · exact Or.inr ⟨h4, h2⟩
      · rw [if_neg hside, ih acc hok]
        constructor
        · rintro (h1 | ⟨h1, h2⟩)
          · exact Or.inl h1
          · exact Or.inr ⟨List.mem_cons_of_mem _ h1, h2⟩
        · rintro (h1 | ⟨h1, ce, h2, h3⟩)
          · exact Or.inl h1
          · rcases List.mem_cons.1 h1 with h4 | h4
            · rw [h4, hce] at h2
              rw [← Option.some.inj h2] at h3
              exact absurd h3 hside
            · exact Or.inr ⟨h4, ce, h2, h3⟩

/-- The loop over the sides of a member: when it does not fail, it adds for
every neighbour that is not a member the candidates that neighbour
contributes. -/
theorem neighbor_loop_spec (addr : Nat → Nat) (hinj : Function.Injective addr)
    (mesh : Mesh) (cluster_elem : List (Nat × Nat)) (elems : List Nat)
    (hce : ∀ nb, set_contains addr nb cluster_elem = true ↔ nb ∈ elems)
    (h : Nat) (nbs : List (Option Nat)) (acc acc1 : List (Nat × Nat))
    (hr : neighbor_loop addr mesh cluster_elem h nbs acc = some acc1)
    (hok : set_ok addr acc) (y : Nat) :
    y ∈ acc1.map Prod.snd ↔
      y ∈ acc.map Prod.snd ∨
        ∃ nb, some nb ∈ nbs ∧ nb ∉ elems ∧ candidate_of mesh h nb y := by
  induction nbs generalizing acc with
  | nil =>
    rw [neighbor_loop] at hr
    rw [← Option.some.inj hr]
    simp
  | cons o rest ih =>
    cases o with
    | none =>
      rw [neighbor_loop] at hr
      rw [ih acc hr hok]
      simp
    | some nb =>
      rw [neighbor_loop] at hr
      -- the contribution of the first neighbour, split off
      have hsplit : ∀ P : Prop,
          (P ↔ (nb ∉ elems ∧ candidate_of mesh h nb y)) →
          ((y ∈ acc.map Prod.snd ∨ P) ∨
              (∃ nb1, some nb1 ∈ rest ∧ nb1 ∉ elems ∧ candidate_of mesh h nb1 y) ↔
            y ∈ acc.map Prod.snd ∨
              ∃ nb1, some nb1 ∈ some nb :: rest ∧ nb1 ∉ elems ∧
                candidate_of mesh h nb1 y) := by
        intro P hP
        constructor
        · rintro ((h1 | h1) | ⟨nb1, h2, h3, h4⟩)
          · exact Or.inl h1
          · exact Or.inr ⟨nb, List.mem_cons_self _ _, (hP.1 h1).1, (hP.1 h1).2⟩
          · exact Or.inr ⟨nb1, List.mem_cons_of_mem _ h2, h3, h4⟩
        · rintro (h1 | ⟨nb1, h2, h3, h4⟩)
          · exact Or.inl (Or.inl h1)
          · rcases List.mem_cons.1 h2 with h5 | h5
            · have : nb1 = nb := Option.some.inj h5
              subst this
              exact Or.inl (Or.inr (hP.2 ⟨h3, h4⟩))
            · exact Or.inr ⟨nb1, h5, h3, h4⟩
      by_cases hin : set_contains addr nb cluster_elem = true
      · rw [if_pos hin] at hr
        rw [ih acc hr hok]
        have := hsplit False ⟨fun hf => hf.elim, fun hc => hc.1 ((hce nb).1 hin)⟩
        simpa using this
      · rw [if_neg hin] at hr
        have hnot : nb ∉ elems := fun hc => hin ((hce nb).2 hc)
        cases hne : mesh.elem nb with
        | none =>
          rw [hne] at hr
          simp only at hr
          rw [ih acc hr hok]
          have := hsplit False ⟨fun hf => hf.elim, fun hc => by
            obtain ⟨ne, h1, _⟩ := hc.2
            rw [hne] at h1
            exact Option.noConfusion h1⟩
          simpa using this
        | some ne =>
          rw [hne] at hr
          simp only at hr
          by_cases ha : ne.active = true
          · rw [if_pos ha] at hr
            rw [ih _ hr (set_insert_ok addr nb acc hok), mem_set_insert addr hinj acc hok]
            apply hsplit (y = nb)
            constructor
            · intro hy
              exact ⟨hnot, ne, hne, Or.inl ⟨ha, hy⟩⟩
            · rintro ⟨_, ne1, h1, h2⟩
              rw [hne] at h1
              rw [← Option.some.inj h1] at h2
              rcases h2 with ⟨_, h3⟩ | ⟨h3, _⟩
              · exact h3
              · rw [ha] at h3
                exact absurd h3 (by decide)
          · rw [if_neg ha] at hr
            cases hw : which_neighbor_am_i ne h with
            | none =>
              rw [hw] at hr
              exact absurd hr (by simp)
            | some ns =>
              rw [hw] at hr
              simp only at hr
              rw [ih _ hr (insert_children_ok addr mesh h ns _ acc hok),
                insert_children_mem addr hinj mesh h ns _ acc hok]
              apply hsplit
              constructor
              · rintro ⟨h1, h2⟩
                refine ⟨hnot, ne, hne, Or.inr ⟨?_, ns, hw, h1, h2⟩⟩
                cases hb : ne.active with
                | false => rfl
                | true => exact absurd hb ha
              · rintro ⟨_, ne1, h1, h2⟩
                rw [hne] at h1
                rw [← Option.some.inj h1] at h2
                rcases h2 with ⟨h3, _⟩ | ⟨_, ns1, h4, h5, h6⟩
                · exact absurd h3 ha
                · rw [hw] at h4
                  rw [← Option.some.inj h4] at h6
                  exact ⟨h5, h6⟩

/-- The loop over the members of the cluster: when it does not fail, it
collects the candidates contributed by the neighbours of the members that are
not members themselves. -/
theorem member_loop_spec (addr : Nat → Nat) (hinj : Function.Injective addr)
    (mesh : Mesh) (cluster_elem : List (Nat × Nat)) (elems : List Nat)
    (hce : ∀ nb, set_contains addr nb cluster_elem = true ↔ nb ∈ elems)
    (hs : List Nat) (acc acc1 : List (Nat × Nat))
    (hr : member_loop addr mesh cluster_elem hs acc = some acc1)
    (hok : set_ok addr acc) (y : Nat) :
    y ∈ acc1.map Prod.snd ↔
      y ∈ acc.map Prod.snd ∨
        ∃ h ∈ hs, ∃ e, mesh.elem h = some e ∧
          ∃ nb, some nb ∈ e.neighbors ∧ nb ∉ elems ∧ candidate_of mesh h nb y := by
  induction hs generalizing acc with
  | nil =>
    rw [member_loop] at hr
    rw [← Option.some.inj hr]
    simp
  | cons h rest ih =>
    rw [member_loop] at hr
    cases he : mesh.elem h with
    | none =>
      rw [he] at hr
      simp only at hr
      rw [ih acc hr hok]
      constructor
      · rintro (h1 | ⟨h2, h3, h4⟩)
        · exact Or.inl h1
        · exact Or.inr ⟨h2, List.mem_cons_of_mem _ h3, h4⟩
      · rintro (h1 | ⟨h2, h3, e, h4, h5⟩)
        · exact Or.inl h1
        · rcases List.mem_cons.1 h3 with h6 | h6
          · rw [h6, he] at h4
            exact Option.noConfusion h4
          · exact Or.inr ⟨h2, h6, e, h4, h5⟩
    | some e =>
      rw [he] at hr
      simp only at hr
      cases hn : neighbor_loop addr mesh cluster_elem h e.neighbors acc with
      | none =>
        rw [hn] at hr
        exact absurd hr (by simp)
      | some acc2 =>
        rw [hn] at hr
        simp only at hr
        rw [ih acc2 hr (neighbor_loop_ok addr mesh cluster_elem h _ acc acc2 hn hok),
          neighbor_loop_spec addr hinj mesh cluster_elem elems hce h e.neighbors acc acc2 hn hok]
        constructor
        · rintro ((h1 | h1) | ⟨h2, h3, h4⟩)
          · exact Or.inl h1
          · exact Or.inr ⟨h, List.mem_cons_self _ _, e, he, h1⟩
          · exact Or.inr ⟨h2, List.mem_cons_of_mem _ h3, h4⟩
        · rintro (h1 | ⟨h2, h3, e1, h4, h5⟩)
          · exact Or.inl (Or.inl h1)
          · rcases List.mem_cons.1 h3 with h6 | h6
            · subst h6
              rw [he] at h4
              rw [← Option.some.inj h4] at h5
              exact Or.inl (Or.inr h5)
            · exact Or.inr ⟨h2, h6, e1, h4, h5⟩

/-- C32: when `cluster_neighbor_elem` returns, the set `cluster_neighbor` it
has built holds exactly the candidates contributed by the neighbours `nb` of
the members `h` of the cluster that are not members themselves: `nb` itself
when it is active, and when it is inactive the elements of its active family
tree whose neighbour on the side `ns` is `h`, `ns` being the side of `nb` that
faces `h`.  Every element returned is one of these candidates, and every
candidate is an active element, so an inactive neighbour is never
returned. -/
theorem neighbor_candidates_spec (addr : Nat → Nat) (hinj : Function.Injective addr)
    (p : Partitioner) (mesh : Mesh) (cluster : Cluster) (r : List Nat)
    (hr : p.cluster_neighbor_elem addr mesh cluster = some r) (y : Nat) :
    ∃ cluster_neighbor,
      member_loop addr mesh (set_insert_all addr cluster.elems []) cluster.elems [] =
        some cluster_neighbor ∧
      (y ∈ cluster_neighbor.map Prod.snd ↔
        ∃ h ∈ cluster.elems, ∃ e, mesh.elem h = some e ∧
          ∃ nb, some nb ∈ e.neighbors ∧ nb ∉ cluster.elems ∧ candidate_of mesh h nb y) ∧
      (y ∈ r → y ∈ cluster_neighbor.map Prod.snd) ∧
      (y ∈ cluster_neighbor.map Prod.snd → ∃ ey, mesh.elem y = some ey ∧ ey.active = true) := by
  obtain ⟨cn, hcn, hrr⟩ := cluster_neighbor_elem_unfold addr p mesh cluster r hr
  have hok0 := set_insert_all_ok addr cluster.elems [] (set_ok_nil addr)
  have hce : ∀ nb, set_contains addr nb (set_insert_all addr cluster.elems []) = true ↔
      nb ∈ cluster.elems := by
    intro nb
    rw [set_contains_iff addr hinj _ hok0, mem_set_insert_all addr hinj _ _ (set_ok_nil addr)]
    simp
  refine ⟨cn, hcn, ?_, ?_, ?_⟩
  · rw [member_loop_spec addr hinj mesh _ cluster.elems hce cluster.elems [] cn hcn
      (set_ok_nil addr)]
    simp
  · intro hy
    rw [hrr] at hy
    have hy1 : y ∈ pick_loop p (cn.map Prod.snd) [] [] :=
      (List.perm_insertionSort _ _).mem_iff.1 hy
    rcases pick_loop_mem p _ _ _ y hy1 with h | h
    · exact absurd h (List.not_mem_nil _)
    · exact h
  · intro hy
    obtain ⟨x, hx, hxy⟩ := List.mem_map.1 hy
    have := member_loop_act addr mesh _ cluster.elems [] cn hcn
      (fun z hz => absurd hz (List.not_mem_nil _)) x hx
    rw [hxy] at this
    exact this

/-- Witness of C32: on the refined chain the cluster of the coarse element 0,
whose neighbour is the inactive parent in slot 1; the candidate is the child
in slot 2, which faces element 0. -/
theorem neighbor_candidates_spec_witness :
    ∃ cluster_neighbor,
      member_loop id refined_chain (set_insert_all id [0] []) [0] [] =
        some cluster_neighbor ∧
      (2 ∈ cluster_neighbor.map Prod.snd ↔
        ∃ h ∈ [0], ∃ e, refined_chain.elem h = some e ∧
          ∃ nb, some nb ∈ e.neighbors ∧ nb ∉ [0] ∧ candidate_of refined_chain h nb 2) ∧
      (2 ∈ [2] → 2 ∈ cluster_neighbor.map Prod.snd) ∧
      (2 ∈ cluster_neighbor.map Prod.snd →
        ∃ ey, refined_chain.elem 2 = some ey ∧ ey.active = true) :=
  neighbor_candidates_spec id (fun _ _ h => h) refined_chain_store refined_chain
    { id := 0, elems := [0] } [2] (by decide) 2

end Genius
